import Mathlib

/-! # Routing tree of `node.go`

A shallow embedding of the prefix tree in `src/node.go` (type `node`, methods
`isWildcard`, `countChildren`, `makeChild`, `findChild`, `sort`) together with
theorems about registration and lookup.

Modelling conventions

* A Go `string` is the list of its bytes; a byte is a natural number
  (`Str = List Nat`).  `str "/user/"` writes an ASCII literal.
* An `http.Handler` value is an opaque reference; `Option Handler` is the nilable
  interface value, `none` being `nil`.
* A `[]string` is a `List Str`; the nil slice and the empty slice are both `[]`.
* `*node` pointers form a finite tree (no method creates sharing or cycles), so a
  node is a value of the inductive type `Node` and `nodes` is `List Node`.
  In-place updates become explicit state passing.
* A run-time panic caused by an index or slice out of range is the result `none`
  of `findChild`; the explicit `panic` of `makeChild` is `Outcome.panicked`, which
  carries the node list as it is at the moment of the panic.
-/

namespace Router

/-- A Go string, as the list of its bytes. -/
abbrev Str := List Nat

/-- An opaque handler reference (`http.Handler`); `Option Handler` is the nilable value. -/
abbrev Handler := Nat

/-- The byte `':'`, the parameter marker. -/
abbrev colon : Nat := 58

/-- The byte `'/'`, the path separator. -/
abbrev slash : Nat := 47

/-- An ASCII string literal as a Go string. -/
def str (x : String) : Str := x.toList.map Char.toNat

/-- The struct `node`. -/
inductive Node where
  | mk (s : Str) (params : List Str) (children : List Node) (handler : Option Handler)
      (firstLevel : Bool) : Node

namespace Node

/-- Field `s`. -/
def s : Node → Str
  | mk s _ _ _ _ => s

/-- Field `params`. -/
def params : Node → List Str
  | mk _ ps _ _ _ => ps

/-- Field `children`. -/
def children : Node → List Node
  | mk _ _ ch _ _ => ch

/-- Field `handler`. -/
def handler : Node → Option Handler
  | mk _ _ _ h _ => h

/-- Field `firstLevel`. -/
def firstLevel : Node → Bool
  | mk _ _ _ _ fl => fl

end Node

/-! ## Go primitives -/

/-- The expression `s[i]` for a Go `int` index: `none` is the out-of-range panic. -/
def byteAt (s : Str) (i : Int) : Option Nat :=
  if 0 ≤ i ∧ i < s.length then s.get? i.toNat else none

/-- The expression `s[i:]`: `none` is the out-of-range panic. -/
def sliceFrom (s : Str) (i : Int) : Option Str :=
  if 0 ≤ i ∧ i ≤ s.length then some (s.drop i.toNat) else none

/-- The expression `s[:i]`: `none` is the out-of-range panic. -/
def sliceTo (s : Str) (i : Int) : Option Str :=
  if 0 ≤ i ∧ i ≤ s.length then some (s.take i.toNat) else none

/-- The function `strings.IndexByte`: index of the first `c` in `s`, or `-1`. -/
def indexByte : Str → Nat → Int
  | [], _ => -1
  | b :: rest, c =>
    if b = c then 0
    else if indexByte rest c = -1 then -1 else indexByte rest c + 1

/-- The function `strings.HasPrefix s pre`. -/
def hasPrefix (s pre : Str) : Bool := pre.isPrefixOf s

/-- Outcome of one iteration of a `for … range` loop over sibling nodes: go on with the
next sibling (`continue`, or falling off the end of the body) or `return`. -/
inductive LoopStep (α : Type) where
  | next : LoopStep α
  | ret (r : α) : LoopStep α

/-! ## `isWildcard`, `countChildren` -/

/-- Method `isWildcard`: `n.s[len(n.s)-1] == '/'`; `none` when the index is out of range. -/
def isWildcard (n : Node) : Option Bool :=
  (byteAt n.s ((n.s.length : Int) - 1)).map (fun b => decide (b = slash))

mutual
/-- Method `countChildren`: the number of descendants at all depths. -/
def countChildren : Node → Nat
  | Node.mk _ _ ch _ _ => countChildrenLoop ch
/-- The loop of `countChildren` over a child list: `i++; i += n.countChildren()`. -/
def countChildrenLoop : List Node → Nat
  | [] => 0
  | n :: rest => 1 + countChildren n + countChildrenLoop rest
end

/-! ## `makeChild` -/

/-- Result of `makeChild`: it returns normally with the updated node list, or it panics
with the duplicate-route error; `panicked` carries the node list as it is then. -/
inductive Outcome where
  | ok (t : List Node) : Outcome
  | panicked (t : List Node) : Outcome

/-- Result of the body of `makeChild` for one sibling that returned: the updated node, or
the panic together with the node as it is then. -/
inductive NodeOutcome where
  | ok (n : Node) : NodeOutcome
  | panicked (n : Node) : NodeOutcome

/-- The inner loop `for i := 0; i < minlen; i++` of `makeChild`, started at index `i` on
the remainders `n.s[i:]` and `path[i:]`: the first index at which the two strings differ,
or `none` when the loop runs to `minlen`. -/
def firstDiff : Str → Str → Nat → Option Nat
  | a :: s, b :: p, i => if a = b then firstDiff s p (i + 1) else some i
  | _, _, _ => none

mutual
/-- The body of the `NodesLoop` loop of `makeChild` for the sibling `n`. -/
def makeChildAt : Node → Str → List Str → Option Handler → LoopStep NodeOutcome
  | Node.mk s ps ch h fl, path, params, handler =>
    match firstDiff s path 0 with
    | some 0 => LoopStep.next
    | some i =>
      LoopStep.ret (NodeOutcome.ok
        (Node.mk (s.take i) []
          [Node.mk (s.drop i) ps ch h false, Node.mk (path.drop i) params [] handler false]
          none fl))
    | none =>
      if path.length < s.length then
        LoopStep.ret (NodeOutcome.ok
          (Node.mk (s.take path.length) params [Node.mk (s.drop path.length) ps ch h false]
            handler fl))
      else if path.length > s.length then
        match makeChild ch (path.drop s.length) params handler false with
        | Outcome.ok ch2 => LoopStep.ret (NodeOutcome.ok (Node.mk s ps ch2 h fl))
        | Outcome.panicked ch2 => LoopStep.ret (NodeOutcome.panicked (Node.mk s ps ch2 h fl))
      else if handler = none then
        LoopStep.ret (NodeOutcome.ok (Node.mk s ps ch h fl))
      else if h ≠ none then
        LoopStep.ret (NodeOutcome.panicked (Node.mk s ps ch h fl))
      else
        LoopStep.ret (NodeOutcome.ok (Node.mk s params ch handler fl))
/-- Method `makeChild` on the node list `nn`. -/
def makeChild : List Node → Str → List Str → Option Handler → Bool → Outcome
  | [], path, params, handler, firstLevel =>
    Outcome.ok [Node.mk path params [] handler firstLevel]
  | n :: rest, path, params, handler, firstLevel =>
    match makeChildAt n path params handler with
    | LoopStep.next =>
      match makeChild rest path params handler firstLevel with
      | Outcome.ok rest2 => Outcome.ok (n :: rest2)
      | Outcome.panicked rest2 => Outcome.panicked (n :: rest2)
    | LoopStep.ret (NodeOutcome.ok n2) => Outcome.ok (n2 :: rest)
    | LoopStep.ret (NodeOutcome.panicked n2) => Outcome.panicked (n2 :: rest)
end

/-! ## `findChild` -/

/-- The pair `(*node, []string)` returned by `findChild`. -/
abbrev Match := Option Node × List Str

/-- The test `child == nil || child.handler == nil`. -/
def noHandler : Option Node → Bool
  | none => true
  | some c => decide (c.handler = none)

mutual
/-- The body of the loop of `findChild` for the sibling `n`; `none` is a run-time panic. -/
def findChildAt : Node → Str → List Str → Option (LoopStep Match)
  | Node.mk s ps ch h fl, path, params =>
    if s = [colon] then
      if indexByte path slash = -1 then
        if h = none then some (LoopStep.ret (none, []))
        else some (LoopStep.ret (some (Node.mk s ps ch h fl), params ++ [path]))
      else
        match sliceFrom path (indexByte path slash), sliceTo path (indexByte path slash) with
        | some rest, some value =>
          match findChild ch rest (params ++ [value]) with
          | some r => some (LoopStep.ret r)
          | none => none
        | _, _ => none
    else if hasPrefix path s = false then some LoopStep.next
    else if path.length = s.length then
      if h = none then some (LoopStep.ret (none, []))
      else some (LoopStep.ret (some (Node.mk s ps ch h fl), params))
    else
      match sliceFrom path s.length with
      | none => none
      | some rest =>
        match findChild ch rest params with
        | none => none
        | some (child, params2) =>
          if noHandler child then
            match isWildcard (Node.mk s ps ch h fl) with
            | none => none
            | some w =>
              if w && !(fl && (decide (s = [slash]) || decide (ch.length > 0))) then
                if h = none then some (LoopStep.ret (none, []))
                else some (LoopStep.ret (some (Node.mk s ps ch h fl), params ++ [rest]))
              else some LoopStep.next
          else some (LoopStep.ret (child, params2))
/-- Method `findChild` on the node list `nn`; `none` is a run-time panic (index or slice
out of range), `some (none, [])` is the result `nil, nil`. -/
def findChild : List Node → Str → List Str → Option Match
  | [], _, _ => some (none, [])
  | n :: rest, path, params =>
    match findChildAt n path params with
    | none => none
    | some LoopStep.next => findChild rest path params
    | some (LoopStep.ret r) => some r
end

/-! ## `sort` -/

/-- The comparison function handed to `sort.Slice` by `sort`. -/
def less (a b : Node) : Bool :=
  if a.s = [colon] then false
  else if b.s = [colon] then true
  else decide (countChildren a > countChildren b)

/-- Insertion of `a` into a list ordered by `less`, after every element that is not
greater. -/
def insertNode (a : Node) : List Node → List Node
  | [] => [a]
  | b :: l => if less b a then b :: insertNode a l else a :: b :: l

mutual
/-- The node `n` after `n.children.sort()`. -/
def sortNode : Node → Node
  | Node.mk s ps ch h fl => Node.mk s ps (sort ch) h fl
/-- Method `sort`.  The library call `sort.Slice` is modelled by a stable insertion sort
(what the library runs on short slices); the children of every node are sorted as well.
The insertion works on nodes whose children are already sorted, which gives the same list
as sorting first, because `less` reads only `s` and `countChildren` (`sort_eq_map`). -/
def sort : List Node → List Node
  | [] => []
  | n :: rest => insertNode (sortNode n) (sort rest)
end

/-- The call `sort.Slice(nn, less)` alone, without the descent into the children. -/
def sortSlice : List Node → List Node
  | [] => []
  | n :: rest => insertNode n (sortSlice rest)

/-! ## Registration histories -/

/-- One call `makeChild(path, params, handler, firstLevel)`. -/
structure Call where
  path : Str
  params : List Str
  handler : Option Handler
  firstLevel : Bool

/-- Runs the calls `cs` in order on the node list `t`; `none` as soon as one panics. -/
def runCalls : List Call → List Node → Option (List Node)
  | [], t => some t
  | c :: cs, t =>
    match makeChild t c.path c.params c.handler c.firstLevel with
    | Outcome.ok t2 => runCalls cs t2
    | Outcome.panicked _ => none

/-! ## Relational description of `makeChild` -/

/-- The sibling with segment `s` is passed over by `makeChild` on `p`: the first bytes of
the two strings exist and differ. -/
def Skips (s p : Str) : Prop :=
  ∃ a s2 b p2, s = a :: s2 ∧ p = b :: p2 ∧ a ≠ b

/-- The successful runs of `makeChild(p, ps, hd, fl)`: `InsOk ps hd p fl t t2` says that the
call turns the node list `t` into `t2`.  One constructor for each way through the body. -/
inductive InsOk (ps : List Str) (hd : Option Handler) : Str → Bool → List Node → List Node → Prop
  | leaf (p : Str) (fl : Bool) : InsOk ps hd p fl [] [Node.mk p ps [] hd fl]
  | skip (p : Str) (fl : Bool) (n : Node) (rest rest2 : List Node) :
      Skips n.s p → InsOk ps hd p fl rest rest2 → InsOk ps hd p fl (n :: rest) (n :: rest2)
  | midSplit (fl : Bool) (c : Str) (x : Nat) (s2 : Str) (y : Nat) (p2 : Str) (ps0 : List Str)
      (ch : List Node) (h0 : Option Handler) (fl0 : Bool) (rest : List Node) :
      c ≠ [] → x ≠ y →
      InsOk ps hd (c ++ y :: p2) fl (Node.mk (c ++ x :: s2) ps0 ch h0 fl0 :: rest)
        (Node.mk c [] [Node.mk (x :: s2) ps0 ch h0 false, Node.mk (y :: p2) ps [] hd false]
          none fl0 :: rest)
  | headSplit (p : Str) (fl : Bool) (x : Nat) (s2 : Str) (ps0 : List Str)
      (ch : List Node) (h0 : Option Handler) (fl0 : Bool) (rest : List Node) :
      InsOk ps hd p fl (Node.mk (p ++ x :: s2) ps0 ch h0 fl0 :: rest)
        (Node.mk p ps [Node.mk (x :: s2) ps0 ch h0 false] hd fl0 :: rest)
  | descend (fl : Bool) (s : Str) (y : Nat) (p2 : Str) (ps0 : List Str)
      (ch ch2 : List Node) (h0 : Option Handler) (fl0 : Bool) (rest : List Node) :
      InsOk ps hd (y :: p2) false ch ch2 →
      InsOk ps hd (s ++ y :: p2) fl (Node.mk s ps0 ch h0 fl0 :: rest)
        (Node.mk s ps0 ch2 h0 fl0 :: rest)
  | keep (p : Str) (fl : Bool) (ps0 : List Str)
      (ch : List Node) (h0 : Option Handler) (fl0 : Bool) (rest : List Node) :
      hd = none →
      InsOk ps hd p fl (Node.mk p ps0 ch h0 fl0 :: rest) (Node.mk p ps0 ch h0 fl0 :: rest)
  | setHandler (p : Str) (fl : Bool) (ps0 : List Str)
      (ch : List Node) (fl0 : Bool) (rest : List Node) :
      hd ≠ none →
      InsOk ps hd p fl (Node.mk p ps0 ch none fl0 :: rest) (Node.mk p ps ch hd fl0 :: rest)

/-- The panicking runs of `makeChild` on the path `p`: some node reached by following `p`
from the top level ends exactly at `p` and has a handler. -/
inductive Dup : Str → List Node → Prop
  | skip (p : Str) (n : Node) (rest : List Node) :
      Skips n.s p → Dup p rest → Dup p (n :: rest)
  | descend (s : Str) (y : Nat) (p2 : Str) (ps0 : List Str)
      (ch : List Node) (h0 : Option Handler) (fl0 : Bool) (rest : List Node) :
      Dup (y :: p2) ch → Dup (s ++ y :: p2) (Node.mk s ps0 ch h0 fl0 :: rest)
  | here (p : Str) (ps0 : List Str) (ch : List Node) (h0 : Option Handler) (fl0 : Bool)
      (rest : List Node) :
      h0 ≠ none → Dup p (Node.mk p ps0 ch h0 fl0 :: rest)

/-- What an outcome of `makeChild(p, ps, hd, fl)` on `t` must look like. -/
def OutcomeSpec (ps : List Str) (hd : Option Handler) (p : Str) (fl : Bool) (t : List Node) :
    Outcome → Prop
  | Outcome.ok t2 => InsOk ps hd p fl t t2
  | Outcome.panicked t2 => t2 = t ∧ hd ≠ none ∧ Dup p t

/-- What the body of `makeChild` for the sibling `n` must yield. -/
def StepSpec (ps : List Str) (hd : Option Handler) (p : Str) (n : Node) :
    LoopStep NodeOutcome → Prop
  | LoopStep.next => Skips n.s p
  | LoopStep.ret (NodeOutcome.ok n2) => ∀ fl rest, InsOk ps hd p fl (n :: rest) (n2 :: rest)
  | LoopStep.ret (NodeOutcome.panicked n2) => n2 = n ∧ hd ≠ none ∧ ∀ rest, Dup p (n :: rest)

/-! ## Tree invariants -/

mutual
/-- The predicate `q` holds of every sibling list strictly below the node. -/
def belowNode (q : List Node → Bool) : Node → Bool
  | Node.mk _ _ ch _ _ => q ch && below q ch
/-- The predicate `q` holds of every sibling list strictly below the nodes of the list. -/
def below (q : List Node → Bool) : List Node → Bool
  | [] => true
  | n :: rest => belowNode q n && below q rest
end

/-- The predicate `q` holds of the sibling list `t` and of every sibling list below it. -/
def everyLevel (q : List Node → Bool) (t : List Node) : Bool := q t && below q t

/-- The first byte of the segment of a node, if any. -/
def first (n : Node) : Option Nat := n.s.head?

/-- No node of the sibling list has an empty segment. -/
def segsNonEmpty (l : List Node) : Bool := l.all (fun n => decide (n.s ≠ []))

/-- No two nodes of the sibling list have segments beginning with the same byte. -/
def firstBytesDistinct (l : List Node) : Bool := decide ((l.map first).Nodup)

/-- Segments are non-empty and begin with pairwise different bytes. -/
def compressed (l : List Node) : Bool := segsNonEmpty l && firstBytesDistinct l

/-- Every segment of the sibling list is the parameter marker alone or has no `':'`. -/
def colonsApart (l : List Node) : Bool :=
  l.all (fun n => decide (n.s = [colon]) || decide (colon ∉ n.s))

/-- No parameter node stands before a node that is not a parameter node. -/
def paramLast : List Node → Bool
  | [] => true
  | n :: rest => (decide (n.s ≠ [colon]) || rest.all (fun m => decide (m.s = [colon])))
      && paramLast rest

/-! ## Registered routes -/

mutual
/-- The routes below and at a node, with paths relative to the level of the node. -/
def routesNode : Node → List (Str × List Str × Handler)
  | Node.mk s ps ch h _ =>
    (match h with
      | some hd => [(s, ps, hd)]
      | none => [])
    ++ (routes ch).map (fun r => (s ++ r.1, r.2))
/-- The routes of a node list: a triple (full path, parameter names, handler) for every
node with a handler, the full path being the concatenation of the segments from the top
level down to the node. -/
def routes : List Node → List (Str × List Str × Handler)
  | [] => []
  | n :: rest => routesNode n ++ routes rest
end

/-! ## Shape of lookup results -/

/-- A result of `findChild` is `nil, nil` or a node with a handler (and it is not a
run-time panic). -/
def Shaped (r : Option Match) : Prop :=
  r = some (none, []) ∨ ∃ n vs, r = some (some n, vs) ∧ n.handler ≠ none

/-- A result of the body of `findChild`: `continue`, or a return of the shape `Shaped`. -/
def StepShaped (r : Option (LoopStep Match)) : Prop :=
  r = some LoopStep.next ∨ ∃ m, r = some (LoopStep.ret m) ∧ Shaped (some m)

/-! ## Conditions for the lookup of a registered path -/

/-- The conditions on a sibling list under which a registered path is found again. -/
def lookupReady (l : List Node) : Bool := compressed l && colonsApart l && paramLast l

/-- Every `':'` of the string is followed by `'/'` or ends the string. -/
def ColonsClosed (x : Str) : Prop :=
  ∀ u w, x = u ++ colon :: w → w = [] ∨ ∃ w2, w = slash :: w2

/-! ## The contract of `sort` -/

mutual
/-- The node `n2` is the node `n` with the sibling lists below it reordered. -/
def ReorderedNode : Node → Node → Prop
  | Node.mk s ps ch h fl, n2 =>
    n2.s = s ∧ n2.params = ps ∧ n2.handler = h ∧ n2.firstLevel = fl ∧
      ∃ u, ReorderedEach ch u ∧ u.Perm n2.children
/-- The list `u` is the list `t` with every node replaced by a reordering of it. -/
def ReorderedEach : List Node → List Node → Prop
  | [], u => u = []
  | n :: rest, u => ∃ n2 rest2, u = n2 :: rest2 ∧ ReorderedNode n n2 ∧ ReorderedEach rest rest2
end

/-- The node list `t2` is the node list `t` with the sibling list of every level permuted. -/
def Reordered (t t2 : List Node) : Prop := ∃ u, ReorderedEach t u ∧ u.Perm t2

/-- The sibling list is ordered by `less`: no node is less than one that stands before it. -/
def orderedLevel : List Node → Bool
  | [] => true
  | a :: l => l.all (fun b => !less b a) && orderedLevel l

/-- What `sort.Slice` promises of the method `sort`: the node list `t2` is `t` with the
siblings of every level permuted so that every level is ordered by `less`.  The library
promises no more (it is not stable), so `t2` ranges over every tree that `sort` may leave. -/
def SortOutcome (t t2 : List Node) : Prop :=
  Reordered t t2 ∧ everyLevel orderedLevel t2 = true

/-- The node list `t2` is what the method `sort` leaves of `t`: the list computed by `sort`
as modelled here, or any other list allowed by the contract of `sort.Slice`. -/
def AfterSort (t t2 : List Node) : Prop := t2 = sort t ∨ SortOutcome t t2

/-! ## Node boundaries -/

/-- The string `x` is a node boundary of the node list `t`: it is empty, or it is the
concatenation of the segments from the top level down to some node. -/
inductive Boundary : List Node → Str → Prop
  | root (t : List Node) : Boundary t []
  | step (t : List Node) (n : Node) (y : Str) :
      n ∈ t → Boundary n.children y → Boundary t (n.s ++ y)

/-- The path `p` respects the parameter markers with regard to the node list `t`: before
every `':'` of `p` there is a node boundary of `t`, and after it too unless it ends `p`. -/
def Disciplined (t : List Node) (p : Str) : Prop :=
  ∀ u w, p = u ++ colon :: w → Boundary t u ∧ (w = [] ∨ Boundary t (u ++ [colon]))

/-- The calls `cs`, made in order after calls on the paths `known`, respect the parameter
markers: for every `':'` in the path of a call, the part before the marker is the path of
an earlier call, and so is the part up to the marker unless the marker ends the path. -/
def CallsDisciplined : List Str → List Call → Prop
  | _, [] => True
  | known, c :: cs =>
    (∀ u w, c.path = u ++ colon :: w → u ∈ known ∧ (w = [] ∨ u ++ [colon] ∈ known)) ∧
      CallsDisciplined (c.path :: known) cs

/-- The paths of the calls that carry a handler. -/
def handlerPaths : List Call → List Str
  | [] => []
  | c :: cs => if c.handler = none then handlerPaths cs else c.path :: handlerPaths cs

/-! ## Registration of a route -/

/-- The registration of one route: its internal path (with `':'` where a parameter
stands), the parameter names, the handler and the flag of the final call, and what the
calls without handler pass as parameter names and flag (left open by the decomposition). -/
structure Registration where
  path : Str
  names : List Str
  handler : Handler
  firstLevel : Bool
  auxParams : Str → List Str
  auxFlag : Str → Bool

/-- The prefixes of `done ++ rest` that end immediately before or immediately after a
`':'` of `rest`, by increasing length. -/
def markerPrefixesFrom (done : Str) : Str → List Str
  | [] => []
  | b :: rest =>
    if b = colon then done :: (done ++ [colon]) :: markerPrefixesFrom (done ++ [b]) rest
    else markerPrefixesFrom (done ++ [b]) rest

/-- The prefixes of the path that end immediately before or after a `':'`. -/
def markerPrefixes (path : Str) : List Str := markerPrefixesFrom [] path

/-- The calls that register a route: `makeChild` without handler on every prefix that
ends immediately before or after a marker, then `makeChild` on the full path with the
parameter names and the handler. -/
def registerCalls (r : Registration) : List Call :=
  (markerPrefixes r.path).map (fun q => Call.mk q (r.auxParams q) none (r.auxFlag q))
    ++ [Call.mk r.path r.names (some r.handler) r.firstLevel]

/-- Every `':'` of the path is a whole segment: it is preceded by `'/'` and followed by
`'/'` or by the end of the path; `prev` is the byte before the string, if any. -/
def markersWholeFrom (prev : Option Nat) : Str → Bool
  | [] => true
  | b :: rest =>
    (decide (b ≠ colon) ||
      (decide (prev = some slash) && (decide (rest = []) || decide (rest.head? = some slash))))
    && markersWholeFrom (some b) rest

/-- Every `':'` of the path is a whole segment. -/
def markersWhole (path : Str) : Bool := markersWholeFrom none path

/-! ## Concrete routes and trees used as witnesses -/

/-- The calls for `/team` and `/teams` with handlers and `/tea` without. -/
def teamCalls : List Call :=
  [Call.mk (str "/team") [] (some 1) true, Call.mk (str "/teams") [] (some 2) true,
    Call.mk (str "/tea") [] none true]

/-- The tree left by `teamCalls`. -/
def teamTree : List Node :=
  [Node.mk (str "/tea") []
    [Node.mk (str "m") [] [Node.mk (str "s") [] [] (some 2) false] (some 1) false] none true]

/-- The calls for the routes `/static/` and `/static/logo.png`. -/
def staticCalls : List Call :=
  [Call.mk (str "/static/") [] (some 1) true, Call.mk (str "/static/logo.png") [] (some 2) true]

/-- The tree left by `staticCalls`. -/
def staticTree : List Node :=
  [Node.mk (str "/static/") [] [Node.mk (str "logo.png") [] [] (some 2) false] (some 1) true]

/-- A tree with a handler-less literal node beside a parameter node. -/
def userTree : List Node :=
  [Node.mk (str "/user/") [] [Node.mk (str "new") [] [] none false,
    Node.mk [colon] [str "id"] [] (some 3) false] none true]

/-- A registration with firstLevel set, whose calls without handler pass no names. -/
def route (path : String) (names : List String) (h : Handler) : Registration :=
  Registration.mk (str path) (names.map str) h true (fun _ => []) (fun _ => true)

/-- The routes `/user/:id`, `/user/:id/posts`, `/static/`, `/team` and `/teams`. -/
def sampleRoutes : List Registration :=
  [route "/user/:" ["id"] 1, route "/user/:/posts" ["id"] 2, route "/static/" [] 3,
    route "/team" [] 4, route "/teams" [] 5]

/-- The routes `/user/news`, `/user/newt` and `/user/:id`. -/
def newsRoutes : List Registration :=
  [route "/user/news" [] 1, route "/user/newt" [] 2, route "/user/:" ["id"] 3]

/-- The tree left by the registration of `newsRoutes`. -/
def newsTree : List Node :=
  [Node.mk (str "/user/") []
    [Node.mk (str "new") []
      [Node.mk (str "s") [] [] (some 1) false, Node.mk (str "t") [] [] (some 2) false]
      none false,
     Node.mk [colon] [str "id"] [] (some 3) false]
    none true]

/-- The request is an instance of the route pattern: the pattern with every `':'`
replaced by a non-empty string without `'/'`. -/
def matchesRoute : Str → Str → Bool
  | [], req => decide (req = [])
  | b :: pat, req =>
    if b = colon then
      decide (req.takeWhile (fun c => decide (c ≠ slash)) ≠ []) &&
        matchesRoute pat (req.dropWhile (fun c => decide (c ≠ slash)))
    else
      match req with
      | [] => false
      | c :: req2 => decide (b = c) && matchesRoute pat req2

/-! ## The order left by `sort` -/

/-- Among the nodes of the sibling list that are not parameter nodes, `countChildren`
does not increase from first to last. -/
def countsDescend : List Node → Bool
  | [] => true
  | a :: l =>
    (decide (a.s = [colon]) ||
      l.all (fun b => decide (b.s = [colon]) || decide (countChildren b ≤ countChildren a)))
    && countsDescend l

/-! ## Consequences of prefix compression -/

/-- At most one node of the sibling list has a segment that begins with the byte `b`. -/
def atMostOneBegins (b : Nat) (l : List Node) : Bool :=
  decide ((l.filter (fun n => decide (first n = some b))).length ≤ 1)

/-- At most one node of the sibling list is a parameter node. -/
def atMostOneParam (l : List Node) : Bool :=
  decide ((l.filter (fun n => decide (n.s = [colon]))).length ≤ 1)

/-- The tree left by the registration of `/foo/:id/x` and `/:p/y`. -/
def fooTree : List Node :=
  [Node.mk (str "/") []
    [Node.mk (str "foo/") []
      [Node.mk [colon] [] [Node.mk (str "/x") [str "id"] [] (some 1) false] none false]
      none false,
     Node.mk [colon] [] [Node.mk (str "/y") [str "p"] [] (some 2) false] none false]
    none true]

/-- The routes `/foo/:id/x` and `/:p/y`. -/
def fooRoutes : List Registration := [route "/foo/:/x" ["id"] 1, route "/:/y" ["p"] 2]

/-! ## Soundness of lookup -/

/-- The node `n` lies in the node list `t`, and `segs` are the segments on the way from
the top level down to `n`, the segment of `n` included. -/
inductive Reaches : List Node → List Str → Node → Prop
  | top (t : List Node) (n : Node) : n ∈ t → Reaches t [n.s] n
  | under (t : List Node) (m : Node) (segs : List Str) (n : Node) :
      m ∈ t → Reaches m.children segs n → Reaches t (m.s :: segs) n

/-- The concatenation of the segments `segs` in which every `":"` segment is replaced by
the next value of `vs`, followed by the value that is left over, if any. -/
def fill : List Str → List Str → Str
  | [], [] => []
  | [], v :: _ => v
  | s :: segs, vs =>
    if s = [colon] then
      match vs with
      | [] => fill segs []
      | v :: vs2 => v ++ fill segs vs2
    else s ++ fill segs vs

/-- The values `vs` explain the path along the segments `segs` that lead to the node `n`:
with `m` the number of `":"` segments, there are `m` or `m + 1` values, the first `m`
have no `'/'`, the path is the segments filled with the values, and when there are
`m + 1` values the segment of `n` ends in `'/'`. -/
def Explains (segs vs : List Str) (path : Str) (n : Node) : Prop :=
  (vs.length = segs.count [colon] ∨ vs.length = segs.count [colon] + 1) ∧
  (∀ v ∈ vs.take (segs.count [colon]), slash ∉ v) ∧
  path = fill segs vs ∧
  (vs.length = segs.count [colon] + 1 → n.s.getLast? = some slash)

/-! ## Trees that differ in sibling order and parameter names only -/

mutual
/-- The node `n2` has the segment, handler and flag of the node `n`, and children alike
those of `n`; the parameter names may differ. -/
def AlikeNode : Node → Node → Prop
  | Node.mk s _ ch h fl, n2 =>
    n2.s = s ∧ n2.handler = h ∧ n2.firstLevel = fl ∧
      AlikeEach ch n2.children ∧ ∀ m2 ∈ n2.children, AlikeSome ch m2
/-- Every node of the first list is alike some node of the second. -/
def AlikeEach : List Node → List Node → Prop
  | [], _ => True
  | n :: rest, t2 => (∃ n2 ∈ t2, AlikeNode n n2) ∧ AlikeEach rest t2
/-- Some node of the list is alike the node `n2`. -/
def AlikeSome : List Node → Node → Prop
  | [], _ => False
  | n :: rest, n2 => AlikeNode n n2 ∨ AlikeSome rest n2
end

/-- The node lists `t` and `t2` hold the same nodes at every level, up to the order of
siblings and the parameter names. -/
def Alike (t t2 : List Node) : Prop :=
  AlikeEach t t2 ∧ ∀ m2 ∈ t2, AlikeSome t m2

/-- What a caller sees of a result of `findChild`: the handler found, if any, and the
parameter values; `none` is a run-time panic. -/
def answer (r : Option Match) : Option (Option Handler × List Str) :=
  r.map (fun m => (m.1.bind Node.handler, m.2))

/-- The result of the loop of `findChild` once the body has run for one sibling and `k` is
the result of the loop for the siblings after it. -/
def andThen (step : Option (LoopStep Match)) (k : Option Match) : Option Match :=
  match step with
  | none => none
  | some LoopStep.next => k
  | some (LoopStep.ret r) => some r

/-- The node is a parameter node. -/
def isParam (n : Node) : Bool := decide (n.s = [colon])

/-- A tree with the literal siblings `a` and `b` and a parameter node under `/`. -/
def abTree : List Node :=
  [Node.mk (str "/") []
    [Node.mk (str "a") [] [] (some 1) false,
     Node.mk (str "b") [] [Node.mk (str "c") [] [] (some 2) false] none false,
     Node.mk [colon] [str "id"] [] (some 3) false]
    none true]

/-- The tree `abTree` with the literal siblings `a` and `b` exchanged. -/
def baTree : List Node :=
  [Node.mk (str "/") []
    [Node.mk (str "b") [] [Node.mk (str "c") [] [] (some 2) false] none false,
     Node.mk (str "a") [] [] (some 1) false,
     Node.mk [colon] [str "id"] [] (some 3) false]
    none true]

/-! ## What a tree is made of: flags, prefixes of boundaries, handlers by path -/

/-- No node of the sibling list has the flag `firstLevel`. -/
def unflagged (l : List Node) : Bool := l.all (fun n => decide (n.firstLevel = false))

/-- The nodes of the top level have the flag `firstLevel` equal to `fl`, the nodes of the
levels below do not have the flag. -/
def Flagged (fl : Bool) (t : List Node) : Bool :=
  t.all (fun n => decide (n.firstLevel = fl)) && below unflagged t

/-- The string `x` is a prefix of a node boundary of the node list `t`. -/
def IsPre (t : List Node) (x : Str) : Prop := ∃ y, Boundary t (x ++ y)

/-- The string `c` is the longest prefix of `p` with the property `S`. -/
def Longest (S : Str → Prop) (p c : Str) : Prop :=
  c <+: p ∧ S c ∧ ∀ d, d <+: p → S d → d.length ≤ c.length

/-- The node list `t` has a route with path `x` and handler `h`. -/
def Served (t : List Node) (x : Str) (h : Handler) : Prop := ∃ ps, (x, ps, h) ∈ routes t

/-- The calls for the routes `ac`, `ad` and `b`. -/
def acdbCalls : List Call :=
  [Call.mk (str "ac") [] (some 1) true, Call.mk (str "ad") [] (some 2) true,
    Call.mk (str "b") [] (some 3) true]

/-- The tree left by `acdbCalls`. -/
def acdbTree : List Node :=
  [Node.mk (str "a") []
    [Node.mk (str "c") [] [] (some 1) false, Node.mk (str "d") [] [] (some 2) false]
    none true,
   Node.mk (str "b") [] [] (some 3) true]

/-- The tree left on `acdbTree` by a call with the empty path followed by a call for the
route `bx`. -/
def emptyThenBx : List Node :=
  [Node.mk [] []
    [Node.mk (str "a") []
      [Node.mk (str "c") [] [] (some 1) false, Node.mk (str "d") [] [] (some 2) false]
      none false,
     Node.mk (str "bx") [] [] (some 4) false]
    none true,
   Node.mk (str "b") [] [] (some 3) true]

/-- The tree left on `acdbTree` by a call for the route `bx` followed by a call with the
empty path. -/
def bxThenEmpty : List Node :=
  [Node.mk [] []
    [Node.mk (str "a") []
      [Node.mk (str "c") [] [] (some 1) false, Node.mk (str "d") [] [] (some 2) false]
      none false]
    none true,
   Node.mk (str "b") [] [Node.mk (str "x") [] [] (some 4) false] (some 3) true]

/-! # Theorems -/

/-! ## String lemmas -/

theorem firstDiff_some {s p : Str} {i k : Nat} (h : firstDiff s p i = some k) :
    ∃ c x s2 y p2, k = i + c.length ∧ s = c ++ x :: s2 ∧ p = c ++ y :: p2 ∧ x ≠ y := by
  induction s generalizing p i with
  | nil => simp [firstDiff] at h
  | cons a s ih =>
    cases p with
    | nil => simp [firstDiff] at h
    | cons b p =>
      simp only [firstDiff] at h
      split at h
      · next hab =>
        obtain ⟨c, x, s2, y, p2, hk, hs, hp, hxy⟩ := ih h
        refine ⟨a :: c, x, s2, y, p2, ?_, ?_, ?_, hxy⟩
        · simp [hk]; omega
        · simp [hs]
        · simp [hp, hab]
      · next hab =>
        refine ⟨[], a, s, b, p, ?_, rfl, rfl, hab⟩
        simp at h; simp [h]

theorem firstDiff_none {s p : Str} {i : Nat} (h : firstDiff s p i = none) :
    (∃ t, p = s ++ t) ∨ (∃ t, s = p ++ t) := by
  induction s generalizing p i with
  | nil => exact Or.inl ⟨p, rfl⟩
  | cons a s ih =>
    cases p with
    | nil => exact Or.inr ⟨a :: s, rfl⟩
    | cons b p =>
      simp only [firstDiff] at h
      split at h
      · next hab =>
        rcases ih h with ⟨t, ht⟩ | ⟨t, ht⟩
        · exact Or.inl ⟨t, by simp [ht, hab]⟩
        · exact Or.inr ⟨t, by simp [ht, hab]⟩
      · simp at h

theorem firstDiff_zero {s p : Str} (h : firstDiff s p 0 = some 0) : Skips s p := by
  obtain ⟨c, x, s2, y, p2, hk, hs, hp, hxy⟩ := firstDiff_some h
  have hc : c = [] := by
    cases c with
    | nil => rfl
    | cons a c => simp at hk
  subst hc
  exact ⟨x, s2, y, p2, hs, hp, hxy⟩

theorem firstDiff_succ {s p : Str} {k : Nat} (h : firstDiff s p 0 = some (k + 1)) :
    ∃ c x s2 y p2, c ≠ [] ∧ c.length = k + 1 ∧ s = c ++ x :: s2 ∧ p = c ++ y :: p2 ∧ x ≠ y := by
  obtain ⟨c, x, s2, y, p2, hk, hs, hp, hxy⟩ := firstDiff_some h
  refine ⟨c, x, s2, y, p2, ?_, by omega, hs, hp, hxy⟩
  intro hc
  simp [hc] at hk

/-! ## `makeChild` meets its relational description -/

mutual
theorem makeChildAt_spec (ps : List Str) (hd : Option Handler) :
    ∀ (n : Node) (p : Str), StepSpec ps hd p n (makeChildAt n p ps hd)
  | Node.mk s ps0 ch h0 fl0, p => by
    rw [makeChildAt]
    split
    · next hfd => exact firstDiff_zero hfd
    · next i hne hfd =>
      cases i with
      | zero => exact absurd rfl hne
      | succ k =>
        obtain ⟨c, x, s2, y, p2, hc, hlen, hs, hp, hxy⟩ := firstDiff_succ hfd
        intro fl rest
        subst hs hp
        have h1 : List.take (k + 1) (c ++ x :: s2) = c := by
          rw [← hlen]; simp
        have h2 : List.drop (k + 1) (c ++ x :: s2) = x :: s2 := by
          rw [← hlen]; simp
        have h3 : List.drop (k + 1) (c ++ y :: p2) = y :: p2 := by
          rw [← hlen]; simp
        rw [h1, h2, h3]
        exact InsOk.midSplit fl c x s2 y p2 ps0 ch h0 fl0 rest hc hxy
    · next hfd =>
      have hpre := firstDiff_none hfd
      split
      · next hlt =>
        intro fl rest
        rcases hpre with ⟨t, ht⟩ | ⟨t, ht⟩
        · subst ht; simp at hlt
        · subst ht
          cases t with
          | nil => simp at hlt
          | cons x s2 =>
            simp only [List.take_left, List.drop_left]
            exact InsOk.headSplit p fl x s2 ps0 ch h0 fl0 rest
      · next hnlt =>
        split
        · next hgt =>
          rcases hpre with ⟨t, ht⟩ | ⟨t, ht⟩
          · subst ht
            cases t with
            | nil => simp at hgt
            | cons y p2 =>
              have ih := makeChild_spec ps hd ch (y :: p2) false
              simp only [List.drop_left]
              cases hmk : makeChild ch (y :: p2) ps hd false with
              | ok ch2 =>
                rw [hmk] at ih
                intro fl rest
                exact InsOk.descend fl s y p2 ps0 ch ch2 h0 fl0 rest ih
              | panicked ch2 =>
                rw [hmk] at ih
                obtain ⟨he, hhd, hdup⟩ := ih
                refine ⟨by rw [he], hhd, fun rest => ?_⟩
                exact Dup.descend s y p2 ps0 ch h0 fl0 rest hdup
          · subst ht; simp at hgt
        · next hngt =>
          have hps : p = s := by
            rcases hpre with ⟨t, ht⟩ | ⟨t, ht⟩
            · subst ht
              cases t with
              | nil => simp
              | cons y p2 => simp at hngt
            · subst ht
              cases t with
              | nil => simp
              | cons y p2 => simp at hnlt
          subst hps
          split
          · next hnone =>
            intro fl rest
            exact InsOk.keep p fl ps0 ch h0 fl0 rest hnone
          · next hsome =>
            split
            · next hh0 =>
              exact ⟨rfl, hsome, fun rest => Dup.here p ps0 ch h0 fl0 rest hh0⟩
            · next hh0 =>
              intro fl rest
              have : h0 = none := by simpa using hh0
              subst this
              exact InsOk.setHandler p fl ps0 ch fl0 rest hsome
theorem makeChild_spec (ps : List Str) (hd : Option Handler) :
    ∀ (t : List Node) (p : Str) (fl : Bool), OutcomeSpec ps hd p fl t (makeChild t p ps hd fl)
  | [], p, fl => by
    rw [makeChild]
    exact InsOk.leaf p fl
  | n :: rest, p, fl => by
    have hn := makeChildAt_spec ps hd n p
    have hr := makeChild_spec ps hd rest p fl
    rw [makeChild]
    cases hstep : makeChildAt n p ps hd with
    | next =>
      rw [hstep] at hn
      cases hmk : makeChild rest p ps hd fl with
      | ok rest2 =>
        rw [hmk] at hr
        exact InsOk.skip p fl n rest rest2 hn hr
      | panicked rest2 =>
        rw [hmk] at hr
        obtain ⟨he, hhd, hdup⟩ := hr
        exact ⟨by rw [he], hhd, Dup.skip p n rest hn hdup⟩
    | ret r =>
      rw [hstep] at hn
      cases r with
      | ok n2 => exact hn fl rest
      | panicked n2 =>
        obtain ⟨he, hhd, hdup⟩ := hn
        exact ⟨by rw [he], hhd, hdup rest⟩
end

/-! ## A failed registration changes nothing -/

theorem makeChild_panicked_eq {t t2 : List Node} {p : Str} {ps : List Str}
    {hd : Option Handler} {fl : Bool} (h : makeChild t p ps hd fl = Outcome.panicked t2) :
    t2 = t ∧ hd ≠ none ∧ Dup p t := by
  have hs := makeChild_spec ps hd t p fl
  rw [h] at hs
  exact hs

theorem makeChild_ok_ins {t t2 : List Node} {p : Str} {ps : List Str}
    {hd : Option Handler} {fl : Bool} (h : makeChild t p ps hd fl = Outcome.ok t2) :
    InsOk ps hd p fl t t2 := by
  have hs := makeChild_spec ps hd t p fl
  rw [h] at hs
  exact hs

/-! ## Invariants, level by level -/

theorem below_iff (q : List Node → Bool) (t : List Node) :
    below q t = true ↔ ∀ n ∈ t, everyLevel q n.children = true := by
  induction t with
  | nil => simp [below]
  | cons n rest ih =>
    cases n with
    | mk s ps ch h fl =>
      simp [below, belowNode, ih, everyLevel, Node.children]

theorem everyLevel_iff (q : List Node → Bool) (t : List Node) :
    everyLevel q t = true ↔ q t = true ∧ ∀ n ∈ t, everyLevel q n.children = true := by
  rw [← below_iff]
  simp [everyLevel]

theorem everyLevel_nil (q : List Node → Bool) : everyLevel q [] = q [] := by
  simp [everyLevel, below]

mutual
theorem tree_induction_node {P : List Node → Prop}
    (h : ∀ t, (∀ n ∈ t, P n.children) → P t) : ∀ n : Node, P n.children
  | Node.mk _ _ ch _ _ => h ch (tree_induction_list h ch)
theorem tree_induction_list {P : List Node → Prop}
    (h : ∀ t, (∀ n ∈ t, P n.children) → P t) : ∀ t : List Node, ∀ n ∈ t, P n.children
  | [], n, hn => by simp at hn
  | m :: rest, n, hn => by
    rcases List.mem_cons.1 hn with he | hn2
    · rw [he]; exact tree_induction_node h m
    · exact tree_induction_list h rest n hn2
end

/-- Induction over node lists: a property holds of a sibling list as soon as it holds of
the child lists of all its nodes. -/
theorem tree_induction {P : List Node → Prop}
    (h : ∀ t, (∀ n ∈ t, P n.children) → P t) (t : List Node) : P t :=
  h t (tree_induction_list h t)

theorem everyLevel_mono {q1 q2 : List Node → Bool} (hq : ∀ l, q1 l = true → q2 l = true)
    (t : List Node) : everyLevel q1 t = true → everyLevel q2 t = true := by
  induction t using tree_induction with
  | h t ih =>
    intro h1
    rw [everyLevel_iff] at h1 ⊢
    exact ⟨hq t h1.1, fun n hn => ih n hn (h1.2 n hn)⟩

theorem everyLevel_cons (q : List Node → Bool) (s : Str) (ps : List Str) (ch : List Node)
    (h : Option Handler) (fl : Bool) (rest : List Node) :
    everyLevel q (Node.mk s ps ch h fl :: rest) = true ↔
      q (Node.mk s ps ch h fl :: rest) = true ∧ everyLevel q ch = true ∧
        ∀ n ∈ rest, everyLevel q n.children = true := by
  rw [everyLevel_iff]
  simp [Node.children]

theorem compressed_iff (l : List Node) :
    compressed l = true ↔ (∀ n ∈ l, n.s ≠ []) ∧ (l.map first).Nodup := by
  simp [compressed, segsNonEmpty, firstBytesDistinct]

/-! ## Registration keeps the tree prefix-compressed -/

theorem InsOk.firsts {ps : List Str} {hd : Option Handler} {p : Str} {fl : Bool}
    {t t2 : List Node} (h : InsOk ps hd p fl t t2) (hp : p ≠ []) :
    t2.map first = t.map first ∨
      (t2.map first = t.map first ++ [p.head?] ∧ p.head? ∉ t.map first) := by
  induction h with
  | leaf p fl => right; simp [first, Node.s]
  | skip p fl n rest rest2 hsk _ ih =>
    rcases ih hp with h1 | ⟨h1, h2⟩
    · left; simp [h1]
    · right
      refine ⟨by simp [h1], ?_⟩
      obtain ⟨a, s2, b, p2, hs, hpp, hab⟩ := hsk
      simp only [List.map_cons, List.mem_cons, not_or]
      refine ⟨?_, h2⟩
      simp [first, hs, hpp, Ne.symm hab]
  | midSplit fl c x s2 y p2 ps0 ch h0 fl0 rest hc hxy =>
    left
    cases c with
    | nil => exact absurd rfl hc
    | cons a c => simp [first, Node.s]
  | headSplit p fl x s2 ps0 ch h0 fl0 rest =>
    left
    cases p with
    | nil => exact absurd rfl hp
    | cons a p => simp [first, Node.s]
  | descend fl s y p2 ps0 ch ch2 h0 fl0 rest _ _ => left; simp [first, Node.s]
  | keep p fl ps0 ch h0 fl0 rest _ => left; rfl
  | setHandler p fl ps0 ch fl0 rest _ => left; simp [first, Node.s]

theorem InsOk.keeps_compressed {ps : List Str} {hd : Option Handler} {p : Str} {fl : Bool}
    {t t2 : List Node} (h : InsOk ps hd p fl t t2) (hp : p ≠ [])
    (ht : everyLevel compressed t = true) : everyLevel compressed t2 = true := by
  induction h with
  | leaf p fl =>
    rw [everyLevel_cons]
    simp [compressed_iff, Node.s, hp, everyLevel_nil]
  | skip p fl n rest rest2 hsk hins ih =>
    have hfirst := hins.firsts hp
    rw [everyLevel_iff] at ht ⊢
    obtain ⟨hq, hch⟩ := ht
    rw [compressed_iff] at hq
    have hrest : everyLevel compressed rest = true := by
      rw [everyLevel_iff]
      refine ⟨?_, fun m hm => hch m (List.mem_cons_of_mem _ hm)⟩
      rw [compressed_iff]
      exact ⟨fun m hm => hq.1 m (List.mem_cons_of_mem _ hm), (List.nodup_cons.1 hq.2).2⟩
    have ih2 := ih hp hrest
    rw [everyLevel_iff, compressed_iff] at ih2
    refine ⟨?_, ?_⟩
    · rw [compressed_iff]
      refine ⟨?_, ?_⟩
      · intro m hm
        rcases List.mem_cons.1 hm with he | hm2
        · rw [he]; exact hq.1 n (List.mem_cons_self _ _)
        · exact ih2.1.1 m hm2
      · rw [List.map_cons, List.nodup_cons]
        refine ⟨?_, ih2.1.2⟩
        have hn := (List.nodup_cons.1 hq.2).1
        rcases hfirst with h1 | ⟨h1, _⟩
        · rw [h1]; exact hn
        · rw [h1]
          simp only [List.mem_append, List.mem_singleton, not_or]
          refine ⟨hn, ?_⟩
          obtain ⟨a, s2, b, p2, hs, hpp, hab⟩ := hsk
          simp [first, hs, hpp, hab]
    · intro m hm
      rcases List.mem_cons.1 hm with he | hm2
      · rw [he]; exact hch n (List.mem_cons_self _ _)
      · exact ih2.2 m hm2
  | midSplit fl c x s2 y p2 ps0 ch h0 fl0 rest hc hxy =>
    rw [everyLevel_cons] at ht ⊢
    obtain ⟨hq, hch, hrest⟩ := ht
    rw [compressed_iff] at hq
    refine ⟨?_, ?_, hrest⟩
    · rw [compressed_iff]
      refine ⟨?_, ?_⟩
      · intro m hm
        rcases List.mem_cons.1 hm with he | hm2
        · rw [he]; exact hc
        · exact hq.1 m (List.mem_cons_of_mem _ hm2)
      · have := hq.2
        cases c with
        | nil => exact absurd rfl hc
        | cons a c => simpa [first, Node.s] using this
    · rw [everyLevel_cons]
      refine ⟨?_, hch, ?_⟩
      · rw [compressed_iff]
        simp [first, Node.s, hxy]
      · intro m hm
        simp only [List.mem_singleton] at hm
        rw [hm]
        simp [Node.children, everyLevel_nil, compressed_iff]
  | headSplit p fl x s2 ps0 ch h0 fl0 rest =>
    rw [everyLevel_cons] at ht ⊢
    obtain ⟨hq, hch, hrest⟩ := ht
    rw [compressed_iff] at hq
    refine ⟨?_, ?_, hrest⟩
    · rw [compressed_iff]
      refine ⟨?_, ?_⟩
      · intro m hm
        rcases List.mem_cons.1 hm with he | hm2
        · rw [he]; exact hp
        · exact hq.1 m (List.mem_cons_of_mem _ hm2)
      · have := hq.2
        cases p with
        | nil => exact absurd rfl hp
        | cons a p => simpa [first, Node.s] using this
    · rw [everyLevel_cons]
      refine ⟨?_, hch, ?_⟩
      · rw [compressed_iff]
        simp [first, Node.s]
      · intro m hm
        simp at hm
  | descend fl s y p2 ps0 ch ch2 h0 fl0 rest _ ih =>
    rw [everyLevel_cons] at ht ⊢
    obtain ⟨hq, hch, hrest⟩ := ht
    refine ⟨?_, ih (by simp) hch, hrest⟩
    rw [compressed_iff] at hq ⊢
    simpa [first, Node.s] using hq
  | keep p fl ps0 ch h0 fl0 rest _ => exact ht
  | setHandler p fl ps0 ch fl0 rest _ =>
    rw [everyLevel_cons] at ht ⊢
    obtain ⟨hq, hch, hrest⟩ := ht
    refine ⟨?_, hch, hrest⟩
    rw [compressed_iff] at hq ⊢
    simpa [first, Node.s] using hq

/-! ## Registration and the set of routes -/

theorem mem_routes_cons (x : Str) (qs : List Str) (h : Handler) (s : Str) (ps : List Str)
    (ch : List Node) (h0 : Option Handler) (fl : Bool) (rest : List Node) :
    (x, qs, h) ∈ routes (Node.mk s ps ch h0 fl :: rest) ↔
      (h0 = some h ∧ x = s ∧ qs = ps) ∨ (∃ y, x = s ++ y ∧ (y, qs, h) ∈ routes ch) ∨
        (x, qs, h) ∈ routes rest := by
  simp only [routes, routesNode, List.mem_append, List.mem_map, Prod.mk.injEq, Prod.exists]
  constructor
  · rintro ((h1 | ⟨y, qs2, h2, hm, rfl, rfl, rfl⟩) | h3)
    · left
      cases h0 with
      | none => simp at h1
      | some hd =>
        simp at h1
        simp [h1]
    · right; left; exact ⟨y, rfl, hm⟩
    · right; right; exact h3
  · rintro (⟨rfl, rfl, rfl⟩ | ⟨y, rfl, hm⟩ | h3)
    · left; left; simp
    · left; right; exact ⟨y, qs, h, hm, rfl, rfl, rfl⟩
    · right; exact h3

theorem InsOk.routes_iff {ps : List Str} {hd : Option Handler} {p : Str} {fl : Bool}
    {t t2 : List Node} (hins : InsOk ps hd p fl t t2) (x : Str) (qs : List Str) (h : Handler) :
    (x, qs, h) ∈ routes t2 ↔ (x, qs, h) ∈ routes t ∨ (hd = some h ∧ x = p ∧ qs = ps) := by
  induction hins generalizing x with
  | leaf p fl =>
    rw [mem_routes_cons]
    simp [routes]
  | skip p fl n rest rest2 hsk _ ih =>
    cases n with
    | mk s ps0 ch h0 fl0 =>
      rw [mem_routes_cons, mem_routes_cons, ih]
      constructor
      · rintro (h1 | h2 | h3 | h4)
        · exact Or.inl (Or.inl h1)
        · exact Or.inl (Or.inr (Or.inl h2))
        · exact Or.inl (Or.inr (Or.inr h3))
        · exact Or.inr h4
      · rintro ((h1 | h2 | h3) | h4)
        · exact Or.inl h1
        · exact Or.inr (Or.inl h2)
        · exact Or.inr (Or.inr (Or.inl h3))
        · exact Or.inr (Or.inr (Or.inr h4))
  | midSplit fl c x1 s2 y p2 ps0 ch h0 fl0 rest hc hxy =>
    rw [mem_routes_cons, mem_routes_cons]
    constructor
    · rintro (⟨h1, -, -⟩ | ⟨z, rfl, hz⟩ | h3)
      · simp at h1
      · rw [mem_routes_cons] at hz
        rcases hz with ⟨rfl, rfl, rfl⟩ | ⟨w, rfl, hw⟩ | hz
        · left; left; simp
        · left; right; left; exact ⟨w, by simp, hw⟩
        · rw [mem_routes_cons] at hz
          rcases hz with ⟨rfl, rfl, rfl⟩ | ⟨w, -, hw⟩ | hz
          · right; simp
          · simp [routes] at hw
          · simp [routes] at hz
      · left; right; right; exact h3
    · rintro ((⟨rfl, rfl, rfl⟩ | ⟨w, rfl, hw⟩ | h3) | ⟨rfl, rfl, rfl⟩)
      · right; left
        refine ⟨x1 :: s2, rfl, ?_⟩
        rw [mem_routes_cons]; left; simp
      · right; left
        refine ⟨x1 :: s2 ++ w, by simp, ?_⟩
        rw [mem_routes_cons]; right; left; exact ⟨w, rfl, hw⟩
      · right; right; exact h3
      · right; left
        refine ⟨y :: p2, rfl, ?_⟩
        rw [mem_routes_cons]; right; right
        rw [mem_routes_cons]; left; simp
  | headSplit p fl x1 s2 ps0 ch h0 fl0 rest =>
    rw [mem_routes_cons, mem_routes_cons]
    constructor
    · rintro (⟨rfl, rfl, rfl⟩ | ⟨z, rfl, hz⟩ | h3)
      · right; simp
      · rw [mem_routes_cons] at hz
        rcases hz with ⟨rfl, rfl, rfl⟩ | ⟨w, rfl, hw⟩ | hz
        · left; left; simp
        · left; right; left; exact ⟨w, by simp, hw⟩
        · simp [routes] at hz
      · left; right; right; exact h3
    · rintro ((⟨rfl, rfl, rfl⟩ | ⟨w, rfl, hw⟩ | h3) | ⟨rfl, rfl, rfl⟩)
      · right; left
        refine ⟨x1 :: s2, rfl, ?_⟩
        rw [mem_routes_cons]; left; simp
      · right; left
        refine ⟨x1 :: s2 ++ w, by simp, ?_⟩
        rw [mem_routes_cons]; right; left; exact ⟨w, rfl, hw⟩
      · right; right; exact h3
      · left; simp
  | descend fl s y p2 ps0 ch ch2 h0 fl0 rest _ ih =>
    rw [mem_routes_cons, mem_routes_cons]
    constructor
    · rintro (h1 | ⟨z, rfl, hz⟩ | h3)
      · left; left; exact h1
      · rcases (ih z).1 hz with hz2 | ⟨rfl, rfl, rfl⟩
        · left; right; left; exact ⟨z, rfl, hz2⟩
        · right; simp
      · left; right; right; exact h3
    · rintro ((h1 | ⟨w, rfl, hw⟩ | h3) | ⟨rfl, rfl, rfl⟩)
      · left; exact h1
      · right; left; exact ⟨w, rfl, (ih w).2 (Or.inl hw)⟩
      · right; right; exact h3
      · right; left; exact ⟨y :: p2, rfl, (ih (y :: p2)).2 (Or.inr ⟨rfl, rfl, rfl⟩)⟩
  | keep p fl ps0 ch h0 fl0 rest hnone =>
    simp [hnone]
  | setHandler p fl ps0 ch fl0 rest hsome =>
    rw [mem_routes_cons, mem_routes_cons]
    constructor
    · rintro (⟨rfl, rfl, rfl⟩ | h2 | h3)
      · right; simp
      · left; right; left; exact h2
      · left; right; right; exact h3
    · rintro ((⟨h1, -, -⟩ | h2 | h3) | ⟨rfl, rfl, rfl⟩)
      · simp at h1
      · right; left; exact h2
      · right; right; exact h3
      · left; simp

/-! ## Duplicate detection -/

theorem routes_mem_node {x : Str} {qs : List Str} {h : Handler} {t : List Node}
    (hm : (x, qs, h) ∈ routes t) : ∃ m ∈ t, ∃ w, x = m.s ++ w := by
  induction t with
  | nil => simp [routes] at hm
  | cons n rest ih =>
    cases n with
    | mk s ps ch h0 fl =>
      rw [mem_routes_cons] at hm
      rcases hm with ⟨-, rfl, -⟩ | ⟨y, rfl, -⟩ | h3
      · exact ⟨_, List.mem_cons_self _ _, [], by simp [Node.s]⟩
      · exact ⟨_, List.mem_cons_self _ _, y, by simp [Node.s]⟩
      · obtain ⟨m, hm, w, hw⟩ := ih h3
        exact ⟨m, List.mem_cons_of_mem _ hm, w, hw⟩

theorem routes_path_ne_nil {x : Str} {qs : List Str} {h : Handler} {t : List Node}
    (ht : everyLevel compressed t = true) (hm : (x, qs, h) ∈ routes t) : x ≠ [] := by
  obtain ⟨m, hmt, w, hw⟩ := routes_mem_node hm
  rw [everyLevel_iff, compressed_iff] at ht
  have := ht.1.1 m hmt
  intro hx
  rw [hx] at hw
  exact this (List.append_eq_nil.1 hw.symm).1

/-- In a prefix-compressed sibling list whose first node begins like `x`, no route with
path `x` lies in the other nodes. -/
theorem routes_rest_absurd {x : Str} {qs : List Str} {h : Handler} {n : Node}
    {rest : List Node} (ht : compressed (n :: rest) = true) (hn : n.s.head? = x.head?)
    (hm : (x, qs, h) ∈ routes rest) : False := by
  obtain ⟨m, hmt, w, hw⟩ := routes_mem_node hm
  rw [compressed_iff] at ht
  have hms := ht.1 m (List.mem_cons_of_mem _ hmt)
  have hnd := (List.nodup_cons.1 ht.2).1
  apply hnd
  rw [List.mem_map]
  refine ⟨m, hmt, ?_⟩
  rw [first, first, hn, hw]
  cases hms2 : m.s with
  | nil => exact absurd hms2 hms
  | cons a l => simp

theorem Dup.route {p : Str} {t : List Node} (h : Dup p t) :
    ∃ qs hh, (p, qs, hh) ∈ routes t := by
  induction h with
  | skip p n rest _ _ ih =>
    obtain ⟨qs, hh, hm⟩ := ih
    refine ⟨qs, hh, ?_⟩
    cases n with
    | mk s ps ch h0 fl => rw [mem_routes_cons]; exact Or.inr (Or.inr hm)
  | descend s y p2 ps0 ch h0 fl0 rest _ ih =>
    obtain ⟨qs, hh, hm⟩ := ih
    refine ⟨qs, hh, ?_⟩
    rw [mem_routes_cons]; exact Or.inr (Or.inl ⟨y :: p2, rfl, hm⟩)
  | here p ps0 ch h0 fl0 rest hne =>
    cases h0 with
    | none => exact absurd rfl hne
    | some hh =>
      refine ⟨ps0, hh, ?_⟩
      rw [mem_routes_cons]; exact Or.inl ⟨rfl, rfl, rfl⟩

theorem InsOk.no_route {ps : List Str} {hd : Option Handler} {p : Str} {fl : Bool}
    {t t2 : List Node} (hins : InsOk ps hd p fl t t2) (hp : p ≠ []) (hhd : hd ≠ none)
    (ht : everyLevel compressed t = true) (qs : List Str) (h : Handler) :
    (p, qs, h) ∉ routes t := by
  induction hins with
  | leaf p fl => simp [routes]
  | skip p fl n rest rest2 hsk _ ih =>
    intro hm
    rw [everyLevel_iff] at ht
    obtain ⟨hq, hch⟩ := ht
    have hq2 := hq
    rw [compressed_iff] at hq
    have hrest : everyLevel compressed rest = true := by
      rw [everyLevel_iff]
      refine ⟨?_, fun m hm => hch m (List.mem_cons_of_mem _ hm)⟩
      rw [compressed_iff]
      exact ⟨fun m hm => hq.1 m (List.mem_cons_of_mem _ hm), (List.nodup_cons.1 hq.2).2⟩
    obtain ⟨a, s2, b, p2, hs, hpp, hab⟩ := hsk
    cases n with
    | mk s ps0 ch h0 fl0 =>
      simp only [Node.s] at hs
      subst hs hpp
      rw [mem_routes_cons] at hm
      rcases hm with ⟨-, h1, -⟩ | ⟨y, h1, -⟩ | h3
      · simp at h1; exact hab h1.1.symm
      · simp at h1; exact hab h1.1.symm
      · exact ih hp hrest h3
  | midSplit fl c x s2 y p2 ps0 ch h0 fl0 rest hc hxy =>
    intro hm
    rw [everyLevel_cons] at ht
    rw [mem_routes_cons] at hm
    rcases hm with ⟨-, h1, -⟩ | ⟨w, h1, -⟩ | h3
    · simp at h1; exact hxy h1.1.symm
    · simp at h1; exact hxy h1.1.symm
    · apply routes_rest_absurd ht.1 _ h3
      cases c with
      | nil => exact absurd rfl hc
      | cons a c => simp [Node.s]
  | headSplit p fl x s2 ps0 ch h0 fl0 rest =>
    intro hm
    rw [everyLevel_cons] at ht
    rw [mem_routes_cons] at hm
    rcases hm with ⟨-, h1, -⟩ | ⟨w, h1, -⟩ | h3
    · simp at h1
    · have := congrArg List.length h1
      simp at this
    · apply routes_rest_absurd ht.1 _ h3
      cases p with
      | nil => exact absurd rfl hp
      | cons a p => simp [Node.s]
  | descend fl s y p2 ps0 ch ch2 h0 fl0 rest _ ih =>
    intro hm
    rw [everyLevel_cons] at ht
    rw [mem_routes_cons] at hm
    rcases hm with ⟨-, h1, -⟩ | ⟨w, h1, hw⟩ | h3
    · simp at h1
    · simp at h1
      subst h1
      exact ih (by simp) ht.2.1 hw
    · apply routes_rest_absurd ht.1 _ h3
      have hs : s ≠ [] := by
        have := ht.1
        rw [compressed_iff] at this
        exact this.1 _ (List.mem_cons_self _ _)
      cases s with
      | nil => exact absurd rfl hs
      | cons a s => simp [Node.s]
  | keep p fl ps0 ch h0 fl0 rest hnone => exact absurd hnone hhd
  | setHandler p fl ps0 ch fl0 rest _ =>
    intro hm
    rw [everyLevel_cons] at ht
    rw [mem_routes_cons] at hm
    rcases hm with ⟨h1, -, -⟩ | ⟨w, h1, hw⟩ | h3
    · simp at h1
    · simp at h1
      subst h1
      exact routes_path_ne_nil ht.2.1 hw rfl
    · exact routes_rest_absurd ht.1 (by simp [Node.s]) h3

/-- On a prefix-compressed tree `makeChild` panics exactly when it is given a handler and
the path already carries one. -/
theorem makeChild_panicked_iff (t : List Node) (p : Str) (ps : List Str)
    (hd : Option Handler) (fl : Bool) (hp : p ≠ []) (ht : everyLevel compressed t = true) :
    (∃ t2, makeChild t p ps hd fl = Outcome.panicked t2) ↔
      hd ≠ none ∧ ∃ qs h, (p, qs, h) ∈ routes t := by
  constructor
  · rintro ⟨t2, h2⟩
    obtain ⟨-, hhd, hdup⟩ := makeChild_panicked_eq h2
    exact ⟨hhd, hdup.route⟩
  · rintro ⟨hhd, qs, h, hm⟩
    cases hmk : makeChild t p ps hd fl with
    | ok t2 => exact absurd hm ((makeChild_ok_ins hmk).no_route hp hhd ht qs h)
    | panicked t2 => exact ⟨t2, rfl⟩

/-! ## Histories -/

theorem runCalls_append (cs ds : List Call) (t : List Node) :
    runCalls (cs ++ ds) t = (runCalls cs t).bind (runCalls ds) := by
  induction cs generalizing t with
  | nil => simp [runCalls]
  | cons c cs ih =>
    simp only [List.cons_append, runCalls]
    cases makeChild t c.path c.params c.handler c.firstLevel with
    | ok t2 => exact ih t2
    | panicked t2 => simp

theorem runCalls_compressed {cs : List Call} {t0 t : List Node}
    (hcs : ∀ c ∈ cs, c.path ≠ []) (h0 : everyLevel compressed t0 = true)
    (hrun : runCalls cs t0 = some t) : everyLevel compressed t = true := by
  induction cs generalizing t0 with
  | nil => simp [runCalls] at hrun; rw [← hrun]; exact h0
  | cons c cs ih =>
    simp only [runCalls] at hrun
    cases hmk : makeChild t0 c.path c.params c.handler c.firstLevel with
    | ok t2 =>
      rw [hmk] at hrun
      exact ih (fun d hd => hcs d (List.mem_cons_of_mem _ hd))
        ((makeChild_ok_ins hmk).keeps_compressed (hcs c (List.mem_cons_self _ _)) h0) hrun
    | panicked t2 => rw [hmk] at hrun; simp at hrun

theorem runCalls_routes {cs : List Call} {t0 t : List Node}
    (hrun : runCalls cs t0 = some t) (x : Str) (qs : List Str) (h : Handler) :
    (x, qs, h) ∈ routes t ↔ (x, qs, h) ∈ routes t0 ∨
      ∃ c ∈ cs, c.path = x ∧ c.params = qs ∧ c.handler = some h := by
  induction cs generalizing t0 with
  | nil => simp [runCalls] at hrun; rw [← hrun]; simp
  | cons c cs ih =>
    simp only [runCalls] at hrun
    cases hmk : makeChild t0 c.path c.params c.handler c.firstLevel with
    | ok t2 =>
      rw [hmk] at hrun
      rw [ih hrun, (makeChild_ok_ins hmk).routes_iff]
      simp only [List.mem_cons, exists_eq_or_imp]
      constructor
      · rintro ((h1 | ⟨h2, h3, h4⟩) | h5)
        · exact Or.inl h1
        · exact Or.inr (Or.inl ⟨h3.symm, h4.symm, h2⟩)
        · exact Or.inr (Or.inr h5)
      · rintro (h1 | ⟨h3, h4, h2⟩ | h5)
        · exact Or.inl (Or.inl h1)
        · exact Or.inl (Or.inr ⟨h2, h3.symm, h4.symm⟩)
        · exact Or.inr h5
    | panicked t2 => rw [hmk] at hrun; simp at hrun

/-! ## Go primitives -/

theorem sliceFrom_append (v w : Str) : sliceFrom (v ++ w) (v.length : Int) = some w := by
  simp [sliceFrom]

theorem sliceTo_append (v w : Str) : sliceTo (v ++ w) (v.length : Int) = some v := by
  simp [sliceTo]

theorem hasPrefix_iff (p s : Str) : hasPrefix p s = true ↔ ∃ w, p = s ++ w := by
  rw [hasPrefix, List.isPrefixOf_iff_prefix]
  constructor
  · rintro ⟨w, hw⟩; exact ⟨w, hw.symm⟩
  · rintro ⟨w, hw⟩; exact ⟨w, hw.symm⟩

theorem indexByte_absent {p : Str} {c : Nat} (h : c ∉ p) : indexByte p c = -1 := by
  induction p with
  | nil => rfl
  | cons b rest ih =>
    simp only [List.mem_cons, not_or] at h
    simp [indexByte, Ne.symm h.1, ih h.2]

theorem indexByte_nonneg (p : Str) (c : Nat) : -1 ≤ indexByte p c := by
  induction p with
  | nil => simp [indexByte]
  | cons b rest ih =>
    simp only [indexByte]
    split
    · omega
    · split <;> omega

theorem indexByte_present (v w : Str) (c : Nat) (h : c ∉ v) :
    indexByte (v ++ c :: w) c = (v.length : Int) := by
  induction v with
  | nil => simp [indexByte]
  | cons b rest ih =>
    simp only [List.mem_cons, not_or] at h
    have ih2 := ih h.2
    simp only [List.cons_append, indexByte, if_neg (Ne.symm h.1), ih2]
    simp
    omega

theorem indexByte_cases (p : Str) (c : Nat) :
    (c ∉ p ∧ indexByte p c = -1) ∨
      ∃ v w, p = v ++ c :: w ∧ c ∉ v ∧ indexByte p c = (v.length : Int) := by
  by_cases h : c ∈ p
  · right
    obtain ⟨v, w, hp, hv⟩ := List.eq_append_cons_of_mem h
    exact ⟨v, w, hp, hv, by rw [hp]; exact indexByte_present v w c hv⟩
  · left; exact ⟨h, indexByte_absent h⟩

theorem isWildcard_of_ne_nil (s : Str) (ps : List Str) (ch : List Node) (h : Option Handler)
    (fl : Bool) (hs : s ≠ []) :
    isWildcard (Node.mk s ps ch h fl) = some (decide (s.getLast? = some slash)) := by
  have hlen : 0 < s.length := List.length_pos.2 hs
  have h1 : byteAt s ((s.length : Int) - 1) = s.getLast? := by
    have hcast : ((s.length : Int) - 1).toNat = s.length - 1 := by omega
    rw [byteAt, if_pos (by omega), hcast, List.getLast?_eq_getElem?]
    simp
  rw [isWildcard]
  simp only [Node.s, h1]
  cases hl : s.getLast? with
  | none => simp [List.getLast?_eq_none_iff] at hl; exact absurd hl hs
  | some b => simp

/-! ## Evaluation of the body of `findChild` -/

theorem findChildAt_param_end (ps : List Str) (ch : List Node) (h : Option Handler) (fl : Bool)
    (path : Str) (acc : List Str) (hp : slash ∉ path) :
    findChildAt (Node.mk [colon] ps ch h fl) path acc =
      if h = none then some (LoopStep.ret (none, []))
      else some (LoopStep.ret (some (Node.mk [colon] ps ch h fl), acc ++ [path])) := by
  rw [findChildAt]
  simp [indexByte_absent hp]

theorem findChildAt_param_more (ps : List Str) (ch : List Node) (h : Option Handler) (fl : Bool)
    (v w : Str) (acc : List Str) (hv : slash ∉ v) :
    findChildAt (Node.mk [colon] ps ch h fl) (v ++ slash :: w) acc =
      match findChild ch (slash :: w) (acc ++ [v]) with
      | some r => some (LoopStep.ret r)
      | none => none := by
  rw [findChildAt]
  have hi := indexByte_present v w slash hv
  have hne : ¬ ((v.length : Int) = -1) := by omega
  simp only [if_true, hi, if_neg hne, sliceFrom_append, sliceTo_append]

theorem findChildAt_other (s : Str) (ps : List Str) (ch : List Node) (h : Option Handler)
    (fl : Bool) (path : Str) (acc : List Str) (hs : s ≠ [colon])
    (hpre : ¬ ∃ w, path = s ++ w) :
    findChildAt (Node.mk s ps ch h fl) path acc = some LoopStep.next := by
  rw [findChildAt]
  have : hasPrefix path s = false := by
    cases hh : hasPrefix path s with
    | false => rfl
    | true => exact absurd ((hasPrefix_iff path s).1 hh) hpre
  simp [hs, this]

theorem findChildAt_exact (s : Str) (ps : List Str) (ch : List Node) (h : Option Handler)
    (fl : Bool) (acc : List Str) (hs : s ≠ [colon]) :
    findChildAt (Node.mk s ps ch h fl) s acc =
      if h = none then some (LoopStep.ret (none, []))
      else some (LoopStep.ret (some (Node.mk s ps ch h fl), acc)) := by
  rw [findChildAt]
  have : hasPrefix s s = true := (hasPrefix_iff s s).2 ⟨[], by simp⟩
  simp [hs, this]

theorem findChildAt_longer (s : Str) (ps : List Str) (ch : List Node) (h : Option Handler)
    (fl : Bool) (w : Str) (acc : List Str) (hs : s ≠ [colon]) (hne : s ≠ []) (hw : w ≠ []) :
    findChildAt (Node.mk s ps ch h fl) (s ++ w) acc =
      match findChild ch w acc with
      | none => none
      | some (child, params2) =>
        if noHandler child then
          if decide (s.getLast? = some slash)
              && !(fl && (decide (s = [slash]) || decide (ch.length > 0))) then
            if h = none then some (LoopStep.ret (none, []))
            else some (LoopStep.ret (some (Node.mk s ps ch h fl), acc ++ [w]))
          else some LoopStep.next
        else some (LoopStep.ret (child, params2)) := by
  rw [findChildAt]
  have h1 : hasPrefix (s ++ w) s = true := (hasPrefix_iff _ s).2 ⟨w, rfl⟩
  have h2 : ¬ ((s ++ w).length = s.length) := by
    have := List.length_pos.2 hw
    rw [List.length_append]
    omega
  simp only [if_neg hs, h1, if_neg h2, sliceFrom_append, isWildcard_of_ne_nil s ps ch h fl hne]
  simp

/-! ## Shape of a lookup result -/

theorem stepShaped_handler (h : Option Handler) (n : Node) (vs : List Str)
    (hn : n.handler = h) :
    StepShaped (if h = none then some (LoopStep.ret (none, []))
      else some (LoopStep.ret (some n, vs))) := by
  cases h with
  | none => exact Or.inr ⟨(none, []), rfl, Or.inl rfl⟩
  | some hh =>
    refine Or.inr ⟨(some n, vs), by simp, Or.inr ⟨n, vs, rfl, ?_⟩⟩
    rw [hn]; simp

theorem findChildAt_shaped (s : Str) (ps : List Str) (ch : List Node) (h : Option Handler)
    (fl : Bool) (hs : s ≠ []) (hch : ∀ path acc, Shaped (findChild ch path acc))
    (path : Str) (acc : List Str) :
    StepShaped (findChildAt (Node.mk s ps ch h fl) path acc) := by
  by_cases hc : s = [colon]
  · subst hc
    rcases indexByte_cases path slash with ⟨habs, -⟩ | ⟨v, w, hp, hv, -⟩
    · rw [findChildAt_param_end ps ch h fl path acc habs]
      exact stepShaped_handler h _ _ rfl
    · subst hp
      rw [findChildAt_param_more ps ch h fl v w acc hv]
      rcases hch (slash :: w) (acc ++ [v]) with h1 | ⟨n, vs, h1, h2⟩
      · rw [h1]; exact Or.inr ⟨_, rfl, Or.inl rfl⟩
      · rw [h1]; exact Or.inr ⟨_, rfl, Or.inr ⟨n, vs, rfl, h2⟩⟩
  · by_cases hpre : ∃ w, path = s ++ w
    · obtain ⟨w, rfl⟩ := hpre
      by_cases hw : w = []
      · subst hw
        rw [List.append_nil, findChildAt_exact s ps ch h fl acc hc]
        exact stepShaped_handler h _ _ rfl
      · rw [findChildAt_longer s ps ch h fl w acc hc hs hw]
        rcases hch w acc with h1 | ⟨n, vs, h1, h2⟩
        · rw [h1]
          simp only [noHandler, if_true]
          split
          · exact stepShaped_handler h _ _ rfl
          · exact Or.inl rfl
        · rw [h1]
          have : noHandler (some n) = false := by simp [noHandler, h2]
          simp only [this]
          exact Or.inr ⟨_, rfl, Or.inr ⟨n, vs, rfl, h2⟩⟩
    · rw [findChildAt_other s ps ch h fl path acc hc hpre]
      exact Or.inl rfl

theorem findChild_shaped (t : List Node) :
    everyLevel segsNonEmpty t = true → ∀ path acc, Shaped (findChild t path acc) := by
  induction t using tree_induction with
  | h t ih =>
    intro ht
    rw [everyLevel_iff] at ht
    obtain ⟨hq, hbelow⟩ := ht
    have ih2 : ∀ n ∈ t, ∀ path acc, Shaped (findChild n.children path acc) :=
      fun n hn => ih n hn (hbelow n hn)
    have hq2 : ∀ n ∈ t, n.s ≠ [] := by simpa [segsNonEmpty] using hq
    clear ih hq hbelow
    induction t with
    | nil => intro path acc; left; rfl
    | cons n rest ihl =>
      intro path acc
      have hrest := ihl (fun m hm => ih2 m (List.mem_cons_of_mem _ hm))
        (fun m hm => hq2 m (List.mem_cons_of_mem _ hm)) path acc
      cases n with
      | mk s ps ch h fl =>
        have hn := findChildAt_shaped s ps ch h fl (hq2 _ (List.mem_cons_self _ _))
          (ih2 _ (List.mem_cons_self _ _)) path acc
        rw [findChild]
        rcases hn with h1 | ⟨m, h1, h2⟩
        · rw [h1]; exact hrest
        · rw [h1]; exact h2

/-! ## Lookup of a registered path -/

theorem ColonsClosed.suffix {s y : Str} (h : ColonsClosed (s ++ y)) : ColonsClosed y := by
  intro u w hy
  exact h (s ++ u) w (by rw [hy, List.append_assoc])

theorem lookupReady_iff (l : List Node) :
    lookupReady l = true ↔
      compressed l = true ∧ colonsApart l = true ∧ paramLast l = true := by
  simp [lookupReady, and_assoc]

theorem lookupReady_tail {n : Node} {rest : List Node} (h : lookupReady (n :: rest) = true) :
    lookupReady rest = true := by
  rw [lookupReady_iff] at h ⊢
  obtain ⟨h1, h2, h3⟩ := h
  rw [compressed_iff] at h1
  refine ⟨?_, ?_, ?_⟩
  · rw [compressed_iff]
    exact ⟨fun m hm => h1.1 m (List.mem_cons_of_mem _ hm), (List.nodup_cons.1 h1.2).2⟩
  · simp only [colonsApart, List.all_cons, Bool.and_eq_true] at h2 ⊢
    exact h2.2
  · simp only [paramLast, Bool.and_eq_true] at h3
    exact h3.2

/-- A parameter node that is not last has only parameter nodes after it, which
prefix compression forbids: so the route sought is not behind a parameter node. -/
theorem not_param_of_route_in_rest {s : Str} {ps : List Str} {ch : List Node}
    {h0 : Option Handler} {fl : Bool} {rest : List Node} {x : Str} {qs : List Str}
    {h : Handler} (hr : lookupReady (Node.mk s ps ch h0 fl :: rest) = true)
    (hm : (x, qs, h) ∈ routes rest) : s ≠ [colon] := by
  intro hs
  rw [lookupReady_iff] at hr
  obtain ⟨h1, -, h3⟩ := hr
  obtain ⟨m, hmt, w, hw⟩ := routes_mem_node hm
  simp only [paramLast, Bool.and_eq_true, Bool.or_eq_true, decide_eq_true_eq, Node.s,
    List.all_eq_true] at h3
  rcases h3.1 with h4 | h4
  · exact h4 hs
  · have hms := h4 m hmt
    rw [compressed_iff] at h1
    apply (List.nodup_cons.1 h1.2).1
    rw [List.mem_map]
    exact ⟨m, hmt, by simp [first, hms, hs, Node.s]⟩

theorem findChild_registered (t : List Node) :
    everyLevel lookupReady t = true → ∀ (x : Str) (qs : List Str) (h : Handler)
      (acc : List Str), (x, qs, h) ∈ routes t → ColonsClosed x →
      ∃ n vs, findChild t x acc = some (some n, acc ++ vs) ∧ n.handler = some h ∧
        n.params = qs ∧ vs.length = x.count colon := by
  induction t using tree_induction with
  | h t ih =>
    intro ht
    rw [everyLevel_iff] at ht
    obtain ⟨hq, hbelow⟩ := ht
    have ih2 := fun n hn => ih n hn (hbelow n hn)
    clear ih
    induction t with
    | nil => intro x qs h acc hm; simp [routes] at hm
    | cons n rest ihl =>
      intro x qs h acc hm hx
      have hrest := ihl (lookupReady_tail hq)
        (fun m hm => hbelow m (List.mem_cons_of_mem _ hm))
        (fun m hm => ih2 m (List.mem_cons_of_mem _ hm))
      cases n with
      | mk s ps ch h0 fl =>
        have hch := ih2 _ (List.mem_cons_self _ _)
        have hchready := hbelow _ (List.mem_cons_self _ _)
        simp only [Node.children] at hch hchready
        have hq2 := (lookupReady_iff _).1 hq
        have hcomp := (compressed_iff _).1 hq2.1
        have hs : s ≠ [] := hcomp.1 _ (List.mem_cons_self _ _)
        have hcol : s = [colon] ∨ colon ∉ s := by
          have := hq2.2.1
          simp only [colonsApart, List.all_cons, Bool.and_eq_true, Bool.or_eq_true,
            decide_eq_true_eq, Node.s] at this
          exact this.1
        rw [mem_routes_cons] at hm
        rw [findChild]
        rcases hm with ⟨rfl, rfl, rfl⟩ | ⟨y, rfl, hy⟩ | h3
        · -- the route ends at this node
          rcases hcol with hc | hc
          · subst hc
            rw [findChildAt_param_end qs ch (some h) fl [colon] acc (by decide)]
            exact ⟨Node.mk [colon] qs ch (some h) fl, [[colon]], by simp, rfl, rfl, by simp⟩
          · have hne : x ≠ [colon] := by
              intro he; rw [he] at hc; simp at hc
            rw [findChildAt_exact x qs ch (some h) fl acc hne]
            refine ⟨Node.mk x qs ch (some h) fl, [], by simp, rfl, rfl, ?_⟩
            simp [List.count_eq_zero_of_not_mem hc]
        · -- the route goes on below this node
          have hchcomp : everyLevel compressed ch = true :=
            everyLevel_mono (fun l hl => ((lookupReady_iff l).1 hl).1) ch hchready
          have hyne : y ≠ [] := routes_path_ne_nil hchcomp hy
          rcases hcol with hc | hc
          · subst hc
            cases y with
            | nil => exact absurd rfl hyne
            | cons b w =>
              rcases hx [] (b :: w) rfl with h5 | ⟨w2, h5⟩
              · simp at h5
              · simp only [List.cons.injEq] at h5
                obtain ⟨rfl, rfl⟩ := h5
                obtain ⟨m, vs, hf, hh, hp, hl⟩ :=
                  hch (slash :: w) qs h (acc ++ [[colon]]) hy hx.suffix
                have := findChildAt_param_more ps ch h0 fl [colon] w acc (by decide)
                simp only [List.singleton_append] at this ⊢
                rw [this, hf]
                refine ⟨m, [colon] :: vs, by simp, hh, hp, ?_⟩
                simp [hl]
          · have hne : s ≠ [colon] := by
              intro he; rw [he] at hc; simp at hc
            obtain ⟨m, vs, hf, hh, hp, hl⟩ := hch y qs h acc hy hx.suffix
            rw [findChildAt_longer s ps ch h0 fl y acc hne hs hyne, hf]
            have : noHandler (some m) = false := by simp [noHandler, hh]
            simp only [this]
            refine ⟨m, vs, by simp, hh, hp, ?_⟩
            rw [List.count_append, List.count_eq_zero_of_not_mem hc, hl]
            simp
        · -- the route is in a later sibling
          have hne := not_param_of_route_in_rest hq h3
          have hpre : ¬ ∃ w, x = s ++ w := by
            rintro ⟨w, rfl⟩
            apply routes_rest_absurd hq2.1 _ h3
            cases s with
            | nil => exact absurd rfl hs
            | cons a s => simp [Node.s]
          rw [findChildAt_other s ps ch h0 fl x acc hne hpre]
          exact hrest x qs h acc h3 hx

/-! ## Reordered trees -/

theorem reorderedNode_iff (n n2 : Node) :
    ReorderedNode n n2 ↔ n2.s = n.s ∧ n2.params = n.params ∧ n2.handler = n.handler ∧
      n2.firstLevel = n.firstLevel ∧ Reordered n.children n2.children := by
  cases n with
  | mk s ps ch h fl =>
    rw [ReorderedNode]
    simp only [Node.s, Node.params, Node.handler, Node.firstLevel, Node.children, Reordered]

theorem reorderedEach_iff (t u : List Node) :
    ReorderedEach t u ↔ List.Forall₂ ReorderedNode t u := by
  induction t generalizing u with
  | nil =>
    rw [ReorderedEach]
    constructor
    · rintro rfl; exact List.Forall₂.nil
    · intro h; cases h; rfl
  | cons n rest ih =>
    rw [ReorderedEach]
    constructor
    · rintro ⟨n2, rest2, rfl, h1, h2⟩
      exact List.Forall₂.cons h1 ((ih rest2).1 h2)
    · intro h
      cases h with
      | cons h1 h2 => exact ⟨_, _, rfl, h1, (ih _).2 h2⟩

theorem Reordered.exists_of_mem {t t2 : List Node} (h : Reordered t t2) {n2 : Node}
    (hn : n2 ∈ t2) : ∃ n ∈ t, ReorderedNode n n2 := by
  obtain ⟨u, hu, hperm⟩ := h
  rw [reorderedEach_iff] at hu
  have hn2 : n2 ∈ u := hperm.symm.subset hn
  clear hperm hn
  induction hu with
  | nil => simp at hn2
  | cons h1 _ ih =>
    rcases List.mem_cons.1 hn2 with he | hm
    · subst he; exact ⟨_, List.mem_cons_self _ _, h1⟩
    · obtain ⟨n, hn, hr⟩ := ih hm
      exact ⟨n, List.mem_cons_of_mem _ hn, hr⟩

theorem Reordered.exists_of_mem_left {t t2 : List Node} (h : Reordered t t2) {n : Node}
    (hn : n ∈ t) : ∃ n2 ∈ t2, ReorderedNode n n2 := by
  obtain ⟨u, hu, hperm⟩ := h
  rw [reorderedEach_iff] at hu
  suffices ∃ n2 ∈ u, ReorderedNode n n2 by
    obtain ⟨n2, h1, h2⟩ := this
    exact ⟨n2, hperm.subset h1, h2⟩
  clear hperm
  induction hu with
  | nil => simp at hn
  | cons h1 _ ih =>
    rcases List.mem_cons.1 hn with he | hm
    · subst he; exact ⟨_, List.mem_cons_self _ _, h1⟩
    · obtain ⟨n2, hn2, hr⟩ := ih hm
      exact ⟨n2, List.mem_cons_of_mem _ hn2, hr⟩

theorem Reordered.segs_perm {t t2 : List Node} (h : Reordered t t2) :
    (t.map Node.s).Perm (t2.map Node.s) := by
  obtain ⟨u, hu, hperm⟩ := h
  rw [reorderedEach_iff] at hu
  have : t.map Node.s = u.map Node.s := by
    clear hperm
    induction hu with
    | nil => rfl
    | cons h1 _ ih =>
      rw [reorderedNode_iff] at h1
      simp [h1.1, ih]
  rw [this]
  exact hperm.map _

/-- A level predicate that reads only the segments of the siblings, in any order, is kept
by reordering. -/
theorem Reordered.keeps_level {q : List Node → Bool}
    (hq : ∀ l l2, (l.map Node.s).Perm (l2.map Node.s) → q l = true → q l2 = true)
    (t : List Node) : ∀ t2, Reordered t t2 → everyLevel q t = true → everyLevel q t2 = true := by
  induction t using tree_induction with
  | h t ih =>
    intro t2 hr ht
    rw [everyLevel_iff] at ht ⊢
    refine ⟨hq t t2 hr.segs_perm ht.1, fun n2 hn2 => ?_⟩
    obtain ⟨n, hn, hrn⟩ := hr.exists_of_mem hn2
    rw [reorderedNode_iff] at hrn
    exact ih n hn _ hrn.2.2.2.2 (ht.2 n hn)

theorem compressed_of_segs_perm (l l2 : List Node) (hp : (l.map Node.s).Perm (l2.map Node.s))
    (h : compressed l = true) : compressed l2 = true := by
  rw [compressed_iff] at h ⊢
  constructor
  · intro n hn
    have : n.s ∈ l.map Node.s := hp.symm.subset (List.mem_map_of_mem _ hn)
    obtain ⟨m, hm, he⟩ := List.mem_map.1 this
    rw [← he]; exact h.1 m hm
  · have h2 : (l.map first) = (l.map Node.s).map List.head? := by simp [first, Function.comp_def]
    have h3 : (l2.map first) = (l2.map Node.s).map List.head? := by
      simp [first, Function.comp_def]
    rw [h3]
    rw [h2] at h
    exact (hp.map _).nodup_iff.1 h.2

theorem colonsApart_of_segs_perm (l l2 : List Node) (hp : (l.map Node.s).Perm (l2.map Node.s))
    (h : colonsApart l = true) : colonsApart l2 = true := by
  simp only [colonsApart, List.all_eq_true, Bool.or_eq_true, decide_eq_true_eq] at h ⊢
  intro n hn
  have : n.s ∈ l.map Node.s := hp.symm.subset (List.mem_map_of_mem _ hn)
  obtain ⟨m, hm, he⟩ := List.mem_map.1 this
  rw [← he]; exact h m hm

theorem mem_routes_iff (x : Str) (qs : List Str) (h : Handler) (t : List Node) :
    (x, qs, h) ∈ routes t ↔ ∃ n ∈ t, (n.handler = some h ∧ x = n.s ∧ qs = n.params) ∨
      ∃ y, x = n.s ++ y ∧ (y, qs, h) ∈ routes n.children := by
  induction t with
  | nil => simp [routes]
  | cons n rest ih =>
    cases n with
    | mk s ps ch h0 fl =>
      rw [mem_routes_cons, ih]
      simp only [List.mem_cons, exists_eq_or_imp, Node.handler, Node.s, Node.params,
        Node.children]
      constructor
      · rintro (h1 | h2 | h3)
        · exact Or.inl (Or.inl h1)
        · exact Or.inl (Or.inr h2)
        · exact Or.inr h3
      · rintro ((h1 | h2) | h3)
        · exact Or.inl h1
        · exact Or.inr (Or.inl h2)
        · exact Or.inr (Or.inr h3)

theorem Reordered.same_routes (t : List Node) : ∀ t2, Reordered t t2 →
    ∀ x qs h, (x, qs, h) ∈ routes t ↔ (x, qs, h) ∈ routes t2 := by
  induction t using tree_induction with
  | h t ih =>
    intro t2 hr x qs h
    rw [mem_routes_iff, mem_routes_iff]
    constructor
    · rintro ⟨n, hn, hcase⟩
      obtain ⟨n2, hn2, hrn⟩ := hr.exists_of_mem_left hn
      rw [reorderedNode_iff] at hrn
      obtain ⟨e1, e2, e3, -, e5⟩ := hrn
      refine ⟨n2, hn2, ?_⟩
      rcases hcase with ⟨h1, h2, h3⟩ | ⟨y, h1, h2⟩
      · left; rw [e1, e2, e3]; exact ⟨h1, h2, h3⟩
      · right; rw [e1]; exact ⟨y, h1, (ih n hn _ e5 y qs h).1 h2⟩
    · rintro ⟨n2, hn2, hcase⟩
      obtain ⟨n, hn, hrn⟩ := hr.exists_of_mem hn2
      rw [reorderedNode_iff] at hrn
      obtain ⟨e1, e2, e3, -, e5⟩ := hrn
      refine ⟨n, hn, ?_⟩
      rcases hcase with ⟨h1, h2, h3⟩ | ⟨y, h1, h2⟩
      · left; rw [← e1, ← e2, ← e3]; exact ⟨h1, h2, h3⟩
      · right; rw [← e1]; exact ⟨y, h1, (ih n hn _ e5 y qs h).2 h2⟩

/-! ## The method `sort` meets its contract -/

theorem less_eq (a b : Node) :
    less b a = false ↔ b.s = [colon] ∨ (a.s ≠ [colon] ∧ countChildren b ≤ countChildren a) := by
  rw [less]
  by_cases hb : b.s = [colon]
  · simp [hb]
  · by_cases ha : a.s = [colon]
    · simp [hb, ha]
    · simp [hb, ha]

theorem less_asymm {a b : Node} (h : less b a = true) : less a b = false := by
  rw [less_eq]
  by_cases hc : less b a = false
  · rw [hc] at h; simp at h
  · rw [less_eq] at hc
    push_neg at hc
    by_cases ha : a.s = [colon]
    · exact Or.inl ha
    · right
      have := hc.2 ha
      exact ⟨hc.1, by omega⟩

theorem less_negtrans {a b c : Node} (h1 : less c b = false) (h2 : less b a = false) :
    less c a = false := by
  rw [less_eq] at h1 h2 ⊢
  rcases h1 with h1 | ⟨h1, h1c⟩
  · exact Or.inl h1
  · rcases h2 with h2 | ⟨h2, h2c⟩
    · exact absurd h2 h1
    · exact Or.inr ⟨h2, by omega⟩

theorem orderedLevel_iff (l : List Node) :
    orderedLevel l = true ↔ l.Pairwise (fun a b => less b a = false) := by
  induction l with
  | nil => simp [orderedLevel]
  | cons a l ih =>
    rw [orderedLevel, List.pairwise_cons, Bool.and_eq_true, ih]
    simp

theorem insertNode_perm (a : Node) (l : List Node) : (insertNode a l).Perm (a :: l) := by
  induction l with
  | nil => simp [insertNode]
  | cons b l ih =>
    rw [insertNode]
    split
    · exact (List.Perm.cons b ih).trans (List.Perm.swap a b l)
    · exact List.Perm.refl _

theorem insertNode_ordered (a : Node) (l : List Node)
    (h : l.Pairwise (fun a b => less b a = false)) :
    (insertNode a l).Pairwise (fun a b => less b a = false) := by
  induction l with
  | nil => simp [insertNode]
  | cons b l ih =>
    rw [List.pairwise_cons] at h
    rw [insertNode]
    split
    · next hlt =>
      rw [List.pairwise_cons]
      refine ⟨fun c hc => ?_, ih h.2⟩
      rcases List.mem_cons.1 ((insertNode_perm a l).subset hc) with he | hm
      · rw [he]; exact less_asymm hlt
      · exact h.1 c hm
    · next hlt =>
      have hba : less b a = false := by simpa using hlt
      rw [List.pairwise_cons]
      refine ⟨fun c hc => ?_, List.pairwise_cons.2 h⟩
      rcases List.mem_cons.1 hc with he | hm
      · rw [he]; exact hba
      · exact less_negtrans (h.1 c hm) hba

theorem sortNode_eq (n : Node) :
    sortNode n = Node.mk n.s n.params (sort n.children) n.handler n.firstLevel := by
  cases n with
  | mk s ps ch h fl => rw [sortNode]; rfl

theorem sort_perm_map (t : List Node) : (sort t).Perm (t.map sortNode) := by
  induction t with
  | nil => simp [sort]
  | cons n rest ih =>
    rw [sort, List.map_cons]
    exact (insertNode_perm _ _).trans (List.Perm.cons _ ih)

theorem sort_level_ordered (t : List Node) : orderedLevel (sort t) = true := by
  rw [orderedLevel_iff]
  induction t with
  | nil => simp [sort]
  | cons n rest ih =>
    rw [sort]
    exact insertNode_ordered _ _ ih

theorem sort_reordered (t : List Node) : Reordered t (sort t) := by
  induction t using tree_induction with
  | h t ih =>
    refine ⟨t.map sortNode, ?_, (sort_perm_map t).symm⟩
    rw [reorderedEach_iff]
    induction t with
    | nil => exact List.Forall₂.nil
    | cons n rest ihl =>
      rw [List.map_cons]
      refine List.Forall₂.cons ?_ (ihl fun m hm => ih m (List.mem_cons_of_mem _ hm))
      rw [reorderedNode_iff, sortNode_eq]
      exact ⟨rfl, rfl, rfl, rfl, ih n (List.mem_cons_self _ _)⟩

theorem sort_everyLevel_ordered (t : List Node) : everyLevel orderedLevel (sort t) = true := by
  induction t using tree_induction with
  | h t ih =>
    rw [everyLevel_iff]
    refine ⟨sort_level_ordered t, fun n2 hn2 => ?_⟩
    have := (sort_perm_map t).subset hn2
    obtain ⟨n, hn, he⟩ := List.mem_map.1 this
    rw [← he, sortNode_eq]
    exact ih n hn

/-- The method `sort` as modelled gives one of the trees its contract allows. -/
theorem sort_outcome (t : List Node) : SortOutcome t (sort t) :=
  ⟨sort_reordered t, sort_everyLevel_ordered t⟩

theorem AfterSort.outcome {t t2 : List Node} (h : AfterSort t t2) : SortOutcome t t2 := by
  rcases h with h | h
  · rw [h]; exact sort_outcome t
  · exact h

theorem paramLast_of_ordered (l : List Node) (h : orderedLevel l = true) :
    paramLast l = true := by
  induction l with
  | nil => rfl
  | cons a l ih =>
    rw [orderedLevel, Bool.and_eq_true] at h
    rw [paramLast, Bool.and_eq_true]
    refine ⟨?_, ih h.2⟩
    by_cases ha : a.s = [colon]
    · simp only [Bool.or_eq_true, decide_eq_true_eq, List.all_eq_true]
      right
      intro m hm
      have := List.all_eq_true.1 h.1 m hm
      simp only [Bool.not_eq_true'] at this
      rw [less_eq] at this
      rcases this with h1 | h1
      · exact h1
      · exact absurd ha h1.1
    · simp [ha]

/-! ## Evaluation of the body of `makeChild` -/

theorem firstDiff_append (s t : Str) (i : Nat) : firstDiff s (s ++ t) i = none := by
  induction s generalizing i with
  | nil => cases t <;> simp [firstDiff]
  | cons a s ih => simp [firstDiff, ih]

theorem makeChildAt_descend (s : Str) (ps0 : List Str) (ch : List Node) (h0 : Option Handler)
    (fl0 : Bool) (y : Nat) (p2 : Str) (ps : List Str) (hd : Option Handler) :
    makeChildAt (Node.mk s ps0 ch h0 fl0) (s ++ y :: p2) ps hd =
      match makeChild ch (y :: p2) ps hd false with
      | Outcome.ok ch2 => LoopStep.ret (NodeOutcome.ok (Node.mk s ps0 ch2 h0 fl0))
      | Outcome.panicked ch2 => LoopStep.ret (NodeOutcome.panicked (Node.mk s ps0 ch2 h0 fl0)) := by
  rw [makeChildAt]
  simp only [firstDiff_append, List.length_append, List.length_cons, List.drop_left]
  rw [if_neg (by omega), if_pos (by omega)]

theorem makeChildAt_same (s : Str) (ps0 : List Str) (ch : List Node) (h0 : Option Handler)
    (fl0 : Bool) (ps : List Str) (hd : Option Handler) :
    makeChildAt (Node.mk s ps0 ch h0 fl0) s ps hd =
      if hd = none then LoopStep.ret (NodeOutcome.ok (Node.mk s ps0 ch h0 fl0))
      else if h0 ≠ none then LoopStep.ret (NodeOutcome.panicked (Node.mk s ps0 ch h0 fl0))
      else LoopStep.ret (NodeOutcome.ok (Node.mk s ps ch hd fl0)) := by
  rw [makeChildAt]
  have := firstDiff_append s [] 0
  rw [List.append_nil] at this
  simp only [this, lt_irrefl, if_false, gt_iff_lt]

/-! ## Trees without branching keep their order -/

theorem reordered_nil (t2 : List Node) : Reordered [] t2 ↔ t2 = [] := by
  constructor
  · rintro ⟨u, hu, hperm⟩
    rw [ReorderedEach] at hu
    subst hu
    exact List.Perm.nil_eq hperm |>.symm
  · rintro rfl
    exact ⟨[], by rw [ReorderedEach], List.Perm.refl _⟩

theorem reordered_singleton (n : Node) (t2 : List Node) :
    Reordered [n] t2 ↔ ∃ n2, t2 = [n2] ∧ ReorderedNode n n2 := by
  constructor
  · rintro ⟨u, hu, hperm⟩
    rw [ReorderedEach] at hu
    obtain ⟨n2, rest2, rfl, h1, h2⟩ := hu
    rw [ReorderedEach] at h2
    subst h2
    exact ⟨n2, (List.perm_singleton.1 hperm.symm), h1⟩
  · rintro ⟨n2, rfl, h1⟩
    refine ⟨[n2], ?_, List.Perm.refl _⟩
    rw [ReorderedEach]
    exact ⟨n2, [], rfl, h1, by rw [ReorderedEach]⟩

theorem reordered_leaf (s : Str) (ps : List Str) (h : Option Handler) (fl : Bool)
    (t2 : List Node) : Reordered [Node.mk s ps [] h fl] t2 ↔ t2 = [Node.mk s ps [] h fl] := by
  rw [reordered_singleton]
  constructor
  · rintro ⟨n2, rfl, h1⟩
    rw [reorderedNode_iff] at h1
    obtain ⟨e1, e2, e3, e4, e5⟩ := h1
    simp only [Node.children] at e5
    rw [reordered_nil] at e5
    cases n2 with
    | mk s2 ps2 ch2 h2 fl2 =>
      simp only [Node.s, Node.params, Node.handler, Node.firstLevel, Node.children] at *
      subst e1 e2 e3 e4 e5
      rfl
  · rintro rfl
    refine ⟨_, rfl, ?_⟩
    rw [reorderedNode_iff]
    exact ⟨rfl, rfl, rfl, rfl, (reordered_nil _).2 rfl⟩

theorem reordered_chain (s : Str) (ps : List Str) (ch : List Node) (h : Option Handler)
    (fl : Bool) (hch : ∀ c2, Reordered ch c2 → c2 = ch) (t2 : List Node)
    (hr : Reordered [Node.mk s ps ch h fl] t2) : t2 = [Node.mk s ps ch h fl] := by
  rw [reordered_singleton] at hr
  obtain ⟨n2, rfl, h1⟩ := hr
  rw [reorderedNode_iff] at h1
  obtain ⟨e1, e2, e3, e4, e5⟩ := h1
  have e6 := hch _ e5
  cases n2 with
  | mk s2 ps2 ch2 h2 fl2 =>
    simp only [Node.s, Node.params, Node.handler, Node.firstLevel, Node.children] at *
    subst e1 e2 e3 e4 e6
    rfl

/-! ## Trees built by registration -/

theorem runCalls_segsNonEmpty {cs : List Call} {t : List Node}
    (hcs : ∀ c ∈ cs, c.path ≠ []) (hrun : runCalls cs [] = some t) :
    everyLevel compressed t = true :=
  runCalls_compressed hcs (by rw [everyLevel_nil]; rfl) hrun

theorem segsNonEmpty_of_compressed (t : List Node) (h : everyLevel compressed t = true) :
    everyLevel segsNonEmpty t = true :=
  everyLevel_mono (fun l hl => by
    rw [compressed, Bool.and_eq_true] at hl
    exact hl.1) t h

theorem SortOutcome.still_compressed {t t2 : List Node} (hs : SortOutcome t t2)
    (h : everyLevel compressed t = true) : everyLevel compressed t2 = true :=
  Reordered.keeps_level compressed_of_segs_perm t t2 hs.1 h

/-! ## Node boundaries and parameter markers -/

theorem Boundary.of_nil {x : Str} (h : Boundary [] x) : x = [] := by
  cases h with
  | root => rfl
  | step _ n y hn _ => simp at hn

theorem Boundary.mono {t t2 : List Node} {x : Str} (hsub : ∀ n ∈ t, n ∈ t2)
    (h : Boundary t x) : Boundary t2 x := by
  cases h with
  | root => exact Boundary.root t2
  | step _ n y hn hb => exact Boundary.step t2 n y (hsub n hn) hb

theorem Boundary.head {n : Node} {rest : List Node} {x : Str}
    (hq : compressed (n :: rest) = true) (hx : x ≠ []) (hh : x.head? = n.s.head?)
    (h : Boundary (n :: rest) x) : ∃ y, x = n.s ++ y ∧ Boundary n.children y := by
  rw [compressed_iff] at hq
  cases h with
  | root => exact absurd rfl hx
  | step _ m y hm hb =>
    rcases List.mem_cons.1 hm with he | hmr
    · subst he; exact ⟨y, rfl, hb⟩
    · exfalso
      apply (List.nodup_cons.1 hq.2).1
      rw [List.mem_map]
      refine ⟨m, hmr, ?_⟩
      have hms := hq.1 m (List.mem_cons_of_mem _ hmr)
      rw [first, first, ← hh]
      cases hm2 : m.s with
      | nil => exact absurd hm2 hms
      | cons a l => simp

theorem Boundary.skip {n : Node} {rest : List Node} {x p z : Str}
    (hsk : Skips n.s p) (hp : p = x ++ z) (h : Boundary (n :: rest) x) : Boundary rest x := by
  cases h with
  | root => exact Boundary.root rest
  | step _ m y hm hb =>
    rcases List.mem_cons.1 hm with he | hmr
    · exfalso
      subst he
      obtain ⟨a, s2, b, p2, hs, hpp, hab⟩ := hsk
      rw [hs, hpp] at hp
      simp at hp
      exact hab hp.1.symm
    · exact Boundary.step rest m y hmr hb

theorem InsOk.boundary_path {ps : List Str} {hd : Option Handler} {p : Str} {fl : Bool}
    {t t2 : List Node} (hins : InsOk ps hd p fl t t2) : Boundary t2 p := by
  induction hins with
  | leaf p fl =>
    have := Boundary.step [Node.mk p ps [] hd fl] (Node.mk p ps [] hd fl) []
      (List.mem_cons_self _ _) (Boundary.root _)
    simpa [Node.s] using this
  | skip p fl n rest rest2 _ _ ih =>
    exact ih.mono (fun m hm => List.mem_cons_of_mem _ hm)
  | midSplit fl c x s2 y p2 ps0 ch h0 fl0 rest _ _ =>
    refine Boundary.step _ (Node.mk c [] _ none fl0) (y :: p2) (List.mem_cons_self _ _) ?_
    have := Boundary.step [Node.mk (x :: s2) ps0 ch h0 false, Node.mk (y :: p2) ps [] hd false]
      (Node.mk (y :: p2) ps [] hd false) [] (by simp) (Boundary.root _)
    simpa [Node.s] using this
  | headSplit p fl x s2 ps0 ch h0 fl0 rest =>
    have := Boundary.step (Node.mk p ps [Node.mk (x :: s2) ps0 ch h0 false] hd fl0 :: rest)
      (Node.mk p ps [Node.mk (x :: s2) ps0 ch h0 false] hd fl0) []
      (List.mem_cons_self _ _) (Boundary.root _)
    simpa [Node.s] using this
  | descend fl s y p2 ps0 ch ch2 h0 fl0 rest _ ih =>
    exact Boundary.step _ (Node.mk s ps0 ch2 h0 fl0) (y :: p2) (List.mem_cons_self _ _) ih
  | keep p fl ps0 ch h0 fl0 rest _ =>
    have := Boundary.step (Node.mk p ps0 ch h0 fl0 :: rest) (Node.mk p ps0 ch h0 fl0) []
      (List.mem_cons_self _ _) (Boundary.root _)
    simpa [Node.s] using this
  | setHandler p fl ps0 ch fl0 rest _ =>
    have := Boundary.step (Node.mk p ps ch hd fl0 :: rest) (Node.mk p ps ch hd fl0) []
      (List.mem_cons_self _ _) (Boundary.root _)
    simpa [Node.s] using this

theorem InsOk.boundary_mono {ps : List Str} {hd : Option Handler} {p : Str} {fl : Bool}
    {t t2 : List Node} (hins : InsOk ps hd p fl t t2) (x : Str) (hb : Boundary t x) :
    Boundary t2 x := by
  induction hins generalizing x with
  | leaf p fl => rw [hb.of_nil]; exact Boundary.root _
  | skip p fl n rest rest2 _ _ ih =>
    cases hb with
    | root => exact Boundary.root _
    | step _ m y hm hbm =>
      rcases List.mem_cons.1 hm with he | hmr
      · exact Boundary.step _ m y (by rw [he]; exact List.mem_cons_self _ _) hbm
      · exact (ih _ (Boundary.step rest m y hmr hbm)).mono
          (fun k hk => List.mem_cons_of_mem _ hk)
  | midSplit fl c x1 s2 y p2 ps0 ch h0 fl0 rest _ _ =>
    cases hb with
    | root => exact Boundary.root _
    | step _ m z hm hbm =>
      rcases List.mem_cons.1 hm with he | hmr
      · subst he
        simp only [Node.s, Node.children] at hbm ⊢
        have h1 := Boundary.step
          [Node.mk (x1 :: s2) ps0 ch h0 false, Node.mk (y :: p2) ps [] hd false]
          (Node.mk (x1 :: s2) ps0 ch h0 false) z (by simp) hbm
        have h2 := Boundary.step (Node.mk c [] [Node.mk (x1 :: s2) ps0 ch h0 false,
          Node.mk (y :: p2) ps [] hd false] none fl0 :: rest) _ _ (List.mem_cons_self _ _) h1
        simpa [Node.s] using h2
      · exact Boundary.step _ m z (List.mem_cons_of_mem _ hmr) hbm
  | headSplit p fl x1 s2 ps0 ch h0 fl0 rest =>
    cases hb with
    | root => exact Boundary.root _
    | step _ m z hm hbm =>
      rcases List.mem_cons.1 hm with he | hmr
      · subst he
        simp only [Node.s, Node.children] at hbm ⊢
        have h1 := Boundary.step [Node.mk (x1 :: s2) ps0 ch h0 false]
          (Node.mk (x1 :: s2) ps0 ch h0 false) z (by simp) hbm
        have h2 := Boundary.step (Node.mk p ps [Node.mk (x1 :: s2) ps0 ch h0 false] hd fl0
          :: rest) _ _ (List.mem_cons_self _ _) h1
        simpa [Node.s] using h2
      · exact Boundary.step _ m z (List.mem_cons_of_mem _ hmr) hbm
  | descend fl s y p2 ps0 ch ch2 h0 fl0 rest _ ih =>
    cases hb with
    | root => exact Boundary.root _
    | step _ m z hm hbm =>
      rcases List.mem_cons.1 hm with he | hmr
      · subst he
        exact Boundary.step _ (Node.mk s ps0 ch2 h0 fl0) z (List.mem_cons_self _ _) (ih z hbm)
      · exact Boundary.step _ m z (List.mem_cons_of_mem _ hmr) hbm
  | keep p fl ps0 ch h0 fl0 rest _ => exact hb
  | setHandler p fl ps0 ch fl0 rest _ =>
    cases hb with
    | root => exact Boundary.root _
    | step _ m z hm hbm =>
      rcases List.mem_cons.1 hm with he | hmr
      · subst he
        exact Boundary.step _ (Node.mk p ps ch hd fl0) z (List.mem_cons_self _ _) hbm
      · exact Boundary.step _ m z (List.mem_cons_of_mem _ hmr) hbm

/-! ## Registration keeps the parameter markers apart -/

theorem colonsApart_iff (l : List Node) :
    colonsApart l = true ↔ ∀ n ∈ l, n.s = [colon] ∨ colon ∉ n.s := by
  simp [colonsApart]

theorem everyLevel_tail {q : List Node → Bool} {n : Node} {rest : List Node}
    (hq : q (n :: rest) = true → q rest = true) (h : everyLevel q (n :: rest) = true) :
    everyLevel q rest = true := by
  rw [everyLevel_iff] at h ⊢
  exact ⟨hq h.1, fun m hm => h.2 m (List.mem_cons_of_mem _ hm)⟩

theorem compressed_tail {n : Node} {rest : List Node} (h : compressed (n :: rest) = true) :
    compressed rest = true := by
  rw [compressed_iff] at h ⊢
  exact ⟨fun m hm => h.1 m (List.mem_cons_of_mem _ hm), (List.nodup_cons.1 h.2).2⟩

theorem colonsApart_tail {n : Node} {rest : List Node} (h : colonsApart (n :: rest) = true) :
    colonsApart rest = true := by
  rw [colonsApart_iff] at h ⊢
  exact fun m hm => h m (List.mem_cons_of_mem _ hm)

theorem marker_alone_or_absent {q : Str}
    (h : ∀ u w, q = u ++ colon :: w → u = [] ∧ w = []) : q = [colon] ∨ colon ∉ q := by
  by_cases hc : colon ∈ q
  · obtain ⟨u, w, hq⟩ := List.append_of_mem hc
    obtain ⟨hu, hw⟩ := h u w hq
    left
    rw [hq, hu, hw]; rfl
  · exact Or.inr hc

theorem InsOk.keeps_colonsApart {ps : List Str} {hd : Option Handler} {p : Str} {fl : Bool}
    {t t2 : List Node} (hins : InsOk ps hd p fl t t2) (hp : p ≠ [])
    (hc : everyLevel compressed t = true) (ha : everyLevel colonsApart t = true)
    (hdis : Disciplined t p) : everyLevel colonsApart t2 = true := by
  induction hins with
  | leaf p fl =>
    rw [everyLevel_cons]
    refine ⟨?_, by rw [everyLevel_nil]; rfl, by simp⟩
    rw [colonsApart_iff]
    intro n hn
    simp only [List.mem_singleton] at hn
    subst hn
    apply marker_alone_or_absent
    intro u w hpu
    obtain ⟨h1, h2⟩ := hdis u w hpu
    have hu := h1.of_nil
    refine ⟨hu, ?_⟩
    rcases h2 with h2 | h2
    · exact h2
    · have := h2.of_nil
      simp at this
  | skip p fl n rest rest2 hsk _ ih =>
    have hdis2 : Disciplined rest p := by
      intro u w hpu
      obtain ⟨h1, h2⟩ := hdis u w hpu
      refine ⟨Boundary.skip hsk hpu h1, ?_⟩
      rcases h2 with h2 | h2
      · exact Or.inl h2
      · exact Or.inr (Boundary.skip hsk (z := w) (by rw [hpu]; simp) h2)
    have ih2 := ih hp (everyLevel_tail compressed_tail hc) (everyLevel_tail colonsApart_tail ha)
      hdis2
    rw [everyLevel_iff] at ha ih2 ⊢
    rw [colonsApart_iff] at ha ih2 ⊢
    refine ⟨?_, ?_⟩
    · intro m hm
      rcases List.mem_cons.1 hm with he | hmr
      · rw [he]; exact ha.1 n (List.mem_cons_self _ _)
      · exact ih2.1 m hmr
    · intro m hm
      rcases List.mem_cons.1 hm with he | hmr
      · rw [he]; exact ha.2 n (List.mem_cons_self _ _)
      · exact ih2.2 m hmr
  | midSplit fl c x s2 y p2 ps0 ch h0 fl0 rest hcne hxy =>
    rw [everyLevel_cons] at ha hc ⊢
    obtain ⟨haq, hach, harest⟩ := ha
    rw [colonsApart_iff] at haq
    have hs : colon ∉ c ++ x :: s2 := by
      rcases haq _ (List.mem_cons_self _ _) with h1 | h1
      · simp only [Node.s] at h1
        have := congrArg List.length h1
        have hl := List.length_pos.2 hcne
        simp at this
        omega
      · exact h1
    have hnew : colon ∉ y :: p2 := by
      intro hmem
      obtain ⟨u, w, hq⟩ := List.append_of_mem hmem
      have hpu : c ++ y :: p2 = (c ++ u) ++ colon :: w := by rw [hq]; simp
      obtain ⟨h1, -⟩ := hdis (c ++ u) w hpu
      have hne : c ++ u ≠ [] := by simp [hcne]
      obtain ⟨z, hz, -⟩ := Boundary.head hc.1 hne (by
        cases c with
        | nil => exact absurd rfl hcne
        | cons a c => simp [Node.s]) h1
      simp only [Node.s, List.append_assoc, List.append_cancel_left_eq] at hz
      rw [hz] at hq
      simp at hq
      exact hxy hq.1.symm
    simp only [List.mem_append, List.mem_cons, not_or] at hs
    refine ⟨?_, ?_, harest⟩
    · rw [colonsApart_iff]
      intro m hm
      rcases List.mem_cons.1 hm with he | hmr
      · rw [he]; exact Or.inr hs.1
      · exact haq m (List.mem_cons_of_mem _ hmr)
    · rw [everyLevel_cons]
      refine ⟨?_, hach, ?_⟩
      · rw [colonsApart_iff]
        intro m hm
        simp only [List.mem_cons, List.mem_singleton, List.not_mem_nil, or_false] at hm
        rcases hm with he | he
        · rw [he]; right; simp only [Node.s, List.mem_cons, not_or]; exact hs.2
        · rw [he]; right; exact hnew
      · intro m hm
        simp only [List.mem_singleton] at hm
        rw [hm]
        simp only [Node.children, everyLevel_nil]
        rfl
  | headSplit p fl x s2 ps0 ch h0 fl0 rest =>
    rw [everyLevel_cons] at ha ⊢
    obtain ⟨haq, hach, harest⟩ := ha
    rw [colonsApart_iff] at haq
    have hs : colon ∉ p ++ x :: s2 := by
      rcases haq _ (List.mem_cons_self _ _) with h1 | h1
      · simp only [Node.s] at h1
        have := congrArg List.length h1
        have hl := List.length_pos.2 hp
        simp at this
        omega
      · exact h1
    simp only [List.mem_append, List.mem_cons, not_or] at hs
    refine ⟨?_, ?_, harest⟩
    · rw [colonsApart_iff]
      intro m hm
      rcases List.mem_cons.1 hm with he | hmr
      · rw [he]; exact Or.inr hs.1
      · exact haq m (List.mem_cons_of_mem _ hmr)
    · rw [everyLevel_cons]
      refine ⟨?_, hach, by simp⟩
      rw [colonsApart_iff]
      intro m hm
      simp only [List.mem_singleton] at hm
      rw [hm]; right; simp only [Node.s, List.mem_cons, not_or]; exact hs.2
  | descend fl s y p2 ps0 ch ch2 h0 fl0 rest _ ih =>
    rw [everyLevel_cons] at ha hc ⊢
    obtain ⟨haq, hach, harest⟩ := ha
    have hsne : s ≠ [] := by
      have := hc.1
      rw [compressed_iff] at this
      exact this.1 _ (List.mem_cons_self _ _)
    have key : ∀ v, Boundary (Node.mk s ps0 ch h0 fl0 :: rest) (s ++ v) → Boundary ch v := by
      intro v hb
      obtain ⟨z, hz, hbz⟩ := Boundary.head hc.1 (by simp [hsne]) (by
        cases s with
        | nil => exact absurd rfl hsne
        | cons a s => simp [Node.s]) hb
      simp only [Node.s, List.append_cancel_left_eq] at hz
      rw [hz]; exact hbz
    have hdis2 : Disciplined ch (y :: p2) := by
      intro u w hq
      have hpu : s ++ y :: p2 = (s ++ u) ++ colon :: w := by rw [hq]; simp
      obtain ⟨h1, h2⟩ := hdis (s ++ u) w hpu
      refine ⟨key u h1, ?_⟩
      rcases h2 with h2 | h2
      · exact Or.inl h2
      · right
        rw [List.append_assoc] at h2
        exact key _ h2
    refine ⟨?_, ih (by simp) hc.2.1 hach hdis2, harest⟩
    rw [colonsApart_iff] at haq ⊢
    simpa [Node.s] using haq
  | keep p fl ps0 ch h0 fl0 rest _ => exact ha
  | setHandler p fl ps0 ch fl0 rest _ =>
    rw [everyLevel_cons] at ha ⊢
    obtain ⟨haq, hach, harest⟩ := ha
    refine ⟨?_, hach, harest⟩
    rw [colonsApart_iff] at haq ⊢
    simpa [Node.s] using haq

/-! ## Histories that respect the parameter markers -/

theorem runCalls_colonsApart {cs : List Call} {t0 t : List Node} (known : List Str)
    (hrun : runCalls cs t0 = some t) (hcs : ∀ c ∈ cs, c.path ≠ [])
    (hc : everyLevel compressed t0 = true) (ha : everyLevel colonsApart t0 = true)
    (hk : ∀ b ∈ known, Boundary t0 b) (hd : CallsDisciplined known cs) :
    everyLevel colonsApart t = true := by
  induction cs generalizing t0 known with
  | nil => simp [runCalls] at hrun; rw [← hrun]; exact ha
  | cons c cs ih =>
    simp only [runCalls] at hrun
    rw [CallsDisciplined] at hd
    cases hmk : makeChild t0 c.path c.params c.handler c.firstLevel with
    | ok t1 =>
      rw [hmk] at hrun
      have hins := makeChild_ok_ins hmk
      have hp := hcs c (List.mem_cons_self _ _)
      have hdis : Disciplined t0 c.path := by
        intro u w hpu
        obtain ⟨h1, h2⟩ := hd.1 u w hpu
        refine ⟨hk u h1, ?_⟩
        rcases h2 with h2 | h2
        · exact Or.inl h2
        · exact Or.inr (hk _ h2)
      refine ih (c.path :: known) hrun (fun d hd => hcs d (List.mem_cons_of_mem _ hd))
        (hins.keeps_compressed hp hc) (hins.keeps_colonsApart hp hc ha hdis) ?_ hd.2
      intro b hb
      rcases List.mem_cons.1 hb with he | hb2
      · rw [he]; exact hins.boundary_path
      · exact hins.boundary_mono b (hk b hb2)
    | panicked t1 => rw [hmk] at hrun; simp at hrun

theorem callsDisciplined_of_no_colon (known : List Str) (cs : List Call)
    (h : ∀ c ∈ cs, colon ∉ c.path) : CallsDisciplined known cs := by
  induction cs generalizing known with
  | nil => rw [CallsDisciplined]; trivial
  | cons c cs ih =>
    rw [CallsDisciplined]
    refine ⟨?_, ih _ (fun d hd => h d (List.mem_cons_of_mem _ hd))⟩
    intro u w hpu
    exfalso
    apply h c (List.mem_cons_self _ _)
    rw [hpu]; simp

theorem callsDisciplined_append (cs ds : List Call) (known : List Str)
    (h1 : CallsDisciplined known cs) (h2 : ∀ k, CallsDisciplined k ds) :
    CallsDisciplined known (cs ++ ds) := by
  induction cs generalizing known with
  | nil => exact h2 known
  | cons c cs ih =>
    rw [CallsDisciplined] at h1
    rw [List.cons_append, CallsDisciplined]
    exact ⟨h1.1, ih _ h1.2⟩

/-! ## Registration without duplicates succeeds -/

theorem handlerPaths_append (cs ds : List Call) :
    handlerPaths (cs ++ ds) = handlerPaths cs ++ handlerPaths ds := by
  induction cs with
  | nil => rfl
  | cons c cs ih =>
    rw [List.cons_append, handlerPaths, handlerPaths]
    split
    · exact ih
    · rw [ih]; rfl

theorem runCalls_succeeds (cs : List Call) (t0 : List Node)
    (hcs : ∀ c ∈ cs, c.path ≠ []) (hc : everyLevel compressed t0 = true)
    (hnd : (handlerPaths cs).Nodup)
    (hfresh : ∀ p ∈ handlerPaths cs, ∀ qs h, (p, qs, h) ∉ routes t0) :
    ∃ t, runCalls cs t0 = some t := by
  induction cs generalizing t0 with
  | nil => exact ⟨t0, rfl⟩
  | cons c cs ih =>
    have hp := hcs c (List.mem_cons_self _ _)
    have hnp : ¬ ∃ t2, makeChild t0 c.path c.params c.handler c.firstLevel
        = Outcome.panicked t2 := by
      rw [makeChild_panicked_iff t0 c.path c.params c.handler c.firstLevel hp hc]
      rintro ⟨hne, qs, h, hm⟩
      apply hfresh c.path _ qs h hm
      rw [handlerPaths, if_neg hne]
      exact List.mem_cons_self _ _
    cases hmk : makeChild t0 c.path c.params c.handler c.firstLevel with
    | panicked t1 => exact absurd ⟨t1, hmk⟩ hnp
    | ok t1 =>
      have hins := makeChild_ok_ins hmk
      simp only [runCalls, hmk]
      apply ih t1 (fun d hd => hcs d (List.mem_cons_of_mem _ hd)) (hins.keeps_compressed hp hc)
      · rw [handlerPaths] at hnd
        split at hnd
        · exact hnd
        · exact (List.nodup_cons.1 hnd).2
      · intro q hq qs h hm
        rw [hins.routes_iff] at hm
        rw [handlerPaths] at hnd hfresh
        rcases hm with hm | ⟨h1, h2, -⟩
        · apply hfresh q _ qs h hm
          split
          · exact hq
          · exact List.mem_cons_of_mem _ hq
        · have hne : ¬ c.handler = none := by rw [h1]; simp
          rw [if_neg hne] at hnd
          apply (List.nodup_cons.1 hnd).1
          rw [← h2]; exact hq

/-! ## The calls that register a route -/

theorem snoc_eq_append_marker {done u w : Str} {b : Nat}
    (h : done ++ [b] = u ++ colon :: w) :
    (w = [] ∧ u = done ∧ b = colon) ∨ ∃ w2, w = w2 ++ [b] ∧ done = u ++ colon :: w2 := by
  rcases List.eq_nil_or_concat w with hw | ⟨w2, c, hw⟩
  · left
    subst hw
    have h2 : done ++ [b] = u ++ [colon] := h
    have := List.append_inj' h2 rfl
    exact ⟨rfl, this.1.symm, by simpa using this.2⟩
  · right
    subst hw
    have h2 : done ++ [b] = (u ++ colon :: w2) ++ [c] := by rw [h]; simp
    have := List.append_inj' h2 rfl
    have hc : b = c := by simpa using this.2
    exact ⟨w2, by rw [hc]; simp, this.1⟩

theorem markerCalls_disciplined (ap : Str → List Str) (af : Str → Bool) (fin : Call) :
    ∀ (rest done : Str) (known : List Str), fin.path = done ++ rest →
      (∀ u w, done = u ++ colon :: w → u ∈ known ∧ u ++ [colon] ∈ known) →
      CallsDisciplined known
        ((markerPrefixesFrom done rest).map (fun q => Call.mk q (ap q) none (af q)) ++ [fin]) := by
  intro rest
  induction rest with
  | nil =>
    intro done known hfin hcov
    simp only [markerPrefixesFrom, List.map_nil, List.nil_append, CallsDisciplined, and_true]
    intro u w hpu
    rw [hfin, List.append_nil] at hpu
    exact ⟨(hcov u w hpu).1, Or.inr (hcov u w hpu).2⟩
  | cons b rest ih =>
    intro done known hfin hcov
    rw [markerPrefixesFrom]
    split
    · next hb =>
      subst hb
      simp only [List.map_cons, List.cons_append, CallsDisciplined]
      refine ⟨?_, ?_, ?_⟩
      · intro u w hpu
        exact ⟨(hcov u w hpu).1, Or.inr (hcov u w hpu).2⟩
      · intro u w hpu
        rcases snoc_eq_append_marker hpu with ⟨hw, hu, -⟩ | ⟨w2, -, hdone⟩
        · exact ⟨by rw [hu]; exact List.mem_cons_self _ _, Or.inl hw⟩
        · exact ⟨List.mem_cons_of_mem _ (hcov u w2 hdone).1,
            Or.inr (List.mem_cons_of_mem _ (hcov u w2 hdone).2)⟩
      · apply ih (done ++ [colon]) _ (by rw [hfin]; simp)
        intro u w hpu
        rcases snoc_eq_append_marker hpu with ⟨-, hu, -⟩ | ⟨w2, -, hdone⟩
        · rw [hu]
          exact ⟨List.mem_cons_of_mem _ (List.mem_cons_self _ _), List.mem_cons_self _ _⟩
        · exact ⟨List.mem_cons_of_mem _ (List.mem_cons_of_mem _ (hcov u w2 hdone).1),
            List.mem_cons_of_mem _ (List.mem_cons_of_mem _ (hcov u w2 hdone).2)⟩
    · next hb =>
      apply ih (done ++ [b]) known (by rw [hfin]; simp)
      intro u w hpu
      rcases snoc_eq_append_marker hpu with ⟨-, -, hbc⟩ | ⟨w2, -, hdone⟩
      · exact absurd hbc hb
      · exact hcov u w2 hdone

theorem registerCalls_disciplined (r : Registration) (known : List Str) :
    CallsDisciplined known (registerCalls r) := by
  rw [registerCalls, markerPrefixes]
  apply markerCalls_disciplined r.auxParams r.auxFlag _ r.path [] known (by simp)
  intro u w hpu
  simp at hpu

theorem mem_markerPrefixesFrom {q done rest : Str} (h : q ∈ markerPrefixesFrom done rest) :
    ∃ z, q = done ++ z := by
  induction rest generalizing done with
  | nil => simp [markerPrefixesFrom] at h
  | cons b rest ih =>
    rw [markerPrefixesFrom] at h
    split at h
    · simp only [List.mem_cons] at h
      rcases h with h | h | h
      · exact ⟨[], by simp [h]⟩
      · exact ⟨[colon], h⟩
      · obtain ⟨z, hz⟩ := ih h
        exact ⟨b :: z, by rw [hz]; simp⟩
    · obtain ⟨z, hz⟩ := ih h
      exact ⟨b :: z, by rw [hz]; simp⟩

theorem markerPrefixes_ne_nil {path q : Str} (hh : path.head? ≠ some colon)
    (h : q ∈ markerPrefixes path) : q ≠ [] := by
  rw [markerPrefixes] at h
  cases path with
  | nil => simp [markerPrefixesFrom] at h
  | cons b rest =>
    have hb : b ≠ colon := by
      intro hb; apply hh; simp [hb]
    rw [markerPrefixesFrom, if_neg hb] at h
    obtain ⟨z, hz⟩ := mem_markerPrefixesFrom h
    rw [hz]; simp

theorem registerCalls_path_ne_nil {r : Registration} (hp : r.path ≠ [])
    (hh : r.path.head? ≠ some colon) : ∀ c ∈ registerCalls r, c.path ≠ [] := by
  intro c hc
  rw [registerCalls, List.mem_append] at hc
  rcases hc with hc | hc
  · obtain ⟨q, hq, he⟩ := List.mem_map.1 hc
    rw [← he]
    exact markerPrefixes_ne_nil hh hq
  · simp only [List.mem_singleton] at hc
    rw [hc]; exact hp

theorem handlerPaths_registerCalls (r : Registration) :
    handlerPaths (registerCalls r) = [r.path] := by
  rw [registerCalls, handlerPaths_append]
  have : ∀ l : List Str,
      handlerPaths (l.map (fun q => Call.mk q (r.auxParams q) none (r.auxFlag q))) = [] := by
    intro l
    induction l with
    | nil => rfl
    | cons q l ih => simp [handlerPaths, ih]
  rw [this]
  simp [handlerPaths]

theorem handlerPaths_flatMap (regs : List Registration) :
    handlerPaths (regs.flatMap registerCalls) = regs.map Registration.path := by
  induction regs with
  | nil => rfl
  | cons r regs ih =>
    rw [List.flatMap_cons, handlerPaths_append, handlerPaths_registerCalls, ih]
    rfl

theorem callsDisciplined_flatMap (regs : List Registration) (known : List Str) :
    CallsDisciplined known (regs.flatMap registerCalls) := by
  induction regs generalizing known with
  | nil => simp [CallsDisciplined]
  | cons r regs ih =>
    rw [List.flatMap_cons]
    exact callsDisciplined_append _ _ known (registerCalls_disciplined r known) ih

theorem markersWholeFrom_closed (path : Str) :
    ∀ prev, markersWholeFrom prev path = true → ColonsClosed path := by
  induction path with
  | nil =>
    intro prev _ u w h
    simp at h
  | cons b rest ih =>
    intro prev hm u w h
    rw [markersWholeFrom, Bool.and_eq_true] at hm
    cases u with
    | nil =>
      simp only [List.nil_append, List.cons.injEq] at h
      obtain ⟨hb, hr⟩ := h
      subst hb
      subst hr
      have := hm.1
      simp only [ne_eq, not_true_eq_false, decide_False, Bool.false_or, Bool.and_eq_true,
        Bool.or_eq_true, decide_eq_true_eq] at this
      rcases this.2 with h1 | h1
      · exact Or.inl h1
      · right
        cases rest with
        | nil => simp at h1
        | cons c w2 =>
          simp only [List.head?_cons, Option.some.injEq] at h1
          exact ⟨w2, by rw [h1]⟩
    | cons a u2 =>
      simp only [List.cons_append, List.cons.injEq] at h
      exact ih (some b) hm.2 u2 w h.2

theorem markersWhole_head {path : Str} (h : markersWhole path = true) :
    path.head? ≠ some colon := by
  cases path with
  | nil => simp
  | cons b rest =>
    intro hb
    simp only [List.head?_cons, Option.some.injEq] at hb
    subst hb
    rw [markersWhole, markersWholeFrom] at h
    simp at h

/-! ## Round trip of registration and lookup -/

theorem everyLevel_and {q1 q2 : List Node → Bool} (t : List Node) :
    everyLevel q1 t = true → everyLevel q2 t = true →
      everyLevel (fun l => q1 l && q2 l) t = true := by
  induction t using tree_induction with
  | h t ih =>
    intro h1 h2
    rw [everyLevel_iff] at h1 h2 ⊢
    exact ⟨by simp [h1.1, h2.1], fun n hn => ih n hn (h1.2 n hn) (h2.2 n hn)⟩

theorem SortOutcome.makes_lookupReady {t t2 : List Node} (hs : SortOutcome t t2)
    (hc : everyLevel compressed t = true) (ha : everyLevel colonsApart t = true) :
    everyLevel lookupReady t2 = true := by
  have h1 := Reordered.keeps_level compressed_of_segs_perm t t2 hs.1 hc
  have h2 := Reordered.keeps_level colonsApart_of_segs_perm t t2 hs.1 ha
  have h3 : everyLevel paramLast t2 = true := everyLevel_mono paramLast_of_ordered t2 hs.2
  exact everyLevel_and t2 (everyLevel_and t2 h1 h2) h3

theorem colonsClosed_of_no_colon {x : Str} (h : colon ∉ x) : ColonsClosed x := by
  intro u w hx
  exfalso; apply h; rw [hx]; simp

/-- Calls with non-empty paths that respect the parameter markers and register no path
twice all succeed, and after `sort` every path registered with a handler is found again. -/
theorem runCalls_round_trip (cs : List Call) (hcs : ∀ c ∈ cs, c.path ≠ [])
    (hnd : (handlerPaths cs).Nodup) (hdis : CallsDisciplined [] cs) :
    ∃ t, runCalls cs [] = some t ∧ ∀ t2, SortOutcome t t2 →
      ∀ c ∈ cs, ∀ h, c.handler = some h → ColonsClosed c.path →
        ∃ n vs, findChild t2 c.path [] = some (some n, vs) ∧ n.handler = some h ∧
          n.params = c.params ∧ vs.length = c.path.count colon := by
  have h0 : everyLevel compressed [] = true := by rw [everyLevel_nil]; rfl
  have h0a : everyLevel colonsApart [] = true := by rw [everyLevel_nil]; rfl
  obtain ⟨t, ht⟩ := runCalls_succeeds cs [] hcs h0 hnd (by intro p _ qs h; simp [routes])
  refine ⟨t, ht, fun t2 hs c hc h hh hclosed => ?_⟩
  have hcomp := runCalls_compressed hcs h0 ht
  have hapart := runCalls_colonsApart [] ht hcs h0 h0a (by simp) hdis
  have hready := hs.makes_lookupReady hcomp hapart
  have hroute : (c.path, c.params, h) ∈ routes t :=
    (runCalls_routes ht c.path c.params h).2 (Or.inr ⟨c, hc, rfl, rfl, hh⟩)
  have hroute2 := (Reordered.same_routes t t2 hs.1 c.path c.params h).1 hroute
  obtain ⟨n, vs, h1, h2, h3, h4⟩ :=
    findChild_registered t2 hready c.path c.params h [] hroute2 hclosed
  exact ⟨n, vs, by simpa using h1, h2, h3, h4⟩

theorem static_pair (p q : Str) (hp hq : Handler) (f1 f2 : Bool) (hpne : p ≠ [])
    (hqne : q ≠ []) (hpc : colon ∉ p) (hqc : colon ∉ q) (hpq : p ≠ q) :
    ∃ t, runCalls [Call.mk p [] (some hp) f1, Call.mk q [] (some hq) f2] [] = some t ∧
      ∀ t2, SortOutcome t t2 →
        (∃ n, findChild t2 p [] = some (some n, []) ∧ n.handler = some hp) ∧
        (∃ n, findChild t2 q [] = some (some n, []) ∧ n.handler = some hq) := by
  obtain ⟨t, ht, hfind⟩ := runCalls_round_trip
    [Call.mk p [] (some hp) f1, Call.mk q [] (some hq) f2]
    (by simp [hpne, hqne]) (by simp [handlerPaths, hpq])
    (callsDisciplined_of_no_colon _ _ (by simp [hpc, hqc]))
  refine ⟨t, ht, fun t2 hs => ⟨?_, ?_⟩⟩
  · obtain ⟨n, vs, h1, h2, -, h4⟩ := hfind t2 hs (Call.mk p [] (some hp) f1) (by simp) hp rfl
      (colonsClosed_of_no_colon hpc)
    simp only [List.count_eq_zero_of_not_mem hpc, List.length_eq_zero] at h4
    subst h4
    exact ⟨n, h1, h2⟩
  · obtain ⟨n, vs, h1, h2, -, h4⟩ := hfind t2 hs (Call.mk q [] (some hq) f2) (by simp) hq rfl
      (colonsClosed_of_no_colon hqc)
    simp only [List.count_eq_zero_of_not_mem hqc, List.length_eq_zero] at h4
    subst h4
    exact ⟨n, h1, h2⟩

/-! ## A route that ends in a parameter, with and without a continuation -/

theorem markerPrefixesFrom_no_colon (done x : Str) (hx : colon ∉ x) :
    markerPrefixesFrom done x = [] := by
  induction x generalizing done with
  | nil => rfl
  | cons b x ih =>
    simp only [List.mem_cons, not_or] at hx
    rw [markerPrefixesFrom, if_neg (Ne.symm hx.1)]
    exact ih _ hx.2

theorem markerPrefixesFrom_marker (done x y : Str) (hx : colon ∉ x) :
    markerPrefixesFrom done (x ++ colon :: y) =
      (done ++ x) :: (done ++ x ++ [colon]) :: markerPrefixesFrom (done ++ x ++ [colon]) y := by
  induction x generalizing done with
  | nil => simp [markerPrefixesFrom]
  | cons b x ih =>
    simp only [List.mem_cons, not_or] at hx
    rw [List.cons_append, markerPrefixesFrom, if_neg (Ne.symm hx.1), ih _ hx.2]
    simp

theorem makeChildAt_descend_one (b : Nat) (ps0 : List Str) (ch : List Node)
    (h0 : Option Handler) (fl0 : Bool) (y : Nat) (p2 : Str) (ps : List Str)
    (hd : Option Handler) :
    makeChildAt (Node.mk [b] ps0 ch h0 fl0) (b :: y :: p2) ps hd =
      match makeChild ch (y :: p2) ps hd false with
      | Outcome.ok ch2 => LoopStep.ret (NodeOutcome.ok (Node.mk [b] ps0 ch2 h0 fl0))
      | Outcome.panicked ch2 =>
        LoopStep.ret (NodeOutcome.panicked (Node.mk [b] ps0 ch2 h0 fl0)) :=
  makeChildAt_descend [b] ps0 ch h0 fl0 y p2 ps hd

/-- The tree of the routes `a:` and `a:s`, whatever the order of registration. -/
theorem param_pair_tree (a s2 : Str) (r1 r2 : Registration) (hac : colon ∉ a)
    (hsc : colon ∉ slash :: s2) (hr1 : r1.path = a ++ colon :: slash :: s2)
    (hr2 : r2.path = a ++ [colon]) (cs : List Call)
    (hcs : cs = registerCalls r1 ++ registerCalls r2 ∨
      cs = registerCalls r2 ++ registerCalls r1) :
    ∃ pa fa, runCalls cs [] = some [Node.mk a pa [Node.mk [colon] r2.names
      [Node.mk (slash :: s2) r1.names [] (some r1.handler) false] (some r2.handler) false]
      none fa] := by
  have h1 : registerCalls r1 = [Call.mk a (r1.auxParams a) none (r1.auxFlag a),
      Call.mk (a ++ [colon]) (r1.auxParams (a ++ [colon])) none (r1.auxFlag (a ++ [colon])),
      Call.mk (a ++ colon :: slash :: s2) r1.names (some r1.handler) r1.firstLevel] := by
    rw [registerCalls, markerPrefixes, hr1, markerPrefixesFrom_marker [] a _ hac,
      markerPrefixesFrom_no_colon _ _ hsc]
    simp
  have h2 : registerCalls r2 = [Call.mk a (r2.auxParams a) none (r2.auxFlag a),
      Call.mk (a ++ [colon]) (r2.auxParams (a ++ [colon])) none (r2.auxFlag (a ++ [colon])),
      Call.mk (a ++ [colon]) r2.names (some r2.handler) r2.firstLevel] := by
    rw [registerCalls, markerPrefixes, hr2, markerPrefixesFrom_marker [] a _ hac,
      markerPrefixesFrom_no_colon _ _ (by simp)]
    simp
  have e1 := fun ps0 ch h0 fl0 ps hd =>
    makeChildAt_descend a ps0 ch h0 fl0 colon [] ps hd
  have e2 := fun ps0 ch h0 fl0 ps hd =>
    makeChildAt_descend a ps0 ch h0 fl0 colon (slash :: s2) ps hd
  rcases hcs with hcs | hcs
  · refine ⟨r1.auxParams a, r1.auxFlag a, ?_⟩
    rw [hcs, h1, h2]
    simp [runCalls, makeChild, e1, e2, makeChildAt_same, makeChildAt_descend_one]
  · refine ⟨r2.auxParams a, r2.auxFlag a, ?_⟩
    rw [hcs, h1, h2]
    simp [runCalls, makeChild, e1, e2, makeChildAt_same, makeChildAt_descend_one]

/-- Lookup in the tree of the routes `a:` and `a:s`. -/
theorem param_pair_lookup (a s2 v : Str) (pa n1 n2 : List Str) (h1 h2 : Handler) (fa : Bool)
    (ha : a ≠ []) (hac : colon ∉ a) (hsc : colon ∉ slash :: s2) (hv : v ≠ [])
    (hvs : slash ∉ v) (t2 : List Node)
    (hs : SortOutcome [Node.mk a pa [Node.mk [colon] n2
      [Node.mk (slash :: s2) n1 [] (some h1) false] (some h2) false] none fa] t2) :
    findChild t2 (a ++ v ++ slash :: s2) [] =
        some (some (Node.mk (slash :: s2) n1 [] (some h1) false), [v]) ∧
      findChild t2 (a ++ v) [] = some (some (Node.mk [colon] n2
        [Node.mk (slash :: s2) n1 [] (some h1) false] (some h2) false), [v]) := by
  have ht : t2 = _ := reordered_chain a pa _ none fa
    (reordered_chain [colon] n2 _ (some h2) false
      (fun c2 hc2 => (reordered_leaf (slash :: s2) n1 (some h1) false c2).1 hc2)) t2 hs.1
  subst ht
  have hne : a ≠ [colon] := by
    intro he; rw [he] at hac; simp at hac
  have hsne : slash :: s2 ≠ [colon] := by
    intro he; rw [he] at hsc; simp at hsc
  have e3 : findChild [Node.mk (slash :: s2) n1 [] (some h1) false] (slash :: s2) ([] ++ [v])
      = some (some (Node.mk (slash :: s2) n1 [] (some h1) false), [v]) := by
    rw [findChild, findChildAt_exact (slash :: s2) n1 [] (some h1) false _ hsne]
    simp
  have e2 : findChild [Node.mk [colon] n2 [Node.mk (slash :: s2) n1 [] (some h1) false]
      (some h2) false] (v ++ slash :: s2) []
      = some (some (Node.mk (slash :: s2) n1 [] (some h1) false), [v]) := by
    rw [findChild, findChildAt_param_more n2 _ (some h2) false v s2 [] hvs, e3]
  have e1 : findChild [Node.mk [colon] n2 [Node.mk (slash :: s2) n1 [] (some h1) false]
      (some h2) false] v []
      = some (some (Node.mk [colon] n2 [Node.mk (slash :: s2) n1 [] (some h1) false]
        (some h2) false), [v]) := by
    rw [findChild, findChildAt_param_end n2 _ (some h2) false v [] hvs]
    simp
  constructor
  · rw [List.append_assoc, findChild,
      findChildAt_longer a pa _ none fa (v ++ slash :: s2) [] hne ha (by simp), e2]
    simp [noHandler, Node.handler]
  · rw [findChild, findChildAt_longer a pa _ none fa v [] hne ha hv, e1]
    simp [noHandler, Node.handler]

/-! ## The two phases of `sort` commute -/

theorem countChildren_eq (n : Node) : countChildren n = countChildrenLoop n.children := by
  cases n with
  | mk s ps ch h fl => rw [countChildren]; rfl

theorem countChildrenLoop_eq_sum (l : List Node) :
    countChildrenLoop l = (l.map (fun n => 1 + countChildren n)).sum := by
  induction l with
  | nil => rfl
  | cons n l ih => rw [countChildrenLoop, ih]; simp

theorem Reordered.count_eq (t : List Node) :
    ∀ t2, Reordered t t2 → countChildrenLoop t2 = countChildrenLoop t := by
  induction t using tree_induction with
  | h t ih =>
    rintro t2 ⟨u, hu, hperm⟩
    rw [countChildrenLoop_eq_sum, countChildrenLoop_eq_sum,
      ← (hperm.map (fun n => 1 + countChildren n)).sum_eq]
    rw [reorderedEach_iff] at hu
    clear hperm
    induction hu with
    | nil => rfl
    | cons h1 _ ihl =>
      rw [reorderedNode_iff] at h1
      rw [List.map_cons, List.map_cons, List.sum_cons, List.sum_cons,
        ihl (fun m hm => ih m (List.mem_cons_of_mem _ hm)), countChildren_eq, countChildren_eq,
        ih _ (List.mem_cons_self _ _) _ h1.2.2.2.2]

theorem less_sortNode (a b : Node) : less (sortNode a) (sortNode b) = less a b := by
  have hc : ∀ n : Node, countChildren (sortNode n) = countChildren n := by
    intro n
    rw [countChildren_eq, countChildren_eq, sortNode_eq]
    exact Reordered.count_eq _ _ (sort_reordered _)
  have hs : ∀ n : Node, (sortNode n).s = n.s := by
    intro n; rw [sortNode_eq]; rfl
  rw [less, less, hs, hs, hc, hc]

theorem insertNode_map_sortNode (a : Node) (l : List Node) :
    insertNode (sortNode a) (l.map sortNode) = (insertNode a l).map sortNode := by
  induction l with
  | nil => rfl
  | cons b l ih =>
    rw [List.map_cons, insertNode, insertNode, less_sortNode]
    split
    · rw [ih]; rfl
    · rfl

/-- Sorting the children first and the siblings afterwards, as `sort` is written here,
gives the list that the source computes by `sort.Slice` followed by the descent. -/
theorem sort_eq_map (t : List Node) : sort t = (sortSlice t).map sortNode := by
  induction t with
  | nil => rfl
  | cons n rest ih => rw [sort, sortSlice, ih, insertNode_map_sortNode]

/-! ## A handler-less node that matches the rest of the path -/

/-- When the rest of the request is exactly the segment of a literal node without
handler, the loop of `findChild` returns `nil, nil` at that node. -/
theorem findChild_exact_no_handler (t : List Node) (hready : lookupReady t = true)
    (m : Node) (hm : m ∈ t) (hh : m.handler = none) (hs : m.s ≠ [colon]) (acc : List Str) :
    findChild t m.s acc = some (none, []) := by
  induction t with
  | nil => simp at hm
  | cons n rest ih =>
    rw [findChild]
    rcases List.mem_cons.1 hm with he | hmr
    · subst he
      cases m with
      | mk s ps ch h fl =>
        simp only [Node.s, Node.handler] at hs hh ⊢
        rw [findChildAt_exact s ps ch h fl acc hs, if_pos hh]
    · have hq := (lookupReady_iff _).1 hready
      have hcomp := (compressed_iff _).1 hq.1
      cases n with
      | mk s ps ch h fl =>
        have hsn : s ≠ [colon] := by
          intro hc
          have h3 := hq.2.2
          simp only [paramLast, Bool.and_eq_true, Bool.or_eq_true, decide_eq_true_eq, Node.s,
            List.all_eq_true] at h3
          rcases h3.1 with h4 | h4
          · exact h4 hc
          · exact hs (h4 m hmr)
        have hpre : ¬ ∃ w, m.s = s ++ w := by
          rintro ⟨w, hw⟩
          apply (List.nodup_cons.1 hcomp.2).1
          rw [List.mem_map]
          refine ⟨m, hmr, ?_⟩
          have hsne : s ≠ [] := hcomp.1 _ (List.mem_cons_self _ _)
          rw [first, first, hw]
          cases s with
          | nil => exact absurd rfl hsne
          | cons a s => simp [Node.s]
        rw [findChildAt_other s ps ch h fl m.s acc hsn hpre]
        exact ih (lookupReady_tail hready) hmr

/-- On every tree that `sort` may leave of `newsTree`, the request `/user/new` finds
nothing. -/
theorem news_lookup_every_order (t2 : List Node) (hs : SortOutcome newsTree t2) :
    findChild t2 (str "/user/new") [] = some (none, []) := by
  have hready : everyLevel lookupReady t2 = true :=
    hs.makes_lookupReady (by decide) (by decide)
  obtain ⟨n2, ht2, hn2⟩ := (reordered_singleton _ t2).1 hs.1
  subst ht2
  rw [reorderedNode_iff] at hn2
  obtain ⟨e1, e2, e3, e4, e5⟩ := hn2
  cases n2 with
  | mk s ps ch h fl =>
    simp only [Node.s, Node.params, Node.handler, Node.firstLevel, Node.children] at *
    subst e1 e2 e3 e4
    obtain ⟨m, hm, hrm⟩ := e5.exists_of_mem_left (List.mem_cons_self _ _)
    rw [reorderedNode_iff] at hrm
    have hms : m.s = str "new" := hrm.1
    have hmh : m.handler = none := hrm.2.2.1
    have hchready : lookupReady ch = true := by
      rw [everyLevel_cons] at hready
      rw [everyLevel_iff] at hready
      exact hready.2.1.1
    have hfound := findChild_exact_no_handler ch hchready m hm hmh
      (by rw [hms]; decide) []
    rw [hms] at hfound
    have hlen : ch.length > 0 := List.length_pos_of_mem hm
    have hpath : str "/user/new" = str "/user/" ++ str "new" := by decide
    rw [hpath, findChild, findChildAt_longer (str "/user/") [] ch none true (str "new") []
      (by decide) (by decide) (by decide), hfound]
    simp [noHandler, hlen, findChild]

/-! ## The order left by `sort` -/

theorem countsDescend_of_ordered (l : List Node) (h : orderedLevel l = true) :
    countsDescend l = true := by
  induction l with
  | nil => rfl
  | cons a l ih =>
    rw [orderedLevel, Bool.and_eq_true] at h
    rw [countsDescend, Bool.and_eq_true]
    refine ⟨?_, ih h.2⟩
    by_cases ha : a.s = [colon]
    · simp [ha]
    · simp only [ha, decide_False, Bool.false_or, List.all_eq_true, Bool.or_eq_true,
        decide_eq_true_eq]
      intro m hm
      have := List.all_eq_true.1 h.1 m hm
      simp only [Bool.not_eq_true'] at this
      rw [less_eq] at this
      rcases this with h1 | h1
      · exact Or.inl h1
      · exact Or.inr h1.2

/-! ## Fallthrough after a failed literal branch -/

/-- A literal node that is a strict prefix of the path, whose children find nothing and
which is not eligible as a wildcard, is passed over. -/
theorem findChild_literal_falls_through (n : Node) (rest : List Node) (w : Str)
    (acc vs : List Str) (hc : n.s ≠ [colon]) (hne : n.s ≠ []) (hw : w ≠ [])
    (hchild : findChild n.children w acc = some (none, vs))
    (hwild : (decide (n.s.getLast? = some slash) &&
      !(n.firstLevel && (decide (n.s = [slash]) || decide (n.children.length > 0)))) = false) :
    findChild (n :: rest) (n.s ++ w) acc = findChild rest (n.s ++ w) acc := by
  cases n with
  | mk s ps ch h fl =>
    simp only [Node.s, Node.children, Node.firstLevel] at *
    rw [findChild, findChildAt_longer s ps ch h fl w acc hc hne hw, hchild]
    simp only [noHandler, if_true, hwild]
    simp

/-! ## Consequences of prefix compression -/

theorem filter_length_le_one_of_nodup {α β : Type} [DecidableEq β] (f : α → β) (v : β)
    (l : List α) (h : (l.map f).Nodup) : (l.filter (fun a => decide (f a = v))).length ≤ 1 := by
  induction l with
  | nil => simp
  | cons a l ih =>
    rw [List.map_cons, List.nodup_cons] at h
    rw [List.filter_cons]
    split
    · next hav =>
      have hav2 : f a = v := by simpa using hav
      have : l.filter (fun a => decide (f a = v)) = [] := by
        rw [List.filter_eq_nil_iff]
        intro b hb hbv
        have hbv2 : f b = v := by simpa using hbv
        exact h.1 (List.mem_map.2 ⟨b, hb, by rw [hbv2, hav2]⟩)
      rw [List.length_cons, this]
      simp
    · exact ih h.2

theorem atMostOneBegins_of_distinct (b : Nat) (l : List Node)
    (h : firstBytesDistinct l = true) : atMostOneBegins b l = true := by
  simp only [firstBytesDistinct, decide_eq_true_eq] at h
  simp only [atMostOneBegins, decide_eq_true_eq]
  exact filter_length_le_one_of_nodup first (some b) l h

theorem atMostOneParam_of_distinct (l : List Node)
    (h : firstBytesDistinct l = true) : atMostOneParam l = true := by
  have h1 := atMostOneBegins_of_distinct colon l h
  simp only [atMostOneBegins, decide_eq_true_eq] at h1
  simp only [atMostOneParam, decide_eq_true_eq]
  refine le_trans ?_ h1
  apply List.Sublist.length_le
  apply List.monotone_filter_right
  intro n hn
  have hn2 : n.s = [colon] := by simpa using hn
  simp [first, hn2]

theorem firstBytesDistinct_of_compressed (t : List Node)
    (h : everyLevel compressed t = true) : everyLevel firstBytesDistinct t = true :=
  everyLevel_mono (fun l hl => by
    rw [compressed, Bool.and_eq_true] at hl
    exact hl.2) t h

/-! ## Soundness of lookup -/

theorem Reaches.weaken {t t2 : List Node} {segs : List Str} {n : Node}
    (hsub : ∀ m ∈ t, m ∈ t2) (h : Reaches t segs n) : Reaches t2 segs n := by
  cases h with
  | top _ _ hn => exact Reaches.top t2 n (hsub n hn)
  | under _ m segs2 _ hm hr => exact Reaches.under t2 m segs2 n (hsub m hm) hr

theorem explains_param_end (path : Str) (n : Node) (hp : slash ∉ path) :
    Explains [[colon]] [path] path n := by
  refine ⟨Or.inl (by simp), ?_, by simp [fill], ?_⟩
  · intro v hv
    simp at hv
    rw [hv]; exact hp
  · intro h; simp at h

theorem explains_param_more {segs vs : List Str} {w v : Str} {n : Node}
    (h : Explains segs vs (slash :: w) n) (hv : slash ∉ v) :
    Explains ([colon] :: segs) (v :: vs) (v ++ slash :: w) n := by
  obtain ⟨h1, h2, h3, h4⟩ := h
  have hcount : List.count [colon] ([colon] :: segs) = segs.count [colon] + 1 := by simp
  refine ⟨?_, ?_, ?_, ?_⟩
  · rw [hcount, List.length_cons]; omega
  · rw [hcount, List.take_succ_cons]
    intro u hu
    rcases List.mem_cons.1 hu with he | hu2
    · rw [he]; exact hv
    · exact h2 u hu2
  · simp [fill, ← h3]
  · rw [hcount, List.length_cons]
    intro h5
    exact h4 (by omega)

theorem explains_exact (s : Str) (n : Node) (hs : s ≠ [colon]) : Explains [s] [] s n := by
  have hcount : List.count [colon] [s] = 0 := by
    rw [List.count_eq_zero]; simp [Ne.symm hs]
  refine ⟨Or.inl (by rw [hcount]; rfl), ?_, by simp [fill, hs], ?_⟩
  · intro v hv; simp at hv
  · intro h; simp [hcount] at h

theorem explains_literal {segs vs : List Str} {w s : Str} {n : Node}
    (h : Explains segs vs w n) (hs : s ≠ [colon]) :
    Explains (s :: segs) vs (s ++ w) n := by
  obtain ⟨h1, h2, h3, h4⟩ := h
  have hcount : List.count [colon] (s :: segs) = segs.count [colon] := by
    rw [List.count_cons]; simp [hs]
  refine ⟨by rw [hcount]; exact h1, by rw [hcount]; exact h2, ?_, by rw [hcount]; exact h4⟩
  simp [fill, hs, ← h3]

theorem explains_wildcard (s w : Str) (n : Node) (hs : s ≠ [colon])
    (hn : n.s.getLast? = some slash) : Explains [s] [w] (s ++ w) n := by
  have hcount : List.count [colon] [s] = 0 := by
    rw [List.count_eq_zero]; simp [Ne.symm hs]
  refine ⟨Or.inr (by rw [hcount]; rfl), ?_, by simp [fill, hs], fun _ => hn⟩
  intro v hv
  rw [hcount] at hv
  simp at hv

/-- What a node returned by `findChild` on `t` with the accumulator `acc` satisfies. -/
theorem findChild_sound (t : List Node) :
    everyLevel segsNonEmpty t = true → ∀ (path : Str) (acc : List Str) (n : Node)
      (vs : List Str), findChild t path acc = some (some n, vs) →
      ∃ vs2 segs, vs = acc ++ vs2 ∧ Reaches t segs n ∧ Explains segs vs2 path n := by
  induction t using tree_induction with
  | h t ih =>
    intro ht
    rw [everyLevel_iff] at ht
    obtain ⟨hq, hbelow⟩ := ht
    have ih2 := fun m hm => ih m hm (hbelow m hm)
    have hq2 : ∀ m ∈ t, m.s ≠ [] := by simpa [segsNonEmpty] using hq
    clear ih hq hbelow
    induction t with
    | nil =>
      intro path acc n vs h
      simp [findChild] at h
    | cons m rest ihl =>
      intro path acc n vs hfind
      have hrest := ihl (fun k hk => ih2 k (List.mem_cons_of_mem _ hk))
        (fun k hk => hq2 k (List.mem_cons_of_mem _ hk))
      have hch := ih2 m (List.mem_cons_self _ _)
      have hsne := hq2 m (List.mem_cons_self _ _)
      cases m with
      | mk s ps ch h fl =>
        simp only [Node.children, Node.s] at hch hsne
        rw [findChild] at hfind
        by_cases hc : s = [colon]
        · subst hc
          rcases indexByte_cases path slash with ⟨habs, -⟩ | ⟨v, w, hp, hv, -⟩
          · rw [findChildAt_param_end ps ch h fl path acc habs] at hfind
            cases h with
            | none => simp at hfind
            | some hh =>
              simp only [reduceCtorEq, if_false, Option.some.injEq, Prod.mk.injEq] at hfind
              obtain ⟨h1, h2⟩ := hfind
              subst h1 h2
              exact ⟨[path], [[colon]], rfl,
                Reaches.top _ (Node.mk [colon] ps ch (some hh) fl) (List.mem_cons_self _ _),
                explains_param_end path _ habs⟩
          · subst hp
            rw [findChildAt_param_more ps ch h fl v w acc hv] at hfind
            cases hr : findChild ch (slash :: w) (acc ++ [v]) with
            | none => rw [hr] at hfind; simp at hfind
            | some r =>
              rw [hr] at hfind
              simp only [Option.some.injEq] at hfind
              subst hfind
              obtain ⟨vs2, segs, e1, e2, e3⟩ := hch (slash :: w) (acc ++ [v]) n vs hr
              refine ⟨v :: vs2, [colon] :: segs, by rw [e1]; simp, ?_,
                explains_param_more e3 hv⟩
              exact Reaches.under _ (Node.mk [colon] ps ch h fl) segs n
                (List.mem_cons_self _ _) e2
        · by_cases hpre : ∃ w, path = s ++ w
          · obtain ⟨w, rfl⟩ := hpre
            by_cases hw : w = []
            · subst hw
              rw [List.append_nil] at hfind ⊢
              rw [findChildAt_exact s ps ch h fl acc hc] at hfind
              cases h with
              | none => simp at hfind
              | some hh =>
                simp only [reduceCtorEq, if_false, Option.some.injEq, Prod.mk.injEq] at hfind
                obtain ⟨h1, h2⟩ := hfind
                subst h1 h2
                exact ⟨[], [s], by simp,
                  Reaches.top _ (Node.mk s ps ch (some hh) fl) (List.mem_cons_self _ _),
                  explains_exact s _ hc⟩
            · rw [findChildAt_longer s ps ch h fl w acc hc hsne hw] at hfind
              cases hr : findChild ch w acc with
              | none => rw [hr] at hfind; simp at hfind
              | some r =>
                obtain ⟨child, params2⟩ := r
                rw [hr] at hfind
                simp only at hfind
                by_cases hno : noHandler child = true
                · rw [if_pos hno] at hfind
                  by_cases hwild : (decide (s.getLast? = some slash) &&
                      !(fl && (decide (s = [slash]) || decide (ch.length > 0)))) = true
                  · rw [if_pos hwild] at hfind
                    cases h with
                    | none => simp at hfind
                    | some hh =>
                      simp only [reduceCtorEq, if_false, Option.some.injEq,
                        Prod.mk.injEq] at hfind
                      obtain ⟨h1, h2⟩ := hfind
                      subst h1 h2
                      have hlast : s.getLast? = some slash := by
                        simp only [Bool.and_eq_true, decide_eq_true_eq] at hwild
                        exact hwild.1
                      exact ⟨[w], [s], rfl,
                        Reaches.top _ (Node.mk s ps ch (some hh) fl) (List.mem_cons_self _ _),
                        explains_wildcard s w _ hc hlast⟩
                  · rw [if_neg hwild] at hfind
                    obtain ⟨vs2, segs, e1, e2, e3⟩ := hrest (s ++ w) acc n vs hfind
                    exact ⟨vs2, segs, e1, e2.weaken (fun k hk => List.mem_cons_of_mem _ hk), e3⟩
                · rw [if_neg hno] at hfind
                  simp only [Option.some.injEq, Prod.mk.injEq] at hfind
                  obtain ⟨h1, h2⟩ := hfind
                  subst h1 h2
                  obtain ⟨vs2, segs, e1, e2, e3⟩ := hch w acc _ _ hr
                  exact ⟨vs2, s :: segs, e1,
                    Reaches.under _ (Node.mk s ps ch h fl) segs _ (List.mem_cons_self _ _) e2,
                    explains_literal e3 hc⟩
          · rw [findChildAt_other s ps ch h fl path acc hc hpre] at hfind
            obtain ⟨vs2, segs, e1, e2, e3⟩ := hrest path acc n vs hfind
            exact ⟨vs2, segs, e1, e2.weaken (fun k hk => List.mem_cons_of_mem _ hk), e3⟩

/-! ## Alike trees -/

theorem alikeEach_iff (t t2 : List Node) :
    AlikeEach t t2 ↔ ∀ n ∈ t, ∃ n2 ∈ t2, AlikeNode n n2 := by
  induction t with
  | nil => simp [AlikeEach]
  | cons n rest ih => rw [AlikeEach, ih]; simp

theorem alikeSome_iff (t : List Node) (n2 : Node) :
    AlikeSome t n2 ↔ ∃ n ∈ t, AlikeNode n n2 := by
  induction t with
  | nil => simp [AlikeSome]
  | cons n rest ih => rw [AlikeSome, ih]; simp

theorem alike_iff (t t2 : List Node) :
    Alike t t2 ↔ (∀ n ∈ t, ∃ n2 ∈ t2, AlikeNode n n2) ∧ (∀ n2 ∈ t2, ∃ n ∈ t, AlikeNode n n2) := by
  rw [Alike, alikeEach_iff]
  simp only [alikeSome_iff]

theorem alikeNode_iff (n n2 : Node) :
    AlikeNode n n2 ↔ n2.s = n.s ∧ n2.handler = n.handler ∧ n2.firstLevel = n.firstLevel ∧
      Alike n.children n2.children := by
  cases n with
  | mk s ps ch h fl =>
    rw [AlikeNode]
    simp only [Node.s, Node.handler, Node.firstLevel, Node.children, Alike]

theorem Alike.nil_iff {t t2 : List Node} (h : Alike t t2) : t = [] ↔ t2 = [] := by
  rw [alike_iff] at h
  constructor
  · intro ht
    subst ht
    cases t2 with
    | nil => rfl
    | cons n2 r =>
      obtain ⟨n, hn, -⟩ := h.2 n2 (List.mem_cons_self _ _)
      simp at hn
  · intro ht
    subst ht
    cases t with
    | nil => rfl
    | cons n r =>
      obtain ⟨n2, hn, -⟩ := h.1 n (List.mem_cons_self _ _)
      simp at hn

/-! ## Lookup on alike trees -/

theorem findChild_cons (n : Node) (rest : List Node) (path : Str) (acc : List Str) :
    findChild (n :: rest) path acc
      = andThen (findChildAt n path acc) (findChild rest path acc) := by
  rw [findChild]
  cases findChildAt n path acc with
  | none => rfl
  | some st =>
    cases st with
    | next => rfl
    | ret r => rfl

theorem noHandler_iff (c : Option Node) : noHandler c = true ↔ c.bind Node.handler = none := by
  cases c with
  | none => simp [noHandler]
  | some n => simp [noHandler]

theorem answer_eq_some {r r2 : Option Match} (h : answer r2 = answer r) :
    (r2 = none ∧ r = none) ∨ ∃ c2 v2 c v, r2 = some (c2, v2) ∧ r = some (c, v) ∧
      c2.bind Node.handler = c.bind Node.handler ∧ v2 = v := by
  cases r2 with
  | none =>
    cases r with
    | none => exact Or.inl ⟨rfl, rfl⟩
    | some m => simp [answer] at h
  | some m2 =>
    cases r with
    | none => simp [answer] at h
    | some m =>
      right
      simp only [answer, Option.map_some', Option.some.injEq, Prod.mk.injEq] at h
      exact ⟨m2.1, m2.2, m.1, m.2, rfl, rfl, h.1, h.2⟩

theorem answer_handler (h : Option Handler) (n n2 : Node) (vs : List Str)
    (k k2 : Option Match) (hn : n.handler = h) (hn2 : n2.handler = h) :
    answer (andThen (if h = none then some (LoopStep.ret (none, []))
        else some (LoopStep.ret (some n2, vs))) k2)
      = answer (andThen (if h = none then some (LoopStep.ret (none, []))
        else some (LoopStep.ret (some n, vs))) k) := by
  cases h with
  | none => rfl
  | some hh => simp [andThen, answer, hn, hn2]

/-- The body of `findChild` gives the same answer on two nodes that differ only in their
parameter names and in children that give the same answers. -/
theorem findChildAt_alike (s : Str) (ps ps2 : List Str) (ch ch2 : List Node)
    (h : Option Handler) (fl : Bool) (hs : s ≠ []) (hempty : ch = [] ↔ ch2 = [])
    (hch : ∀ path acc, answer (findChild ch2 path acc) = answer (findChild ch path acc))
    (path : Str) (acc : List Str) (k k2 : Option Match) (hk : answer k2 = answer k) :
    answer (andThen (findChildAt (Node.mk s ps2 ch2 h fl) path acc) k2)
      = answer (andThen (findChildAt (Node.mk s ps ch h fl) path acc) k) := by
  by_cases hc : s = [colon]
  · subst hc
    rcases indexByte_cases path slash with ⟨habs, -⟩ | ⟨v, w, hp, hv, -⟩
    · rw [findChildAt_param_end ps ch h fl path acc habs,
        findChildAt_param_end ps2 ch2 h fl path acc habs]
      exact answer_handler h (Node.mk [colon] ps ch h fl) (Node.mk [colon] ps2 ch2 h fl) _
        k k2 rfl rfl
    · subst hp
      rw [findChildAt_param_more ps ch h fl v w acc hv,
        findChildAt_param_more ps2 ch2 h fl v w acc hv]
      have hr := hch (slash :: w) (acc ++ [v])
      rcases answer_eq_some hr with ⟨e2, e1⟩ | ⟨c2, v2, c, v1, e2, e1, hc1, hv1⟩
      · rw [e1, e2]; rfl
      · rw [e1, e2]
        simp only [andThen, answer, Option.map_some', hc1, hv1]
  · by_cases hpre : ∃ w, path = s ++ w
    · obtain ⟨w, rfl⟩ := hpre
      by_cases hw : w = []
      · subst hw
        rw [List.append_nil, findChildAt_exact s ps ch h fl acc hc,
          findChildAt_exact s ps2 ch2 h fl acc hc]
        exact answer_handler h (Node.mk s ps ch h fl) (Node.mk s ps2 ch2 h fl) _ k k2
          rfl rfl
      · rw [findChildAt_longer s ps ch h fl w acc hc hs hw,
          findChildAt_longer s ps2 ch2 h fl w acc hc hs hw]
        have hlen : decide (ch2.length > 0) = decide (ch.length > 0) := by
          cases ch with
          | nil => rw [hempty.1 rfl]
          | cons a l =>
            cases ch2 with
            | nil => exact absurd (hempty.2 rfl) (by simp)
            | cons a2 l2 => simp
        have hr := hch w acc
        rcases answer_eq_some hr with ⟨e2, e1⟩ | ⟨c2, v2, c, v1, e2, e1, hc1, hv1⟩
        · rw [e1, e2]; rfl
        · rw [e1, e2]
          simp only [hlen]
          by_cases hno : noHandler c = true
          · have hno2 : noHandler c2 = true := by
              rw [noHandler_iff] at hno ⊢
              rw [hc1]; exact hno
            rw [if_pos hno, if_pos hno2]
            split
            · exact answer_handler h (Node.mk s ps ch h fl) (Node.mk s ps2 ch2 h fl) _ k k2
                rfl rfl
            · exact hk
          · have hno2 : ¬ noHandler c2 = true := by
              rw [noHandler_iff] at hno ⊢
              rw [hc1]; exact hno
            rw [if_neg hno, if_neg hno2]
            simp only [andThen, answer, Option.map_some', hc1, hv1]
    · rw [findChildAt_other s ps ch h fl path acc hc hpre,
        findChildAt_other s ps2 ch2 h fl path acc hc hpre]
      exact hk

theorem prefix_unique_head {m k : Node} {rest : List Node} {path : Str}
    (hcomp : compressed (m :: rest) = true) (hk : k ∈ rest)
    (hm : ∃ w, path = m.s ++ w) (hkp : ∃ w, path = k.s ++ w) : False := by
  rw [compressed_iff] at hcomp
  obtain ⟨w1, h1⟩ := hm
  obtain ⟨w2, h2⟩ := hkp
  have hms := hcomp.1 m (List.mem_cons_self _ _)
  have hks := hcomp.1 k (List.mem_cons_of_mem _ hk)
  apply (List.nodup_cons.1 hcomp.2).1
  rw [List.mem_map]
  refine ⟨k, hk, ?_⟩
  rw [first, first]
  cases hms2 : m.s with
  | nil => exact absurd hms2 hms
  | cons a l =>
    cases hks2 : k.s with
    | nil => exact absurd hks2 hks
    | cons b l2 =>
      rw [hms2] at h1
      rw [hks2, h1] at h2
      simp at h2
      simp [h2.1]

theorem paramLast_head {m : Node} {rest : List Node} (h : paramLast (m :: rest) = true)
    {k : Node} (hk : k ∈ rest) (hkc : k.s ≠ [colon]) : m.s ≠ [colon] := by
  intro hm
  simp only [paramLast, Bool.and_eq_true, Bool.or_eq_true, decide_eq_true_eq,
    List.all_eq_true] at h
  rcases h.1 with h1 | h1
  · exact h1 hm
  · exact hkc (h1 k hk)

theorem paramLast_tail {m : Node} {rest : List Node} (h : paramLast (m :: rest) = true) :
    paramLast rest = true := by
  simp only [paramLast, Bool.and_eq_true] at h
  exact h.2

theorem findChildAt_next_of_not_hit (m : Node) (path : Str) (acc : List Str)
    (hc : m.s ≠ [colon]) (hpre : ¬ ∃ w, path = m.s ++ w) :
    findChildAt m path acc = some LoopStep.next := by
  cases m with
  | mk s ps ch h fl => exact findChildAt_other s ps ch h fl path acc hc hpre

/-- Literal siblings that are no prefix of the path do not count. -/
theorem findChild_no_literal (l : List Node) (path : Str) (acc : List Str)
    (hno : ∀ n ∈ l, n.s ≠ [colon] → ¬ ∃ w, path = n.s ++ w) :
    findChild l path acc = findChild (l.filter isParam) path acc := by
  induction l with
  | nil => rfl
  | cons m rest ih =>
    have ih2 := ih (fun n hn => hno n (List.mem_cons_of_mem _ hn))
    by_cases hm : m.s = [colon]
    · have : isParam m = true := by simp [isParam, hm]
      rw [List.filter_cons_of_pos this, findChild_cons, findChild_cons, ih2]
    · have : ¬ isParam m = true := by simp [isParam, hm]
      rw [List.filter_cons_of_neg this, findChild_cons,
        findChildAt_next_of_not_hit m path acc hm (hno m (List.mem_cons_self _ _) hm)]
      exact ih2

/-- With prefix compression and parameter nodes last, the loop of `findChild` comes down
to the one literal sibling that is a prefix of the path, then the parameter node. -/
theorem findChild_literal_hit (l : List Node) (path : Str) (acc : List Str) (n : Node)
    (hcomp : compressed l = true) (hpl : paramLast l = true) (hn : n ∈ l)
    (hnc : n.s ≠ [colon]) (hpre : ∃ w, path = n.s ++ w) :
    findChild l path acc
      = andThen (findChildAt n path acc) (findChild (l.filter isParam) path acc) := by
  induction l with
  | nil => simp at hn
  | cons m rest ih =>
    rcases List.mem_cons.1 hn with he | hnr
    · subst he
      have : ¬ isParam n = true := by simp [isParam, hnc]
      rw [List.filter_cons_of_neg this, findChild_cons]
      congr 1
      apply findChild_no_literal
      intro k hk _ hkp
      exact prefix_unique_head hcomp hk hpre hkp
    · have hmc : m.s ≠ [colon] := paramLast_head hpl hnr hnc
      have : ¬ isParam m = true := by simp [isParam, hmc]
      have hmp : ¬ ∃ w, path = m.s ++ w := fun hmp => prefix_unique_head hcomp hnr hmp hpre
      rw [List.filter_cons_of_neg this, findChild_cons,
        findChildAt_next_of_not_hit m path acc hmc hmp]
      exact ih (compressed_tail hcomp) (paramLast_tail hpl) hnr

theorem filter_isParam_cases (l : List Node) (hcomp : compressed l = true) :
    l.filter isParam = [] ∨ ∃ p, l.filter isParam = [p] := by
  have h1 : firstBytesDistinct l = true := by
    rw [compressed, Bool.and_eq_true] at hcomp
    exact hcomp.2
  have h2 := atMostOneParam_of_distinct l h1
  simp only [atMostOneParam, decide_eq_true_eq] at h2
  have h3 : l.filter isParam = l.filter (fun n => decide (n.s = [colon])) := rfl
  rw [h3]
  cases hf : l.filter (fun n => decide (n.s = [colon])) with
  | nil => exact Or.inl rfl
  | cons p r =>
    right
    rw [hf] at h2
    cases r with
    | nil => exact ⟨p, rfl⟩
    | cons q r2 => simp at h2

theorem alikeNode_step (n n2 : Node) (ha : AlikeNode n n2) (hs : n.s ≠ [])
    (hch : ∀ path acc, answer (findChild n2.children path acc)
      = answer (findChild n.children path acc))
    (path : Str) (acc : List Str) (k k2 : Option Match) (hk : answer k2 = answer k) :
    answer (andThen (findChildAt n2 path acc) k2)
      = answer (andThen (findChildAt n path acc) k) := by
  rw [alikeNode_iff] at ha
  obtain ⟨e1, e2, e3, e4⟩ := ha
  cases n with
  | mk s ps ch h fl =>
    cases n2 with
    | mk s2 ps2 ch2 h2 fl2 =>
      simp only [Node.s, Node.handler, Node.firstLevel, Node.children] at *
      subst e1 e2 e3
      exact findChildAt_alike s2 ps ps2 ch ch2 h2 fl2 hs e4.nil_iff hch path acc k k2 hk

/-- Lookup gives the same answer on alike trees that are prefix-compressed and have their
parameter nodes last. -/
theorem findChild_alike (t : List Node) : ∀ t2, Alike t t2 →
    everyLevel compressed t = true → everyLevel paramLast t = true →
    everyLevel compressed t2 = true → everyLevel paramLast t2 = true →
    ∀ path acc, answer (findChild t2 path acc) = answer (findChild t path acc) := by
  induction t using tree_induction with
  | h t ih =>
    intro t2 hal hc hp hc2 hp2 path acc
    rw [everyLevel_iff] at hc hp hc2 hp2
    have hal2 := (alike_iff t t2).1 hal
    have hcq := (compressed_iff t).1 hc.1
    have hcq2 := (compressed_iff t2).1 hc2.1
    -- the step lemma for matching nodes
    have hstep : ∀ n ∈ t, ∀ n2 ∈ t2, AlikeNode n n2 → ∀ (k k2 : Option Match),
        answer k2 = answer k →
        answer (andThen (findChildAt n2 path acc) k2)
          = answer (andThen (findChildAt n path acc) k) := by
      intro n hn n2 hn2 ha k k2 hk
      refine alikeNode_step n n2 ha (hcq.1 n hn) ?_ path acc k k2 hk
      exact ih n hn n2.children ((alikeNode_iff n n2).1 ha).2.2.2 (hc.2 n hn) (hp.2 n hn)
        (hc2.2 n2 hn2) (hp2.2 n2 hn2)
    -- the parameter nodes give the same answer
    have hparam : answer (findChild (t2.filter isParam) path acc)
        = answer (findChild (t.filter isParam) path acc) := by
      rcases filter_isParam_cases t hc.1 with hf | ⟨p, hf⟩
      · rcases filter_isParam_cases t2 hc2.1 with hf2 | ⟨p2, hf2⟩
        · rw [hf, hf2]
        · exfalso
          have hp2m : p2 ∈ t2.filter isParam := by rw [hf2]; exact List.mem_singleton_self _
          rw [List.mem_filter] at hp2m
          obtain ⟨n, hn, ha⟩ := hal2.2 p2 hp2m.1
          have hns : isParam n = true := by
            have := ((alikeNode_iff n p2).1 ha).1
            simp only [isParam, decide_eq_true_eq] at hp2m ⊢
            rw [← this]; exact hp2m.2
          have : n ∈ t.filter isParam := List.mem_filter.2 ⟨hn, hns⟩
          rw [hf] at this
          simp at this
      · have hpm : p ∈ t.filter isParam := by rw [hf]; exact List.mem_singleton_self _
        rw [List.mem_filter] at hpm
        obtain ⟨n2, hn2, ha⟩ := hal2.1 p hpm.1
        have hns : isParam n2 = true := by
          have := ((alikeNode_iff p n2).1 ha).1
          simp only [isParam, decide_eq_true_eq] at hpm ⊢
          rw [this]; exact hpm.2
        have hmem : n2 ∈ t2.filter isParam := List.mem_filter.2 ⟨hn2, hns⟩
        rcases filter_isParam_cases t2 hc2.1 with hf2 | ⟨p2, hf2⟩
        · rw [hf2] at hmem; simp at hmem
        · rw [hf2] at hmem
          simp only [List.mem_singleton] at hmem
          subst hmem
          rw [hf, hf2, findChild_cons, findChild_cons]
          exact hstep p hpm.1 n2 hn2 ha _ _ rfl
    by_cases hhit : ∃ n ∈ t, n.s ≠ [colon] ∧ ∃ w, path = n.s ++ w
    · obtain ⟨n, hn, hnc, hpre⟩ := hhit
      obtain ⟨n2, hn2, ha⟩ := hal2.1 n hn
      have hs2 : n2.s = n.s := ((alikeNode_iff n n2).1 ha).1
      rw [findChild_literal_hit t path acc n hc.1 hp.1 hn hnc hpre,
        findChild_literal_hit t2 path acc n2 hc2.1 hp2.1 hn2 (by rw [hs2]; exact hnc)
          (by rw [hs2]; exact hpre)]
      exact hstep n hn n2 hn2 ha _ _ hparam
    · have hno : ∀ n ∈ t, n.s ≠ [colon] → ¬ ∃ w, path = n.s ++ w :=
        fun n hn hnc hpre => hhit ⟨n, hn, hnc, hpre⟩
      have hno2 : ∀ n2 ∈ t2, n2.s ≠ [colon] → ¬ ∃ w, path = n2.s ++ w := by
        intro n2 hn2 hnc hpre
        obtain ⟨n, hn, ha⟩ := hal2.2 n2 hn2
        have hs2 : n2.s = n.s := ((alikeNode_iff n n2).1 ha).1
        exact hno n hn (by rw [← hs2]; exact hnc) (by rw [← hs2]; exact hpre)
      rw [findChild_no_literal t path acc hno, findChild_no_literal t2 path acc hno2]
      exact hparam

/-- A reordered tree is alike the tree it was made from. -/
theorem Reordered.alike (t : List Node) : ∀ t2, Reordered t t2 → Alike t t2 := by
  induction t using tree_induction with
  | h t ih =>
    intro t2 hr
    rw [alike_iff]
    constructor
    · intro n hn
      obtain ⟨n2, hn2, hrn⟩ := hr.exists_of_mem_left hn
      rw [reorderedNode_iff] at hrn
      refine ⟨n2, hn2, ?_⟩
      rw [alikeNode_iff]
      exact ⟨hrn.1, hrn.2.2.1, hrn.2.2.2.1, ih n hn _ hrn.2.2.2.2⟩
    · intro n2 hn2
      obtain ⟨n, hn, hrn⟩ := hr.exists_of_mem hn2
      rw [reorderedNode_iff] at hrn
      refine ⟨n, hn, ?_⟩
      rw [alikeNode_iff]
      exact ⟨hrn.1, hrn.2.2.1, hrn.2.2.2.1, ih n hn _ hrn.2.2.2.2⟩

theorem Alike.symm (t : List Node) : ∀ t2, Alike t t2 → Alike t2 t := by
  induction t using tree_induction with
  | h t ih =>
    intro t2 ha
    rw [alike_iff] at ha ⊢
    constructor
    · intro n2 hn2
      obtain ⟨n, hn, hrn⟩ := ha.2 n2 hn2
      rw [alikeNode_iff] at hrn
      refine ⟨n, hn, ?_⟩
      rw [alikeNode_iff]
      exact ⟨hrn.1.symm, hrn.2.1.symm, hrn.2.2.1.symm, ih n hn _ hrn.2.2.2⟩
    · intro n hn
      obtain ⟨n2, hn2, hrn⟩ := ha.1 n hn
      rw [alikeNode_iff] at hrn
      refine ⟨n2, hn2, ?_⟩
      rw [alikeNode_iff]
      exact ⟨hrn.1.symm, hrn.2.1.symm, hrn.2.2.1.symm, ih n hn _ hrn.2.2.2⟩

theorem Alike.trans (t : List Node) : ∀ t2 t3, Alike t t2 → Alike t2 t3 → Alike t t3 := by
  induction t using tree_induction with
  | h t ih =>
    intro t2 t3 ha hb
    rw [alike_iff] at ha hb ⊢
    constructor
    · intro n hn
      obtain ⟨n2, hn2, h12⟩ := ha.1 n hn
      obtain ⟨n3, hn3, h23⟩ := hb.1 n2 hn2
      rw [alikeNode_iff] at h12 h23
      refine ⟨n3, hn3, ?_⟩
      rw [alikeNode_iff]
      exact ⟨h23.1.trans h12.1, h23.2.1.trans h12.2.1, h23.2.2.1.trans h12.2.2.1,
        ih n hn _ _ h12.2.2.2 h23.2.2.2⟩
    · intro n3 hn3
      obtain ⟨n2, hn2, h23⟩ := hb.2 n3 hn3
      obtain ⟨n, hn, h12⟩ := ha.2 n2 hn2
      rw [alikeNode_iff] at h12 h23
      refine ⟨n, hn, ?_⟩
      rw [alikeNode_iff]
      exact ⟨h23.1.trans h12.1, h23.2.1.trans h12.2.1, h23.2.2.1.trans h12.2.2.1,
        ih n hn _ _ h12.2.2.2 h23.2.2.2⟩

/-! ## The flag `firstLevel` -/

theorem flagged_false (t : List Node) : Flagged false t = everyLevel unflagged t := rfl

theorem flagged_iff (fl : Bool) (t : List Node) :
    Flagged fl t = true ↔
      (∀ n ∈ t, n.firstLevel = fl) ∧ ∀ n ∈ t, Flagged false n.children = true := by
  simp only [flagged_false]
  rw [Flagged, Bool.and_eq_true, below_iff]
  simp

theorem flagged_cons (fl : Bool) (s : Str) (ps : List Str) (ch : List Node)
    (h : Option Handler) (fl0 : Bool) (rest : List Node) :
    Flagged fl (Node.mk s ps ch h fl0 :: rest) = true ↔
      fl0 = fl ∧ Flagged false ch = true ∧ Flagged fl rest = true := by
  rw [flagged_iff, flagged_iff fl rest]
  simp only [List.mem_cons, forall_eq_or_imp, Node.firstLevel, Node.children]
  tauto

theorem InsOk.keeps_flagged {ps : List Str} {hd : Option Handler} {p : Str} {fl : Bool}
    {t t2 : List Node} (h : InsOk ps hd p fl t t2) (hf : Flagged fl t = true) :
    Flagged fl t2 = true := by
  induction h with
  | leaf p fl => rw [flagged_cons]; exact ⟨rfl, rfl, rfl⟩
  | skip p fl n rest rest2 _ _ ih =>
    cases n with
    | mk s ps0 ch h0 fl0 =>
      rw [flagged_cons] at hf ⊢
      exact ⟨hf.1, hf.2.1, ih hf.2.2⟩
  | midSplit fl c x s2 y p2 ps0 ch h0 fl0 rest _ _ =>
    rw [flagged_cons] at hf ⊢
    refine ⟨hf.1, ?_, hf.2.2⟩
    rw [flagged_cons, flagged_cons]
    exact ⟨rfl, hf.2.1, rfl, rfl, rfl⟩
  | headSplit p fl x s2 ps0 ch h0 fl0 rest =>
    rw [flagged_cons] at hf ⊢
    refine ⟨hf.1, ?_, hf.2.2⟩
    rw [flagged_cons]
    exact ⟨rfl, hf.2.1, rfl⟩
  | descend fl s y p2 ps0 ch ch2 h0 fl0 rest _ ih =>
    rw [flagged_cons] at hf ⊢
    exact ⟨hf.1, ih hf.2.1, hf.2.2⟩
  | keep p fl ps0 ch h0 fl0 rest _ => exact hf
  | setHandler p fl ps0 ch fl0 rest _ =>
    rw [flagged_cons] at hf ⊢
    exact hf

theorem runCalls_flagged {cs : List Call} {t0 t : List Node}
    (hcs : ∀ c ∈ cs, c.firstLevel = true) (h0 : Flagged true t0 = true)
    (hrun : runCalls cs t0 = some t) : Flagged true t = true := by
  induction cs generalizing t0 with
  | nil => simp [runCalls] at hrun; rw [← hrun]; exact h0
  | cons c cs ih =>
    rw [runCalls] at hrun
    cases hmk : makeChild t0 c.path c.params c.handler c.firstLevel with
    | ok t1 =>
      rw [hmk] at hrun
      have hins := makeChild_ok_ins hmk
      rw [hcs c (List.mem_cons_self _ _)] at hins
      exact ih (fun d hd => hcs d (List.mem_cons_of_mem _ hd)) (hins.keeps_flagged h0) hrun
    | panicked t1 => rw [hmk] at hrun; simp at hrun

/-! ## Node boundaries and their prefixes -/

theorem boundary_nil (x : Str) : Boundary [] x ↔ x = [] :=
  ⟨Boundary.of_nil, fun h => h ▸ Boundary.root []⟩

theorem boundary_cons (n : Node) (rest : List Node) (x : Str) :
    Boundary (n :: rest) x ↔
      (∃ y, x = n.s ++ y ∧ Boundary n.children y) ∨ Boundary rest x := by
  constructor
  · intro h
    cases h with
    | root => exact Or.inr (Boundary.root rest)
    | step _ m y hm hb =>
      rcases List.mem_cons.1 hm with he | hmr
      · subst he; exact Or.inl ⟨y, rfl, hb⟩
      · exact Or.inr (Boundary.step rest m y hmr hb)
  · rintro (⟨y, rfl, hb⟩ | h)
    · exact Boundary.step _ n y (List.mem_cons_self _ _) hb
    · exact h.mono (fun m hm => List.mem_cons_of_mem _ hm)

theorem isPre_empty (t : List Node) : IsPre t [] := ⟨[], Boundary.root t⟩

theorem isPre_of_boundary {t : List Node} {x : Str} (h : Boundary t x) : IsPre t x :=
  ⟨[], by rw [List.append_nil]; exact h⟩

theorem isPre_closed {t : List Node} {a b : Str} (h : IsPre t (a ++ b)) : IsPre t a := by
  obtain ⟨y, hy⟩ := h
  exact ⟨b ++ y, by rw [← List.append_assoc]; exact hy⟩

theorem isPre_of_prefix {t : List Node} {a b : Str} (hab : a <+: b) (h : IsPre t b) :
    IsPre t a := by
  obtain ⟨c, rfl⟩ := hab
  exact isPre_closed h

theorem isPre_nil (x : Str) : IsPre [] x ↔ x = [] := by
  constructor
  · rintro ⟨y, hy⟩
    have := hy.of_nil
    exact (List.append_eq_nil.1 this).1
  · rintro rfl; exact isPre_empty []

theorem isPre_cons (n : Node) (rest : List Node) (x : Str) :
    IsPre (n :: rest) x ↔
      x <+: n.s ∨ (∃ e, x = n.s ++ e ∧ IsPre n.children e) ∨ IsPre rest x := by
  constructor
  · rintro ⟨y, hy⟩
    rw [boundary_cons] at hy
    rcases hy with ⟨z, hz, hb⟩ | hr
    · rcases List.append_eq_append_iff.1 hz with ⟨a, ha, -⟩ | ⟨c, hc, hzc⟩
      · exact Or.inl ⟨a, ha.symm⟩
      · exact Or.inr (Or.inl ⟨c, hc, ⟨y, by rw [← hzc]; exact hb⟩⟩)
    · exact Or.inr (Or.inr ⟨y, hr⟩)
  · rintro (⟨a, ha⟩ | ⟨e, rfl, y, hy⟩ | ⟨y, hy⟩)
    · refine ⟨a, ?_⟩
      rw [ha, boundary_cons]
      exact Or.inl ⟨[], by simp, Boundary.root _⟩
    · refine ⟨y, ?_⟩
      rw [boundary_cons]
      exact Or.inl ⟨e ++ y, by simp, hy⟩
    · exact ⟨y, (boundary_cons n rest _).2 (Or.inr hy)⟩

theorem boundary_iff (t : List Node) (x : Str) :
    Boundary t x ↔ x = [] ∨ ∃ m ∈ t, ∃ z, x = m.s ++ z ∧ Boundary m.children z := by
  constructor
  · intro h
    cases h with
    | root => exact Or.inl rfl
    | step _ m z hm hb => exact Or.inr ⟨m, hm, z, rfl, hb⟩
  · rintro (rfl | ⟨m, hm, z, rfl, hb⟩)
    · exact Boundary.root t
    · exact Boundary.step t m z hm hb

theorem isPre_rest_head {n : Node} {rest : List Node} {d : Str}
    (hq : compressed (n :: rest) = true) (hd : d ≠ []) (hh : d.head? = n.s.head?) :
    ¬ IsPre rest d := by
  rintro ⟨y, hy⟩
  rw [compressed_iff] at hq
  rw [boundary_iff] at hy
  rcases hy with heq | ⟨m, hm, z, heq, -⟩
  · exact hd (List.append_eq_nil.1 heq).1
  · apply (List.nodup_cons.1 hq.2).1
    rw [List.mem_map]
    refine ⟨m, hm, ?_⟩
    have hms := hq.1 m (List.mem_cons_of_mem _ hm)
    rw [first, first, ← hh]
    cases hm2 : m.s with
    | nil => exact absurd hm2 hms
    | cons a l =>
      cases d with
      | nil => exact absurd rfl hd
      | cons b d2 =>
        rw [hm2] at heq
        simp at heq
        simp [heq.1]

theorem isPre_skip {n : Node} {rest : List Node} {d p : Str} (hsk : Skips n.s p)
    (hd : d <+: p) : IsPre (n :: rest) d ↔ IsPre rest d := by
  obtain ⟨a, s2, b, p2, hs, hp, hab⟩ := hsk
  rw [isPre_cons]
  constructor
  · rintro (h1 | ⟨e, he, -⟩ | h3)
    · cases d with
      | nil => exact isPre_empty rest
      | cons c d2 =>
        exfalso
        rw [hs, List.cons_prefix_cons] at h1
        rw [hp, List.cons_prefix_cons] at hd
        exact hab (h1.1.symm.trans hd.1)
    · exfalso
      rw [he, hs, hp] at hd
      simp only [List.cons_append, List.cons_prefix_cons] at hd
      exact hab hd.1
    · exact h3
  · exact fun h => Or.inr (Or.inr h)

/-! ## The longest prefix with a property -/

theorem longest_congr {S S2 : Str → Prop} {p : Str} (h : ∀ d, d <+: p → (S d ↔ S2 d))
    (x : Str) : Longest S p x ↔ Longest S2 p x := by
  constructor
  · rintro ⟨h1, h2, h3⟩
    exact ⟨h1, (h x h1).1 h2, fun d hd hs => h3 d hd ((h d hd).2 hs)⟩
  · rintro ⟨h1, h2, h3⟩
    exact ⟨h1, (h x h1).2 h2, fun d hd hs => h3 d hd ((h d hd).1 hs)⟩

theorem longest_unique {S : Str → Prop} {p x y : Str} (hx : Longest S p x)
    (hy : Longest S p y) : x = y := by
  have h1 := hy.2.2 x hx.1 hx.2.1
  have h2 := hx.2.2 y hy.1 hy.2.1
  exact (List.prefix_of_prefix_length_le hx.1 hy.1 h1).eq_of_length (le_antisymm h1 h2)

theorem longest_iff_eq {S : Str → Prop} {p c : Str} (hc : Longest S p c) (x : Str) :
    Longest S p x ↔ x = c :=
  ⟨fun hx => longest_unique hx hc, fun h => h ▸ hc⟩

theorem longest_self {S : Str → Prop} {p : Str} (hp : S p) (x : Str) :
    Longest S p x ↔ x = p :=
  longest_iff_eq ⟨List.prefix_refl p, hp, fun _ hd _ => hd.length_le⟩ x

theorem longest_nil (p x : Str) : Longest (IsPre []) p x ↔ x = [] :=
  longest_iff_eq ⟨List.nil_prefix, isPre_empty [], fun d _ hd => by
    rw [(isPre_nil d).1 hd]⟩ x

theorem head_append_of_ne {c : Str} (hc : c ≠ []) (e : Str) : (c ++ e).head? = c.head? := by
  cases c with
  | nil => exact absurd rfl hc
  | cons a c => rfl

/-- Where `makeChild` splits a node in the middle, the part in common is the longest
prefix of the path that is a prefix of a node boundary. -/
theorem longest_midSplit (c : Str) (x : Nat) (s2 : Str) (y : Nat) (p2 : Str)
    (ps0 : List Str) (ch : List Node) (h0 : Option Handler) (fl0 : Bool) (rest : List Node)
    (hq : compressed (Node.mk (c ++ x :: s2) ps0 ch h0 fl0 :: rest) = true)
    (hc : c ≠ []) (hxy : x ≠ y) (z : Str) :
    Longest (IsPre (Node.mk (c ++ x :: s2) ps0 ch h0 fl0 :: rest)) (c ++ y :: p2) z
      ↔ z = c := by
  apply longest_iff_eq
  refine ⟨List.prefix_append _ _, ?_, ?_⟩
  · rw [isPre_cons]
    exact Or.inl (List.prefix_append _ _)
  · intro d hd hpre
    by_contra hlen
    push_neg at hlen
    have hcd : c <+: d := List.prefix_of_prefix_length_le (List.prefix_append _ _) hd hlen.le
    obtain ⟨e, rfl⟩ := hcd
    rw [List.prefix_append_right_inj] at hd
    cases e with
    | nil => simp at hlen
    | cons b e =>
      rw [List.cons_prefix_cons] at hd
      obtain ⟨rfl, -⟩ := hd
      rw [isPre_cons] at hpre
      simp only [Node.s, Node.children] at hpre
      rcases hpre with h1 | ⟨e2, he2, -⟩ | h3
      · rw [List.prefix_append_right_inj, List.cons_prefix_cons] at h1
        exact hxy h1.1.symm
      · rw [List.append_assoc, List.append_cancel_left_eq, List.cons_append] at he2
        exact hxy (List.cons.inj he2).1.symm
      · refine isPre_rest_head hq ?_ ?_ h3
        · simp
        · simp only [Node.s]
          rw [head_append_of_ne hc, head_append_of_ne hc]

/-- Where `makeChild` goes down into a node, the longest prefix of the path that is a
prefix of a node boundary is found below that node. -/
theorem longest_descend (s : Str) (y : Nat) (p2 : Str)
    (ps0 : List Str) (ch : List Node) (h0 : Option Handler) (fl0 : Bool) (rest : List Node)
    (hq : compressed (Node.mk s ps0 ch h0 fl0 :: rest) = true) (x : Str) :
    Longest (IsPre (Node.mk s ps0 ch h0 fl0 :: rest)) (s ++ y :: p2) x
      ↔ ∃ z, x = s ++ z ∧ Longest (IsPre ch) (y :: p2) z := by
  have hs : s ≠ [] := ((compressed_iff _).1 hq).1 _ (List.mem_cons_self _ _)
  have hrest : ∀ d, d ≠ [] → d <+: s ++ y :: p2 → ¬ IsPre rest d := by
    intro d hd hdp
    refine isPre_rest_head hq hd ?_
    simp only [Node.s]
    obtain ⟨e, he⟩ := hdp
    have := congrArg List.head? he
    rw [head_append_of_ne hd, head_append_of_ne hs] at this
    exact this
  constructor
  · rintro ⟨h1, h2, h3⟩
    have hsx : s <+: x := by
      refine List.prefix_of_prefix_length_le (List.prefix_append _ _) h1 ?_
      refine h3 s (List.prefix_append _ _) ?_
      rw [isPre_cons]
      exact Or.inl (List.prefix_refl _)
    obtain ⟨z, rfl⟩ := hsx
    refine ⟨z, rfl, ?_⟩
    rw [List.prefix_append_right_inj] at h1
    refine ⟨h1, ?_, ?_⟩
    · rw [isPre_cons] at h2
      simp only [Node.s, Node.children] at h2
      rcases h2 with h2 | ⟨e, he, hpre⟩ | h2
      · have := h2.length_le
        simp only [List.length_append] at this
        have hz : z = [] := List.length_eq_zero.1 (by omega)
        rw [hz]; exact isPre_empty ch
      · rw [List.append_cancel_left_eq] at he
        rw [he]; exact hpre
      · exfalso
        refine hrest (s ++ z) ?_ ?_ h2
        · simp [hs]
        · rw [List.prefix_append_right_inj]; exact h1
    · intro d hd hpre
      have := h3 (s ++ d) (by rw [List.prefix_append_right_inj]; exact hd) (by
        rw [isPre_cons]
        exact Or.inr (Or.inl ⟨d, rfl, hpre⟩))
      simp only [List.length_append] at this
      omega
  · rintro ⟨z, rfl, h1, h2, h3⟩
    refine ⟨by rw [List.prefix_append_right_inj]; exact h1, ?_, ?_⟩
    · rw [isPre_cons]
      exact Or.inr (Or.inl ⟨z, rfl, h2⟩)
    · intro d hd hpre
      rw [isPre_cons] at hpre
      simp only [Node.s, Node.children] at hpre
      rcases hpre with h4 | ⟨e, rfl, hpre⟩ | h4
      · have := h4.length_le
        simp only [List.length_append]
        omega
      · rw [List.prefix_append_right_inj] at hd
        have := h3 e hd hpre
        simp only [List.length_append]
        omega
      · by_cases hdn : d = []
        · rw [hdn]; simp
        · exact absurd h4 (hrest d hdn hd)

/-- The node boundaries after a successful `makeChild`: those before, the path, and the
longest prefix of the path that was a prefix of a node boundary. -/
theorem InsOk.boundaries_after {ps : List Str} {hd : Option Handler} {p : Str} {fl : Bool}
    {t t2 : List Node} (hins : InsOk ps hd p fl t t2) (hp : p ≠ [])
    (hc : everyLevel compressed t = true) (x : Str) :
    Boundary t2 x ↔ Boundary t x ∨ x = p ∨ Longest (IsPre t) p x := by
  induction hins generalizing x with
  | leaf p fl =>
    rw [boundary_cons, longest_nil, boundary_nil]
    simp only [Node.s, Node.children, boundary_nil]
    constructor
    · rintro (⟨y, rfl, rfl⟩ | h)
      · right; left; simp
      · exact Or.inl h
    · rintro (h | h | h)
      · exact Or.inr h
      · exact Or.inl ⟨[], by simp [h], rfl⟩
      · exact Or.inr h
  | skip p fl n rest rest2 hsk _ ih =>
    have hrest : everyLevel compressed rest = true := everyLevel_tail compressed_tail hc
    rw [boundary_cons, boundary_cons, ih hp hrest,
      longest_congr (fun d hd => isPre_skip hsk hd)]
    constructor
    · rintro (h | h | h | h)
      · exact Or.inl (Or.inl h)
      · exact Or.inl (Or.inr h)
      · exact Or.inr (Or.inl h)
      · exact Or.inr (Or.inr h)
    · rintro ((h | h) | h | h)
      · exact Or.inl h
      · exact Or.inr (Or.inl h)
      · exact Or.inr (Or.inr (Or.inl h))
      · exact Or.inr (Or.inr (Or.inr h))
  | midSplit fl c x1 s2 y p2 ps0 ch h0 fl0 rest hcne hxy =>
    rw [everyLevel_iff] at hc
    rw [longest_midSplit c x1 s2 y p2 ps0 ch h0 fl0 rest hc.1 hcne hxy, boundary_cons,
      boundary_cons]
    simp only [Node.s, Node.children, boundary_cons, boundary_nil]
    constructor
    · rintro (⟨v, rfl, ⟨u, rfl, hu⟩ | ⟨u, rfl, rfl⟩ | rfl⟩ | h)
      · exact Or.inl (Or.inl ⟨u, by simp, hu⟩)
      · right; left; simp
      · right; right; simp
      · exact Or.inl (Or.inr h)
    · rintro ((⟨u, rfl, hu⟩ | h) | rfl | rfl)
      · exact Or.inl ⟨x1 :: s2 ++ u, by simp, Or.inl ⟨u, rfl, hu⟩⟩
      · exact Or.inr h
      · exact Or.inl ⟨y :: p2, rfl, Or.inr (Or.inl ⟨[], by simp, rfl⟩)⟩
      · exact Or.inl ⟨[], by simp, Or.inr (Or.inr rfl)⟩
  | headSplit p fl x1 s2 ps0 ch h0 fl0 rest =>
    have hpre : IsPre (Node.mk (p ++ x1 :: s2) ps0 ch h0 fl0 :: rest) p := by
      rw [isPre_cons]; exact Or.inl (List.prefix_append _ _)
    rw [longest_self hpre, boundary_cons, boundary_cons]
    simp only [Node.s, Node.children, boundary_cons, boundary_nil]
    constructor
    · rintro (⟨v, rfl, ⟨u, rfl, hu⟩ | rfl⟩ | h)
      · exact Or.inl (Or.inl ⟨u, by simp, hu⟩)
      · right; left; simp
      · exact Or.inl (Or.inr h)
    · rintro ((⟨u, rfl, hu⟩ | h) | rfl | rfl)
      · exact Or.inl ⟨x1 :: s2 ++ u, by simp, Or.inl ⟨u, rfl, hu⟩⟩
      · exact Or.inr h
      · exact Or.inl ⟨[], by simp, Or.inr rfl⟩
      · exact Or.inl ⟨[], by simp, Or.inr rfl⟩
  | descend fl s y p2 ps0 ch ch2 h0 fl0 rest _ ih =>
    rw [everyLevel_cons] at hc
    rw [longest_descend s y p2 ps0 ch h0 fl0 rest hc.1, boundary_cons, boundary_cons]
    simp only [Node.s, Node.children]
    have ih2 := fun z => ih (List.cons_ne_nil _ _) hc.2.1 z
    constructor
    · rintro (⟨z, rfl, hz⟩ | h)
      · rcases (ih2 z).1 hz with h1 | h1 | h1
        · exact Or.inl (Or.inl ⟨z, rfl, h1⟩)
        · right; left; rw [h1]
        · exact Or.inr (Or.inr ⟨z, rfl, h1⟩)
      · exact Or.inl (Or.inr h)
    · rintro ((⟨z, rfl, hz⟩ | h) | rfl | ⟨z, rfl, hz⟩)
      · exact Or.inl ⟨z, rfl, (ih2 z).2 (Or.inl hz)⟩
      · exact Or.inr h
      · exact Or.inl ⟨y :: p2, rfl, (ih2 _).2 (Or.inr (Or.inl rfl))⟩
      · exact Or.inl ⟨z, rfl, (ih2 z).2 (Or.inr (Or.inr hz))⟩
  | keep p fl ps0 ch h0 fl0 rest _ =>
    have hb : Boundary (Node.mk p ps0 ch h0 fl0 :: rest) p := by
      rw [boundary_cons]; exact Or.inl ⟨[], by simp [Node.s], Boundary.root _⟩
    rw [longest_self (isPre_of_boundary hb)]
    constructor
    · exact fun h => Or.inl h
    · rintro (h | rfl | rfl)
      · exact h
      · exact hb
      · exact hb
  | setHandler p fl ps0 ch fl0 rest _ =>
    have hb : Boundary (Node.mk p ps0 ch none fl0 :: rest) p := by
      rw [boundary_cons]; exact Or.inl ⟨[], by simp [Node.s], Boundary.root _⟩
    have hsame : ∀ w, Boundary (Node.mk p ps ch hd fl0 :: rest) w ↔
        Boundary (Node.mk p ps0 ch none fl0 :: rest) w := by
      intro w
      rw [boundary_cons, boundary_cons]
      exact Iff.rfl
    rw [longest_self (isPre_of_boundary hb), hsame]
    constructor
    · exact fun h => Or.inl h
    · rintro (h | rfl | rfl)
      · exact h
      · exact hb
      · exact hb

theorem InsOk.isPre_iff {ps : List Str} {hd : Option Handler} {p : Str} {fl : Bool}
    {t t2 : List Node} (hins : InsOk ps hd p fl t t2) (hp : p ≠ [])
    (hc : everyLevel compressed t = true) (d : Str) :
    IsPre t2 d ↔ IsPre t d ∨ d <+: p := by
  constructor
  · rintro ⟨y, hy⟩
    rcases (hins.boundaries_after hp hc _).1 hy with h | h | h
    · exact Or.inl ⟨y, h⟩
    · exact Or.inr ⟨y, h⟩
    · exact Or.inr ((List.prefix_append _ _).trans h.1)
  · rintro (⟨y, hy⟩ | ⟨y, hy⟩)
    · exact ⟨y, (hins.boundaries_after hp hc _).2 (Or.inl hy)⟩
    · exact ⟨y, (hins.boundaries_after hp hc _).2 (Or.inr (Or.inl hy))⟩

/-- Exchanging two paths: the longest prefixes met by registering `p` then `q` are met by
registering `q` then `p`, for a property `S` closed under prefixes. -/
theorem longest_swap (S : Str → Prop) (hcl : ∀ a b, a <+: b → S b → S a) (p q x : Str) :
    (Longest S p x → Longest S q x ∨ Longest (fun d => S d ∨ d <+: q) p x) ∧
    (Longest (fun d => S d ∨ d <+: p) q x →
      Longest S q x ∨ Longest (fun d => S d ∨ d <+: q) p x) := by
  constructor
  · rintro ⟨h1, h2, h3⟩
    by_cases hex : ∃ d, d <+: p ∧ d <+: q ∧ x.length < d.length
    · obtain ⟨d, hdp, hdq, hlen⟩ := hex
      have hxd : x <+: d := List.prefix_of_prefix_length_le h1 hdp hlen.le
      left
      refine ⟨hxd.trans hdq, h2, ?_⟩
      intro e he hse
      by_cases hle : e.length ≤ d.length
      · exact h3 e ((List.prefix_of_prefix_length_le he hdq hle).trans hdp) hse
      · exfalso
        push_neg at hle
        have hde : d <+: e := List.prefix_of_prefix_length_le hdq he hle.le
        have := h3 d hdp (hcl d e hde hse)
        omega
    · right
      push_neg at hex
      refine ⟨h1, Or.inl h2, ?_⟩
      rintro e he (hse | heq)
      · exact h3 e he hse
      · exact hex e he heq
  · rintro ⟨h1, h2, h3⟩
    by_cases hs : S x
    · exact Or.inl ⟨h1, hs, fun d hd hsd => h3 d hd (Or.inl hsd)⟩
    · right
      have hxp : x <+: p := h2.resolve_left hs
      refine ⟨hxp, Or.inr h1, ?_⟩
      rintro e he (hse | heq)
      · by_contra hlen
        push_neg at hlen
        exact hs (hcl x e (List.prefix_of_prefix_length_le hxp he hlen.le) hse)
      · exact h3 e heq (Or.inr he)

theorem boundaries_commute_half {ps qs : List Str} {hp hq : Option Handler} {p q : Str}
    {fl fl2 : Bool} {t t1 t12 t2 t21 : List Node}
    (h1 : InsOk ps hp p fl t t1) (h12 : InsOk qs hq q fl2 t1 t12)
    (h2 : InsOk qs hq q fl2 t t2) (h21 : InsOk ps hp p fl t2 t21)
    (hpne : p ≠ []) (hqne : q ≠ []) (hc : everyLevel compressed t = true) (x : Str)
    (hx : Boundary t12 x) : Boundary t21 x := by
  have hc1 := h1.keeps_compressed hpne hc
  have hc2 := h2.keeps_compressed hqne hc
  have hcl : ∀ a b, a <+: b → IsPre t b → IsPre t a := fun a b hab hb => isPre_of_prefix hab hb
  rw [h21.boundaries_after hpne hc2, h2.boundaries_after hqne hc,
    longest_congr (fun d _ => h2.isPre_iff hqne hc d)]
  rw [h12.boundaries_after hqne hc1, h1.boundaries_after hpne hc,
    longest_congr (fun d _ => h1.isPre_iff hpne hc d)] at hx
  rcases hx with (h | h | h) | h | h
  · exact Or.inl (Or.inl h)
  · exact Or.inr (Or.inl h)
  · rcases (longest_swap (IsPre t) hcl p q x).1 h with h3 | h3
    · exact Or.inl (Or.inr (Or.inr h3))
    · exact Or.inr (Or.inr h3)
  · exact Or.inl (Or.inr (Or.inl h))
  · rcases (longest_swap (IsPre t) hcl p q x).2 h with h3 | h3
    · exact Or.inl (Or.inr (Or.inr h3))
    · exact Or.inr (Or.inr h3)

/-- Two registrations leave the same node boundaries in either order. -/
theorem boundaries_commute {ps qs : List Str} {hp hq : Option Handler} {p q : Str}
    {fl fl2 : Bool} {t t1 t12 t2 t21 : List Node}
    (h1 : InsOk ps hp p fl t t1) (h12 : InsOk qs hq q fl2 t1 t12)
    (h2 : InsOk qs hq q fl2 t t2) (h21 : InsOk ps hp p fl t2 t21)
    (hpne : p ≠ []) (hqne : q ≠ []) (hc : everyLevel compressed t = true) (x : Str) :
    Boundary t12 x ↔ Boundary t21 x :=
  ⟨boundaries_commute_half h1 h12 h2 h21 hpne hqne hc x,
    boundaries_commute_half h2 h21 h1 h12 hqne hpne hc x⟩

/-! ## A prefix-compressed tree is fixed by its boundaries, handlers and flags -/

theorem served_cons (s : Str) (ps : List Str) (ch : List Node) (h0 : Option Handler)
    (fl : Bool) (rest : List Node) (x : Str) (h : Handler) :
    Served (Node.mk s ps ch h0 fl :: rest) x h ↔
      (h0 = some h ∧ x = s) ∨ (∃ y, x = s ++ y ∧ Served ch y h) ∨ Served rest x h := by
  simp only [Served, mem_routes_cons]
  constructor
  · rintro ⟨qs, ⟨h1, h2, -⟩ | ⟨y, hy, hm⟩ | h3⟩
    · exact Or.inl ⟨h1, h2⟩
    · exact Or.inr (Or.inl ⟨y, hy, qs, hm⟩)
    · exact Or.inr (Or.inr ⟨qs, h3⟩)
  · rintro (⟨h1, h2⟩ | ⟨y, hy, qs, hm⟩ | ⟨qs, h3⟩)
    · exact ⟨ps, Or.inl ⟨h1, h2, rfl⟩⟩
    · exact ⟨qs, Or.inr (Or.inl ⟨y, hy, hm⟩)⟩
    · exact ⟨qs, Or.inr (Or.inr h3)⟩

theorem served_iff (t : List Node) (x : Str) (h : Handler) :
    Served t x h ↔ ∃ m ∈ t, (m.handler = some h ∧ x = m.s) ∨
      ∃ y, x = m.s ++ y ∧ Served m.children y h := by
  induction t with
  | nil => simp [Served, routes]
  | cons n rest ih =>
    cases n with
    | mk s ps ch h0 fl =>
      rw [served_cons, ih]
      simp only [List.mem_cons, exists_eq_or_imp]
      constructor
      · rintro (h1 | h2 | h3)
        · exact Or.inl (Or.inl h1)
        · exact Or.inl (Or.inr h2)
        · exact Or.inr h3
      · rintro ((h1 | h2) | h3)
        · exact Or.inl h1
        · exact Or.inr (Or.inl h2)
        · exact Or.inr (Or.inr h3)

theorem served_ne_nil {t : List Node} {x : Str} {h : Handler} (hs : ∀ n ∈ t, n.s ≠ [])
    (hx : Served t x h) : x ≠ [] := by
  rw [served_iff] at hx
  obtain ⟨m, hm, ⟨-, rfl⟩ | ⟨y, rfl, -⟩⟩ := hx
  · exact hs m hm
  · simp [hs m hm]

theorem same_first {t : List Node} (hq : compressed t = true) {n m : Node} (hn : n ∈ t)
    (hm : m ∈ t) {z w : Str} (h : n.s ++ z = m.s ++ w) : m = n := by
  rw [compressed_iff] at hq
  refine List.inj_on_of_nodup_map hq.2 hm hn ?_
  rw [first, first, ← head_append_of_ne (hq.1 m hm) w, ← h, head_append_of_ne (hq.1 n hn)]

theorem boundary_under {t : List Node} (hq : compressed t = true) {n : Node} (hn : n ∈ t)
    (z : Str) : Boundary t (n.s ++ z) ↔ Boundary n.children z := by
  constructor
  · intro h
    rw [boundary_iff] at h
    rcases h with h | ⟨m, hm, w, hw, hb⟩
    · exact absurd (List.append_eq_nil.1 h).1 (((compressed_iff t).1 hq).1 n hn)
    · have := same_first hq hn hm hw
      subst this
      rw [List.append_cancel_left_eq] at hw
      rw [hw]; exact hb
  · exact fun h => Boundary.step t n z hn h

theorem served_here {t : List Node} (hq : compressed t = true) {n : Node} (hn : n ∈ t)
    (hch : ∀ m ∈ n.children, m.s ≠ []) (h : Handler) :
    Served t n.s h ↔ n.handler = some h := by
  rw [served_iff]
  constructor
  · rintro ⟨m, hm, ⟨h1, h2⟩ | ⟨y, hy, hs⟩⟩
    · have := same_first hq hn hm (z := []) (w := []) (by simpa using h2)
      rw [← this]; exact h1
    · exfalso
      have := same_first hq hn hm (z := []) (w := y) (by simpa using hy)
      subst this
      have hy2 : y = [] := by simpa using hy
      exact served_ne_nil hch hs hy2
  · exact fun h1 => ⟨n, hn, Or.inl ⟨h1, rfl⟩⟩

theorem served_under {t : List Node} (hq : compressed t = true) {n : Node} (hn : n ∈ t)
    {z : Str} (hz : z ≠ []) (h : Handler) :
    Served t (n.s ++ z) h ↔ Served n.children z h := by
  rw [served_iff]
  constructor
  · rintro ⟨m, hm, ⟨-, h2⟩ | ⟨y, hy, hs⟩⟩
    · exfalso
      have := same_first hq hn hm (w := []) (by simpa using h2)
      subst this
      exact hz (by simpa using h2)
    · have := same_first hq hn hm hy
      subst this
      rw [List.append_cancel_left_eq] at hy
      rw [hy]; exact hs
  · exact fun h1 => ⟨n, hn, Or.inr ⟨z, rfl, h1⟩⟩

theorem same_segment {t t2 : List Node} (hq : compressed t = true)
    (hq2 : compressed t2 = true) (hb : ∀ x, Boundary t x ↔ Boundary t2 x)
    {n : Node} (hn : n ∈ t) : ∃ m ∈ t2, m.s = n.s := by
  have h1 : Boundary t2 n.s := (hb _).1 (by
    have := Boundary.step t n [] hn (Boundary.root _)
    simpa using this)
  rw [boundary_iff] at h1
  rcases h1 with h1 | ⟨m, hm, w, hw, -⟩
  · exact absurd h1 (((compressed_iff t).1 hq).1 n hn)
  · refine ⟨m, hm, ?_⟩
    have h2 : Boundary t m.s := (hb _).2 (by
      have := Boundary.step t2 m [] hm (Boundary.root _)
      simpa using this)
    rw [boundary_iff] at h2
    rcases h2 with h2 | ⟨k, hk, w2, hw2, -⟩
    · exact absurd h2 (((compressed_iff t2).1 hq2).1 m hm)
    · have hkn : k = n := same_first hq hn hk (z := []) (w := w2 ++ w) (by
        rw [List.append_nil, hw, hw2, List.append_assoc])
      subst hkn
      rw [hw2, List.append_assoc] at hw
      have : w2 ++ w = [] := by
        have := congrArg List.length hw
        simp only [List.length_append] at this
        exact List.length_eq_zero.1 (by simp only [List.length_append]; omega)
      rw [hw2, (List.append_eq_nil.1 this).1, List.append_nil]

theorem option_eq_of_iff {a b : Option Handler} (h : ∀ x, a = some x ↔ b = some x) :
    a = b := by
  cases a with
  | none =>
    cases b with
    | none => rfl
    | some y => exact absurd ((h y).2 rfl) (by simp)
  | some x => exact ((h x).1 rfl).symm

/-- Two prefix-compressed trees with the same node boundaries, the same handler on every
path and the same flags are alike. -/
theorem alike_of_same (t : List Node) : ∀ (t2 : List Node) (fl : Bool),
    everyLevel compressed t = true → everyLevel compressed t2 = true →
    Flagged fl t = true → Flagged fl t2 = true →
    (∀ x, Boundary t x ↔ Boundary t2 x) → (∀ x h, Served t x h ↔ Served t2 x h) →
    Alike t t2 := by
  induction t using tree_induction with
  | h t ih =>
    intro t2 fl hc hc2 hf hf2 hb hs
    rw [everyLevel_iff] at hc hc2
    rw [flagged_iff] at hf hf2
    have hnode : ∀ n ∈ t, ∀ m ∈ t2, m.s = n.s → AlikeNode n m := by
      intro n hn m hm hms
      have hcn := (everyLevel_iff _ _).1 (hc.2 n hn)
      have hcm := (everyLevel_iff _ _).1 (hc2.2 m hm)
      rw [alikeNode_iff]
      refine ⟨hms, ?_, by rw [hf.1 n hn, hf2.1 m hm], ?_⟩
      · apply option_eq_of_iff
        intro x
        rw [← served_here hc2.1 hm ((compressed_iff _).1 hcm.1).1,
          ← served_here hc.1 hn ((compressed_iff _).1 hcn.1).1, hms, hs]
      · refine ih n hn m.children false (hc.2 n hn) (hc2.2 m hm) (hf.2 n hn) (hf2.2 m hm)
          ?_ ?_
        · intro z
          rw [← boundary_under hc.1 hn, ← boundary_under hc2.1 hm, hms, hb]
        · intro z h
          by_cases hz : z = []
          · subst hz
            constructor
            · exact fun h1 => absurd rfl (served_ne_nil ((compressed_iff _).1 hcn.1).1 h1)
            · exact fun h1 => absurd rfl (served_ne_nil ((compressed_iff _).1 hcm.1).1 h1)
          · rw [← served_under hc.1 hn hz, ← served_under hc2.1 hm hz, hms, hs]
    rw [alike_iff]
    constructor
    · intro n hn
      obtain ⟨m, hm, hms⟩ := same_segment hc.1 hc2.1 hb hn
      exact ⟨m, hm, hnode n hn m hm hms⟩
    · intro m hm
      obtain ⟨n, hn, hns⟩ := same_segment hc2.1 hc.1 (fun x => (hb x).symm) hm
      exact ⟨n, hn, hnode n hn m hm hns.symm⟩

/-! ## Two registrations in either order -/

theorem served_commute {ps qs : List Str} {hp hq : Option Handler} {p q : Str}
    {fl fl2 : Bool} {t t1 t12 t2 t21 : List Node}
    (h1 : InsOk ps hp p fl t t1) (h12 : InsOk qs hq q fl2 t1 t12)
    (h2 : InsOk qs hq q fl2 t t2) (h21 : InsOk ps hp p fl t2 t21) (x : Str) (h : Handler) :
    Served t12 x h ↔ Served t21 x h := by
  simp only [Served, h12.routes_iff, h1.routes_iff, h21.routes_iff, h2.routes_iff]
  constructor
  · rintro ⟨r, (h3 | h3) | h3⟩
    · exact ⟨r, Or.inl (Or.inl h3)⟩
    · exact ⟨r, Or.inr h3⟩
    · exact ⟨r, Or.inl (Or.inr h3)⟩
  · rintro ⟨r, (h3 | h3) | h3⟩
    · exact ⟨r, Or.inl (Or.inl h3)⟩
    · exact ⟨r, Or.inr h3⟩
    · exact ⟨r, Or.inl (Or.inr h3)⟩

/-- Two registrations with non-empty paths on a prefix-compressed tree leave alike trees
in either order. -/
theorem insOk_commute {ps qs : List Str} {hp hq : Option Handler} {p q : Str}
    {fl : Bool} {t t1 t12 t2 t21 : List Node}
    (h1 : InsOk ps hp p fl t t1) (h12 : InsOk qs hq q fl t1 t12)
    (h2 : InsOk qs hq q fl t t2) (h21 : InsOk ps hp p fl t2 t21)
    (hpne : p ≠ []) (hqne : q ≠ []) (hc : everyLevel compressed t = true)
    (hf : Flagged fl t = true) : Alike t12 t21 :=
  alike_of_same t12 t21 fl
    (h12.keeps_compressed hqne (h1.keeps_compressed hpne hc))
    (h21.keeps_compressed hpne (h2.keeps_compressed hqne hc))
    (h12.keeps_flagged (h1.keeps_flagged hf)) (h21.keeps_flagged (h2.keeps_flagged hf))
    (boundaries_commute h1 h12 h2 h21 hpne hqne hc)
    (served_commute h1 h12 h2 h21)

theorem runCalls_pair (c1 c2 : Call) (t t12 : List Node) :
    runCalls [c1, c2] t = some t12 ↔
      ∃ t1, makeChild t c1.path c1.params c1.handler c1.firstLevel = Outcome.ok t1 ∧
        makeChild t1 c2.path c2.params c2.handler c2.firstLevel = Outcome.ok t12 := by
  rw [runCalls]
  cases hmk : makeChild t c1.path c1.params c1.handler c1.firstLevel with
  | ok t1 =>
    simp only [runCalls, Outcome.ok.injEq, exists_eq_left']
    cases hmk2 : makeChild t1 c2.path c2.params c2.handler c2.firstLevel with
    | ok t3 => simp
    | panicked t3 => simp
  | panicked t1 => simp

/-- When two registrations in a row fail: the first path has a handler and a route
already, or the second has a handler and a route already or through the first call. -/
theorem runCalls_pair_fails (c1 c2 : Call) (t : List Node) (h1 : c1.path ≠ [])
    (h2 : c2.path ≠ []) (hc : everyLevel compressed t = true) :
    runCalls [c1, c2] t = none ↔
      (c1.handler ≠ none ∧ ∃ qs h, (c1.path, qs, h) ∈ routes t) ∨
      (c2.handler ≠ none ∧ ((∃ qs h, (c2.path, qs, h) ∈ routes t) ∨
        (c1.handler ≠ none ∧ c2.path = c1.path))) := by
  have hp1 := makeChild_panicked_iff t c1.path c1.params c1.handler c1.firstLevel h1 hc
  rw [runCalls]
  cases hmk : makeChild t c1.path c1.params c1.handler c1.firstLevel with
  | panicked t1 =>
    simp only [true_iff]
    exact Or.inl (hp1.1 ⟨t1, hmk⟩)
  | ok t1 =>
    have hins := makeChild_ok_ins hmk
    have hno1 : ¬ (c1.handler ≠ none ∧ ∃ qs h, (c1.path, qs, h) ∈ routes t) := by
      intro hh
      obtain ⟨t3, h3⟩ := hp1.2 hh
      rw [hmk] at h3
      exact Outcome.noConfusion h3
    have hp2 := makeChild_panicked_iff t1 c2.path c2.params c2.handler c2.firstLevel h2
      (hins.keeps_compressed h1 hc)
    have hroute : (∃ qs h, (c2.path, qs, h) ∈ routes t1) ↔
        (∃ qs h, (c2.path, qs, h) ∈ routes t) ∨ (c1.handler ≠ none ∧ c2.path = c1.path) := by
      simp only [hins.routes_iff]
      constructor
      · rintro ⟨qs, h, h3 | ⟨h3, h4, -⟩⟩
        · exact Or.inl ⟨qs, h, h3⟩
        · exact Or.inr ⟨by rw [h3]; simp, h4⟩
      · rintro (⟨qs, h, h3⟩ | ⟨h3, h4⟩)
        · exact ⟨qs, h, Or.inl h3⟩
        · obtain ⟨h, hh⟩ := Option.ne_none_iff_exists'.1 h3
          exact ⟨c1.params, h, Or.inr ⟨hh, h4, rfl⟩⟩
    rw [hroute] at hp2
    simp only [runCalls]
    cases hmk2 : makeChild t1 c2.path c2.params c2.handler c2.firstLevel with
    | panicked t3 =>
      simp only [true_iff]
      exact Or.inr (hp2.1 ⟨t3, hmk2⟩)
    | ok t3 =>
      constructor
      · intro h3
        exact Option.noConfusion h3
      · rintro (hh | hh)
        · exact absurd hh hno1
        · obtain ⟨t4, h4⟩ := hp2.2 hh
          rw [hmk2] at h4
          exact Outcome.noConfusion h4

/-! # The claims -/

/-- C1: round trip of registration and lookup.  Take routes with non-empty, pairwise
distinct internal paths in which every `':'` is a whole segment and the number of names is
the number of markers.  Registering each of them from the empty node list (calls without
handler on the prefixes before and after each marker, then the path itself with names,
handler and firstLevel set) succeeds, and on every tree that `sort` may leave,
`findChild(P, [])` returns for each route a node with exactly its handler (and names) and
as many values as the route declares parameters. -/
theorem registration_lookup_round_trip (regs : List Registration)
    (hne : ∀ r ∈ regs, r.path ≠ []) (hwhole : ∀ r ∈ regs, markersWhole r.path = true)
    (hnames : ∀ r ∈ regs, r.names.length = r.path.count colon)
    (_hfl : ∀ r ∈ regs, r.firstLevel = true)
    (hdist : (regs.map Registration.path).Nodup) :
    ∃ t, runCalls (regs.flatMap registerCalls) [] = some t ∧
      ∀ t2, AfterSort t t2 → ∀ r ∈ regs, ∃ n vs,
        findChild t2 r.path [] = some (some n, vs) ∧ n.handler = some r.handler ∧
          n.params = r.names ∧ vs.length = r.names.length := by
  have hpaths : ∀ c ∈ regs.flatMap registerCalls, c.path ≠ [] := by
    intro c hc
    obtain ⟨r, hr, hcr⟩ := List.mem_flatMap.1 hc
    exact registerCalls_path_ne_nil (hne r hr) (markersWhole_head (hwhole r hr)) c hcr
  obtain ⟨t, ht, hfind⟩ := runCalls_round_trip (regs.flatMap registerCalls) hpaths
    (by rw [handlerPaths_flatMap]; exact hdist) (callsDisciplined_flatMap regs [])
  refine ⟨t, ht, fun t2 hs r hr => ?_⟩
  have hfinal : Call.mk r.path r.names (some r.handler) r.firstLevel ∈
      regs.flatMap registerCalls := by
    refine List.mem_flatMap.2 ⟨r, hr, ?_⟩
    rw [registerCalls]
    simp
  obtain ⟨n, vs, h1, h2, h3, h4⟩ := hfind t2 hs.outcome _ hfinal r.handler rfl
    (markersWholeFrom_closed r.path none (hwhole r hr))
  exact ⟨n, vs, h1, h2, h3, by rw [h4]; exact (hnames r hr).symm⟩

/-- Witness of C1: the routes `/user/:id`, `/user/:id/posts`, `/static/`, `/team` and
`/teams`. -/
theorem registration_lookup_round_trip_witness :
    ((∀ r ∈ sampleRoutes, r.path ≠ []) ∧ (∀ r ∈ sampleRoutes, markersWhole r.path = true) ∧
      (∀ r ∈ sampleRoutes, r.names.length = r.path.count colon) ∧
      (∀ r ∈ sampleRoutes, r.firstLevel = true) ∧
      (sampleRoutes.map Registration.path).Nodup) ∧
    ∃ t, runCalls (sampleRoutes.flatMap registerCalls) [] = some t ∧
      ∀ t2, AfterSort t t2 → ∀ r ∈ sampleRoutes, ∃ n vs,
        findChild t2 r.path [] = some (some n, vs) ∧ n.handler = some r.handler ∧
          n.params = r.names ∧ vs.length = r.names.length :=
  ⟨⟨by decide, by decide, by decide, by decide, by decide⟩,
    registration_lookup_round_trip sampleRoutes (by decide) (by decide) (by decide)
      (by decide) (by decide)⟩

/-- C2, evaluated at its failing input.  After the documented registration of
`/user/news`, `/user/newt` and `/user/:id` and `sort`, the request `/user/new` is an
instance of `/user/:id`, yet `findChild` returns `nil, nil`: the node `new` matches the
rest of the path exactly, has no handler, and the loop returns there instead of going on
to the parameter sibling. -/
theorem completeness_fails_at_user_new :
    runCalls (newsRoutes.flatMap registerCalls) [] = some newsTree ∧
      matchesRoute (str "/user/:") (str "/user/new") = true ∧
      findChild (sort newsTree) (str "/user/new") [] = some (none, []) ∧
      findChild newsTree (str "/user/new") [] = some (none, []) :=
  ⟨rfl, by decide, rfl, rfl⟩

/-- C3: duplicate detection is exact.  On a node list `t` reached from the empty list by
the successful calls `cs` (all with non-empty paths), a call of `makeChild` with the
non-empty path `p` panics if and only if its handler is non-nil and some call of `cs`
had the same path `p` and a non-nil handler; so a nil handler never fails. -/
theorem duplicate_detection_exact (cs : List Call) (t : List Node)
    (hcs : ∀ c ∈ cs, c.path ≠ []) (hrun : runCalls cs [] = some t)
    (p : Str) (ps : List Str) (hd : Option Handler) (fl : Bool) (hp : p ≠ []) :
    (∃ t2, makeChild t p ps hd fl = Outcome.panicked t2) ↔
      (hd ≠ none ∧ ∃ c ∈ cs, c.path = p ∧ c.handler ≠ none) := by
  rw [makeChild_panicked_iff t p ps hd fl hp (runCalls_segsNonEmpty hcs hrun)]
  refine and_congr_right fun _ => ?_
  constructor
  · rintro ⟨qs, h, hm⟩
    rcases (runCalls_routes hrun p qs h).1 hm with h0 | ⟨c, hc, h1, -, h3⟩
    · simp [routes] at h0
    · exact ⟨c, hc, h1, by rw [h3]; simp⟩
  · rintro ⟨c, hc, h1, h3⟩
    cases hh : c.handler with
    | none => exact absurd hh h3
    | some h =>
      exact ⟨c.params, h, (runCalls_routes hrun p c.params h).2 (Or.inr ⟨c, hc, h1, rfl, hh⟩)⟩

/-- Witness of C3: after `/team` (with a handler), `/teams` (with a handler) and `/tea`
(without), a second handler for `/team` is refused. -/
theorem duplicate_detection_exact_witness :
    ((∀ c ∈ teamCalls, c.path ≠ []) ∧ runCalls teamCalls [] = some teamTree ∧
      str "/team" ≠ []) ∧
    ((∃ t2, makeChild teamTree (str "/team") [] (some 3) true = Outcome.panicked t2) ↔
      ((some 3 : Option Handler) ≠ none ∧
        ∃ c ∈ teamCalls, c.path = str "/team" ∧ c.handler ≠ none)) :=
  ⟨⟨by decide, rfl, by decide⟩,
    duplicate_detection_exact teamCalls teamTree (by decide) rfl (str "/team") [] (some 3) true
      (by decide)⟩

/-- C4: a trailing parameter captures the rest of the path.  For a non-empty `':'`-free
`a` ending in `'/'`, after `makeChild(a, [], nil, fl)` and `makeChild(a + ":", [name], h, fl)`
on the empty list and `sort`, `findChild(a + v, [])` for a non-empty `v` without `'/'`
returns the node with handler `h` and the values `[v]`. -/
theorem trailing_param_captures_rest (a v name : Str) (hh : Handler) (fl : Bool)
    (ha : a ≠ []) (hac : colon ∉ a) (_hal : a.getLast? = some slash) (hv : v ≠ [])
    (hvs : slash ∉ v) :
    ∃ t, runCalls [Call.mk a [] none fl, Call.mk (a ++ [colon]) [name] (some hh) fl] []
        = some t ∧
      ∀ t2, AfterSort t t2 → ∃ n, findChild t2 (a ++ v) [] = some (some n, [v]) ∧
        n.handler = some hh := by
  refine ⟨[Node.mk a [] [Node.mk [colon] [name] [] (some hh) false] none fl], ?_, ?_⟩
  · have e1 := makeChildAt_descend a [] [] none fl colon [] [name] (some hh)
    simp [runCalls, makeChild, e1]
  · intro t2 hs
    have ht : t2 = _ := reordered_chain a [] _ none fl
      (fun c2 hc2 => (reordered_leaf [colon] [name] (some hh) false c2).1 hc2) t2
      hs.outcome.1
    subst ht
    have hne : a ≠ [colon] := by
      intro he; rw [he] at hac; simp at hac
    have e1 : findChild [Node.mk [colon] [name] [] (some hh) false] v []
        = some (some (Node.mk [colon] [name] [] (some hh) false), [v]) := by
      rw [findChild, findChildAt_param_end [name] [] (some hh) false v [] hvs]
      simp
    refine ⟨Node.mk [colon] [name] [] (some hh) false, ?_, rfl⟩
    rw [findChild, findChildAt_longer a [] _ none fl v [] hne ha hv, e1]
    simp [noHandler, Node.handler]

/-- Witness of C4: `a = "/user/"`, `v = "42"`. -/
theorem trailing_param_captures_rest_witness :
    (str "/user/" ≠ [] ∧ colon ∉ str "/user/" ∧ (str "/user/").getLast? = some slash ∧
      str "42" ≠ [] ∧ slash ∉ str "42") ∧
    ∃ t, runCalls [Call.mk (str "/user/") [] none true,
        Call.mk (str "/user/" ++ [colon]) [str "id"] (some 1) true] [] = some t ∧
      ∀ t2, AfterSort t t2 → ∃ n, findChild t2 (str "/user/" ++ str "42") []
        = some (some n, [str "42"]) ∧ n.handler = some 1 :=
  ⟨⟨by decide, by decide, by decide, by decide, by decide⟩,
    trailing_param_captures_rest (str "/user/") (str "42") (str "id") 1 true (by decide)
      (by decide) (by decide) (by decide) (by decide)⟩

/-- C5: a parameter followed by a literal continuation is not cut short by the route that
ends at the parameter.  For a non-empty `':'`-free `a` ending in `'/'` and a `':'`-free `s`
beginning with `'/'`, register the routes `a:s` and `a:` through the documented calls, in
either order, and `sort`: for a non-empty `v` without `'/'`, `findChild(a + v + s, [])`
returns the handler of `a:s` with `[v]`, and `findChild(a + v, [])` that of `a:` with `[v]`. -/
theorem param_continuation_preferred (a s v : Str) (r1 r2 : Registration)
    (hr1 : r1.path = a ++ colon :: s) (hr2 : r2.path = a ++ [colon])
    (ha : a ≠ []) (hac : colon ∉ a) (_hal : a.getLast? = some slash)
    (hs : s.head? = some slash) (hsc : colon ∉ s) (hv : v ≠ []) (hvs : slash ∉ v)
    (cs : List Call)
    (hcs : cs = registerCalls r1 ++ registerCalls r2 ∨
      cs = registerCalls r2 ++ registerCalls r1) :
    ∃ t, runCalls cs [] = some t ∧ ∀ t2, AfterSort t t2 →
      (∃ n, findChild t2 (a ++ v ++ s) [] = some (some n, [v]) ∧
        n.handler = some r1.handler) ∧
      (∃ n, findChild t2 (a ++ v) [] = some (some n, [v]) ∧ n.handler = some r2.handler) := by
  cases s with
  | nil => simp at hs
  | cons b s2 =>
    simp only [List.head?_cons, Option.some.injEq] at hs
    subst hs
    obtain ⟨pa, fa, ht⟩ := param_pair_tree a s2 r1 r2 hac hsc hr1 hr2 cs hcs
    refine ⟨_, ht, fun t2 hso => ?_⟩
    obtain ⟨h1, h2⟩ := param_pair_lookup a s2 v pa r1.names r2.names r1.handler r2.handler fa
      ha hac hsc hv hvs t2 hso.outcome
    exact ⟨⟨_, h1, rfl⟩, ⟨_, h2, rfl⟩⟩

/-- Witness of C5: the routes `/user/:id/posts` and `/user/:id`, the request
`/user/42/posts`. -/
theorem param_continuation_preferred_witness :
    ((route "/user/:/posts" ["id"] 2).path = str "/user/" ++ colon :: str "/posts" ∧
      (route "/user/:" ["id"] 1).path = str "/user/" ++ [colon] ∧
      str "/user/" ≠ [] ∧ colon ∉ str "/user/" ∧ (str "/user/").getLast? = some slash ∧
      (str "/posts").head? = some slash ∧ colon ∉ str "/posts" ∧ str "42" ≠ [] ∧
      slash ∉ str "42") ∧
    ∃ t, runCalls (registerCalls (route "/user/:/posts" ["id"] 2) ++
        registerCalls (route "/user/:" ["id"] 1)) [] = some t ∧
      ∀ t2, AfterSort t t2 →
        (∃ n, findChild t2 (str "/user/" ++ str "42" ++ str "/posts") []
          = some (some n, [str "42"]) ∧
          n.handler = some (route "/user/:/posts" ["id"] 2).handler) ∧
        (∃ n, findChild t2 (str "/user/" ++ str "42") [] = some (some n, [str "42"]) ∧
          n.handler = some (route "/user/:" ["id"] 1).handler) :=
  ⟨⟨by decide, by decide, by decide, by decide, by decide, by decide, by decide, by decide,
      by decide⟩,
    param_continuation_preferred (str "/user/") (str "/posts") (str "42")
      (route "/user/:/posts" ["id"] 2) (route "/user/:" ["id"] 1) (by decide) (by decide)
      (by decide) (by decide) (by decide) (by decide) (by decide) (by decide) (by decide)
      _ (Or.inl rfl)⟩

/-- C6: two static routes never interfere.  For distinct non-empty paths `p` and `q`
without `':'`, handlers `hp` and `hq` and any flags, `makeChild` on `p` then on `q`, or in
the opposite order, succeeds from the empty list, and on every tree that `sort` may leave
`findChild(p, [])` returns the node with handler `hp` and no values and `findChild(q, [])`
the node with handler `hq` and no values. -/
theorem static_routes_do_not_interfere (p q : Str) (hp hq : Handler) (f1 f2 : Bool)
    (hpne : p ≠ []) (hqne : q ≠ []) (hpc : colon ∉ p) (hqc : colon ∉ q) (hpq : p ≠ q)
    (cs : List Call)
    (hcs : cs = [Call.mk p [] (some hp) f1, Call.mk q [] (some hq) f2] ∨
      cs = [Call.mk q [] (some hq) f2, Call.mk p [] (some hp) f1]) :
    ∃ t, runCalls cs [] = some t ∧ ∀ t2, AfterSort t t2 →
      (∃ n, findChild t2 p [] = some (some n, []) ∧ n.handler = some hp) ∧
      (∃ n, findChild t2 q [] = some (some n, []) ∧ n.handler = some hq) := by
  rcases hcs with hcs | hcs
  · rw [hcs]
    obtain ⟨t, ht, h⟩ := static_pair p q hp hq f1 f2 hpne hqne hpc hqc hpq
    exact ⟨t, ht, fun t2 hs => h t2 hs.outcome⟩
  · rw [hcs]
    obtain ⟨t, ht, h⟩ := static_pair q p hq hp f2 f1 hqne hpne hqc hpc (Ne.symm hpq)
    exact ⟨t, ht, fun t2 hs => ⟨(h t2 hs.outcome).2, (h t2 hs.outcome).1⟩⟩

/-- Witness of C6: the wildcard `/static/` and the literal `/static/logo.png`. -/
theorem static_routes_do_not_interfere_witness :
    (str "/static/" ≠ [] ∧ str "/static/logo.png" ≠ [] ∧ colon ∉ str "/static/" ∧
      colon ∉ str "/static/logo.png" ∧ str "/static/" ≠ str "/static/logo.png") ∧
    ∃ t, runCalls staticCalls [] = some t ∧ ∀ t2, AfterSort t t2 →
      (∃ n, findChild t2 (str "/static/") [] = some (some n, []) ∧ n.handler = some 1) ∧
      (∃ n, findChild t2 (str "/static/logo.png") [] = some (some n, []) ∧
        n.handler = some 2) :=
  ⟨⟨by decide, by decide, by decide, by decide, by decide⟩,
    static_routes_do_not_interfere (str "/static/") (str "/static/logo.png") 1 2 true true
      (by decide) (by decide) (by decide) (by decide) (by decide) staticCalls (Or.inl rfl)⟩

/-- C7: a lone wildcard route catches everything below it.  For a path `w` that ends in
`'/'` and is not `"/"`, the single call `makeChild(w, [], h, fl)` on the empty list gives
the one-node tree; on it, sorted or not, `findChild(w + r, [])` for a non-empty `r` returns
that node, whose handler is `h`, with the whole remainder `r` as the only value. -/
theorem lone_wildcard_catches_all (w r : Str) (hh : Handler) (fl : Bool)
    (hw : w.getLast? = some slash) (hw1 : w ≠ [slash]) (hr : r ≠ []) :
    makeChild [] w [] (some hh) fl = Outcome.ok [Node.mk w [] [] (some hh) fl] ∧
    ∀ t2, (t2 = [Node.mk w [] [] (some hh) fl] ∨
        AfterSort [Node.mk w [] [] (some hh) fl] t2) →
      findChild t2 (w ++ r) [] = some (some (Node.mk w [] [] (some hh) fl), [r]) ∧
      (Node.mk w [] [] (some hh) fl).handler = some hh := by
  refine ⟨by rw [makeChild], fun t2 ht2 => ⟨?_, rfl⟩⟩
  have ht : t2 = [Node.mk w [] [] (some hh) fl] := by
    rcases ht2 with h | h
    · exact h
    · exact (reordered_leaf w [] (some hh) fl t2).1 h.outcome.1
  subst ht
  have hne : w ≠ [] := by
    intro h0; rw [h0] at hw; simp at hw
  have hc : w ≠ [colon] := by
    intro h0; rw [h0] at hw; simp at hw
  rw [findChild, findChildAt_longer w [] [] (some hh) fl r [] hc hne hr]
  simp [findChild, noHandler, hw, hw1]

/-- Witness of C7: the route `/static/` and the request `/static/anything/here`. -/
theorem lone_wildcard_catches_all_witness :
    ((str "/static/").getLast? = some slash ∧ str "/static/" ≠ [slash] ∧
      str "anything/here" ≠ []) ∧
    findChild [Node.mk (str "/static/") [] [] (some 7) true]
      (str "/static/" ++ str "anything/here") [] =
        some (some (Node.mk (str "/static/") [] [] (some 7) true), [str "anything/here"]) :=
  ⟨by decide, ((lone_wildcard_catches_all (str "/static/") (str "anything/here") 7 true
    (by decide) (by decide) (by decide)).2 _ (Or.inl rfl)).1⟩

/-- C8: shape of a lookup result.  On a node list whose segments are all non-empty, for
every path and accumulator, `findChild` returns either `nil, nil` or a node whose handler
is non-nil: never a node without a handler, never values with a nil node. -/
theorem findChild_result_shape (t : List Node) (path : Str) (acc : List Str)
    (ht : everyLevel segsNonEmpty t = true) :
    findChild t path acc = some (none, []) ∨
      ∃ n vs, findChild t path acc = some (some n, vs) ∧ n.handler ≠ none :=
  findChild_shaped t ht path acc

/-- Witness of C8: a tree with a handler-less inner node, looked up with an accumulator. -/
theorem findChild_result_shape_witness :
    everyLevel segsNonEmpty userTree = true ∧
    (findChild userTree (str "/user/new") [str "x"] = some (none, []) ∨
      ∃ n vs, findChild userTree (str "/user/new") [str "x"] = some (some n, vs) ∧
        n.handler ≠ none) :=
  ⟨by decide, findChild_result_shape userTree (str "/user/new") [str "x"] (by decide)⟩

/-- C9: lookup cannot crash.  On a node list reached from the empty list by successful
`makeChild` calls with non-empty paths, sorted or not, `findChild` returns a result for
every request path, the empty one included: no index or slice is out of range. -/
theorem lookup_cannot_crash (cs : List Call) (t t2 : List Node)
    (hcs : ∀ c ∈ cs, c.path ≠ []) (hrun : runCalls cs [] = some t)
    (ht2 : t2 = t ∨ AfterSort t t2) (path : Str) (acc : List Str) :
    ∃ r, findChild t2 path acc = some r := by
  have h1 := runCalls_segsNonEmpty hcs hrun
  have h2 : everyLevel compressed t2 = true := by
    rcases ht2 with h | h
    · rw [h]; exact h1
    · exact h.outcome.still_compressed h1
  rcases findChild_shaped t2 (segsNonEmpty_of_compressed t2 h2) path acc with h | ⟨n, vs, h, -⟩
  · exact ⟨_, h⟩
  · exact ⟨_, h⟩

/-- Witness of C9: the sorted tree of `/static/` and `/static/logo.png`, empty request. -/
theorem lookup_cannot_crash_witness :
    ((∀ c ∈ staticCalls, c.path ≠ []) ∧ runCalls staticCalls [] = some staticTree ∧
      (sort staticTree = staticTree ∨ AfterSort staticTree (sort staticTree))) ∧
    ∃ r, findChild (sort staticTree) [] [] = some r :=
  ⟨⟨by decide, rfl, Or.inr (Or.inl rfl)⟩,
    lookup_cannot_crash staticCalls staticTree (sort staticTree) (by decide) rfl
      (Or.inr (Or.inl rfl)) [] []⟩

/-- C10: a failed registration changes nothing.  When `makeChild` panics with the
duplicate-route error, the node list at the moment of the panic is the node list before
the call, at every level; the handler already registered is not overwritten. -/
theorem failed_registration_changes_nothing (t t2 : List Node) (p : Str) (ps : List Str)
    (hd : Option Handler) (fl : Bool)
    (h : makeChild t p ps hd fl = Outcome.panicked t2) : t2 = t :=
  (makeChild_panicked_eq h).1

/-- Witness of C10: a second handler for `/team` on the tree of `teamCalls`. -/
theorem failed_registration_changes_nothing_witness :
    makeChild teamTree (str "/team") [str "y"] (some 3) true = Outcome.panicked teamTree ∧
      teamTree = teamTree :=
  ⟨rfl, failed_registration_changes_nothing teamTree teamTree (str "/team") [str "y"] (some 3)
    true rfl⟩

/-- C11: postcondition of the priority pass.  On every tree `t2` that `sort` may leave of
`t`, the sibling list of every level is a permutation of the one before (`Reordered`), no
parameter node comes before a node that is not one, and among the other nodes
`countChildren` does not increase from first to last. -/
theorem sort_postcondition (t t2 : List Node) (h : AfterSort t t2) :
    Reordered t t2 ∧ everyLevel paramLast t2 = true ∧ everyLevel countsDescend t2 = true :=
  ⟨h.outcome.1, everyLevel_mono paramLast_of_ordered t2 h.outcome.2,
    everyLevel_mono countsDescend_of_ordered t2 h.outcome.2⟩

/-- Witness of C11: the tree of `/user/news`, `/user/newt` and `/user/:id`, sorted. -/
theorem sort_postcondition_witness :
    AfterSort newsTree (sort newsTree) ∧
    (Reordered newsTree (sort newsTree) ∧ everyLevel paramLast (sort newsTree) = true ∧
      everyLevel countsDescend (sort newsTree) = true) :=
  ⟨Or.inl rfl, sort_postcondition newsTree (sort newsTree) (Or.inl rfl)⟩

/-- C12: the priority pass is idempotent with respect to matching.  Let `t` be reached from
the empty list by successful `makeChild` calls with non-empty paths, `t1` a tree that `sort`
may leave of `t` and `t2` a tree that `sort` may leave of `t1`.  Then for every request path
`findChild` gives the same handler and the same parameter values on `t2` as on `t1` (a
run-time panic on one side being one on the other). -/
theorem sort_idempotent_for_matching (cs : List Call) (t t1 t2 : List Node)
    (hcs : ∀ c ∈ cs, c.path ≠ []) (hrun : runCalls cs [] = some t)
    (h1 : AfterSort t t1) (h2 : AfterSort t1 t2) :
    ∀ path acc, answer (findChild t2 path acc) = answer (findChild t1 path acc) := by
  have hc := runCalls_segsNonEmpty hcs hrun
  have hc1 := Reordered.keeps_level compressed_of_segs_perm t t1 h1.outcome.1 hc
  exact findChild_alike t1 t2 (Reordered.alike t1 t2 h2.outcome.1) hc1
    (everyLevel_mono paramLast_of_ordered t1 h1.outcome.2)
    (Reordered.keeps_level compressed_of_segs_perm t1 t2 h2.outcome.1 hc1)
    (everyLevel_mono paramLast_of_ordered t2 h2.outcome.2)

/-- Witness of C12: the tree of `/foo/:id/x` and `/:p/y`, sorted once and twice. -/
theorem sort_idempotent_for_matching_witness :
    (∀ c ∈ fooRoutes.flatMap registerCalls, c.path ≠ []) ∧
    runCalls (fooRoutes.flatMap registerCalls) [] = some fooTree ∧
    AfterSort fooTree (sort fooTree) ∧ AfterSort (sort fooTree) (sort (sort fooTree)) ∧
    ∀ path acc, answer (findChild (sort (sort fooTree)) path acc)
      = answer (findChild (sort fooTree) path acc) :=
  ⟨by decide, rfl, Or.inl rfl, Or.inl rfl,
    sort_idempotent_for_matching (fooRoutes.flatMap registerCalls) fooTree (sort fooTree)
      (sort (sort fooTree)) (by decide) rfl (Or.inl rfl) (Or.inl rfl)⟩

/-- C13, evaluated at its failing input.  After the documented registration of
`/foo/:id/x` and `/:p/y`, the sibling list under `/` is the literal node `foo/` followed by
the parameter node.  For the rest `foo/y` of the request `/foo/y`, the node `foo/` is not
`":"`, is a strict prefix, its children find nothing and it has no handler, so the claim
expects the lookup to go on with the parameter sibling, which matches with the value
`foo`; the code returns `nil, nil` at `foo/`, because that node ends in `'/'`, is eligible
as a wildcard, and a wildcard without handler returns instead of continuing. -/
theorem literal_failure_blocks_param_sibling :
    runCalls (fooRoutes.flatMap registerCalls) [] = some fooTree ∧
    sort fooTree = fooTree ∧
    matchesRoute (str "/:/y") (str "/foo/y") = true ∧
    findChild [Node.mk [colon] [] [Node.mk (str "/x") [str "id"] [] (some 1) false] none false]
      (str "y") [] = some (none, []) ∧
    findChild [Node.mk [colon] [] [Node.mk (str "/y") [str "p"] [] (some 2) false] none false]
      (str "foo/y") [] = some (some (Node.mk (str "/y") [str "p"] [] (some 2) false), [str "foo"]) ∧
    findChild [Node.mk (str "foo/") []
        [Node.mk [colon] [] [Node.mk (str "/x") [str "id"] [] (some 1) false] none false]
        none false,
      Node.mk [colon] [] [Node.mk (str "/y") [str "p"] [] (some 2) false] none false]
      (str "foo/y") [] = some (none, []) ∧
    findChild fooTree (str "/foo/y") [] = some (none, []) :=
  ⟨rfl, rfl, by decide, rfl, rfl, rfl, rfl⟩

/-- C14: wildcard disqualification of first-level nodes.  Let the first node `n` of a
sibling list end in `'/'`, be a strict prefix of the path, be flagged firstLevel and be
`"/"` itself or have a child.  If `findChild` on its children with the rest of the path
returns no node, `n` is not used as a catch-all: the lookup goes on with the siblings
after it, whether or not `n` has a handler. -/
theorem first_level_wildcard_disqualified (n : Node) (rest : List Node) (path w : Str)
    (acc vs : List Str) (hpath : path = n.s ++ w) (hw : w ≠ [])
    (hslash : n.s.getLast? = some slash) (hfl : n.firstLevel = true)
    (hroot : n.s = [slash] ∨ n.children ≠ [])
    (hchild : findChild n.children w acc = some (none, vs)) :
    findChild (n :: rest) path acc = findChild rest path acc := by
  have hne : n.s ≠ [] := by
    intro h0; rw [h0] at hslash; simp at hslash
  have hc : n.s ≠ [colon] := by
    intro h0; rw [h0] at hslash; simp at hslash
  rw [hpath]
  apply findChild_literal_falls_through n rest w acc vs hc hne hw hchild
  rcases hroot with h1 | h1
  · simp [hfl, h1]
  · have : n.children.length > 0 := List.length_pos.2 h1
    simp [hfl, this]

/-- Witness of C14: with `/static/` and `/static/logo.png` registered, the request
`/static/other` finds nothing although `/static/` has a handler. -/
theorem first_level_wildcard_disqualified_witness :
    (str "/static/other" = str "/static/" ++ str "other" ∧ str "other" ≠ [] ∧
      (str "/static/").getLast? = some slash ∧
      findChild [Node.mk (str "logo.png") [] [] (some 2) false] (str "other") []
        = some (none, [])) ∧
    findChild staticTree (str "/static/other") [] = findChild [] (str "/static/other") [] :=
  ⟨⟨by decide, by decide, by decide, rfl⟩,
    first_level_wildcard_disqualified
      (Node.mk (str "/static/") [] [Node.mk (str "logo.png") [] [] (some 2) false] (some 1) true)
      [] (str "/static/other") (str "other") [] [] (by decide) (by decide) (by decide) rfl
      (Or.inr (by simp [Node.children])) rfl⟩

/-- C15: prefix-compression invariant.  In every node list reached from the empty list by
successful `makeChild` calls with non-empty paths, at every level no two siblings have
segments that begin with the same byte; so at most one sibling of a level is a parameter
node, and at most one begins with any given byte, such as the first byte of a path. -/
theorem prefix_compression_invariant (cs : List Call) (t : List Node)
    (hcs : ∀ c ∈ cs, c.path ≠ []) (hrun : runCalls cs [] = some t) :
    everyLevel firstBytesDistinct t = true ∧ everyLevel atMostOneParam t = true ∧
      ∀ b, everyLevel (atMostOneBegins b) t = true := by
  have h := firstBytesDistinct_of_compressed t (runCalls_segsNonEmpty hcs hrun)
  exact ⟨h, everyLevel_mono atMostOneParam_of_distinct t h,
    fun b => everyLevel_mono (atMostOneBegins_of_distinct b) t h⟩

/-- Witness of C15: the tree of `/team`, `/teams` and `/tea`. -/
theorem prefix_compression_invariant_witness :
    ((∀ c ∈ teamCalls, c.path ≠ []) ∧ runCalls teamCalls [] = some teamTree) ∧
    (everyLevel firstBytesDistinct teamTree = true ∧ everyLevel atMostOneParam teamTree = true ∧
      ∀ b, everyLevel (atMostOneBegins b) teamTree = true) :=
  ⟨⟨by decide, rfl⟩, prefix_compression_invariant teamCalls teamTree (by decide) rfl⟩

/-- C16: segments are never empty.  In every node list reached from the empty list by
successful `makeChild` calls whose path is non-empty, every node at every depth has a
non-empty segment. -/
theorem segments_never_empty (cs : List Call) (t : List Node)
    (hcs : ∀ c ∈ cs, c.path ≠ []) (hrun : runCalls cs [] = some t) :
    everyLevel segsNonEmpty t = true :=
  segsNonEmpty_of_compressed t (runCalls_segsNonEmpty hcs hrun)

/-- Witness of C16: the registration of `/user/news`, `/user/newt` and `/user/:id`, which
splits a node in the middle and at a prefix. -/
theorem segments_never_empty_witness :
    ((∀ c ∈ newsRoutes.flatMap registerCalls, c.path ≠ []) ∧
      runCalls (newsRoutes.flatMap registerCalls) [] = some newsTree) ∧
    everyLevel segsNonEmpty newsTree = true :=
  ⟨⟨by decide, rfl⟩,
    segments_never_empty (newsRoutes.flatMap registerCalls) newsTree (by decide) rfl⟩

/-- C17: insertion preserves every existing route.  For every node list `t` (reachable or
not) and every successful call `makeChild(p, ps, hd, fl)` that turns it into `t2`, the
routes of `t2` are those of `t` together with `(p, ps, h)` when `hd` is the non-nil handler
`h`, and exactly those of `t` when `hd` is nil. -/
theorem insertion_preserves_routes (t t2 : List Node) (p : Str) (ps : List Str)
    (hd : Option Handler) (fl : Bool) (hmk : makeChild t p ps hd fl = Outcome.ok t2)
    (x : Str) (qs : List Str) (h : Handler) :
    (x, qs, h) ∈ routes t2 ↔ (x, qs, h) ∈ routes t ∨ (hd = some h ∧ x = p ∧ qs = ps) :=
  (makeChild_ok_ins hmk).routes_iff x qs h

/-- Witness of C17: `/tea` added to the tree of `/team` splits the node, and the route
`/team` is still there. -/
theorem insertion_preserves_routes_witness :
    makeChild [Node.mk (str "/team") [] [] (some 1) true] (str "/tea") [] (some 2) true
      = Outcome.ok [Node.mk (str "/tea") [] [Node.mk (str "m") [] [] (some 1) false]
        (some 2) true] ∧
    ((str "/team", [], 1) ∈ routes [Node.mk (str "/tea") []
        [Node.mk (str "m") [] [] (some 1) false] (some 2) true] ↔
      (str "/team", [], 1) ∈ routes [Node.mk (str "/team") [] [] (some 1) true] ∨
        ((some 2 : Option Handler) = some 1 ∧ str "/team" = str "/tea" ∧
          ([] : List Str) = [])) :=
  ⟨rfl, insertion_preserves_routes [Node.mk (str "/team") [] [] (some 1) true]
    [Node.mk (str "/tea") [] [Node.mk (str "m") [] [] (some 1) false] (some 2) true]
    (str "/tea") [] (some 2) true rfl (str "/team") [] 1⟩

/-- C18: soundness of lookup.  On a node list with non-empty segments, if
`findChild(path, [])` returns the node `n` with the values `vs`, then `n` lies in the tree
and, with `segs` the segments from the top level down to `n` and `m` the number of them
equal to `":"`: there are `m` or `m + 1` values, the first `m` contain no `'/'`, the path is
the concatenation of the segments with the `j`-th `":"` replaced by the `j`-th value,
followed by the last value when there are `m + 1`, and in that case the segment of `n`
ends in `'/'`. -/
theorem lookup_sound (t : List Node) (path : Str) (n : Node) (vs : List Str)
    (ht : everyLevel segsNonEmpty t = true)
    (hfind : findChild t path [] = some (some n, vs)) :
    ∃ segs, Reaches t segs n ∧
      (vs.length = segs.count [colon] ∨ vs.length = segs.count [colon] + 1) ∧
      (∀ v ∈ vs.take (segs.count [colon]), slash ∉ v) ∧
      path = fill segs vs ∧
      (vs.length = segs.count [colon] + 1 → n.s.getLast? = some slash) := by
  obtain ⟨vs2, segs, e1, e2, e3⟩ := findChild_sound t ht path [] n vs hfind
  rw [List.nil_append] at e1
  subst e1
  exact ⟨segs, e2, e3⟩

/-- Witness of C18: the request `/user/42` on a tree with the route `/user/:id`. -/
theorem lookup_sound_witness :
    (everyLevel segsNonEmpty userTree = true ∧
      findChild userTree (str "/user/42") []
        = some (some (Node.mk [colon] [str "id"] [] (some 3) false), [str "42"])) ∧
    ∃ segs, Reaches userTree segs (Node.mk [colon] [str "id"] [] (some 3) false) ∧
      ([str "42"].length = segs.count [colon] ∨ [str "42"].length = segs.count [colon] + 1) ∧
      (∀ v ∈ [str "42"].take (segs.count [colon]), slash ∉ v) ∧
      str "/user/42" = fill segs [str "42"] ∧
      ([str "42"].length = segs.count [colon] + 1 →
        (Node.mk [colon] [str "id"] [] (some 3) false).s.getLast? = some slash) :=
  ⟨⟨by decide, rfl⟩,
    lookup_sound userTree (str "/user/42") (Node.mk [colon] [str "id"] [] (some 3) false)
      [str "42"] (by decide) rfl⟩

/-- C19: lookup does not depend on the order of literal siblings.  Let every level of `t`
have non-empty segments beginning with pairwise different bytes and its parameter node
last, and let `t2` be `t` with the siblings of any levels reordered, the parameter node
still last on every level.  Then `findChild` gives the same handler and the same parameter
values on `t2` as on `t`, for every request path (a run-time panic on one side being one on
the other).  Hence any two trees that `sort` may leave of a tree `u` with such segments,
however ties between siblings are broken, give the same handler and values. -/
theorem lookup_independent_of_literal_order (t t2 : List Node)
    (hc : everyLevel compressed t = true) (hp : everyLevel paramLast t = true)
    (hr : Reordered t t2) (hp2 : everyLevel paramLast t2 = true) :
    (∀ path acc, answer (findChild t2 path acc) = answer (findChild t path acc)) ∧
    ∀ u u1 u2, everyLevel compressed u = true → AfterSort u u1 → AfterSort u u2 →
      ∀ path acc, answer (findChild u2 path acc) = answer (findChild u1 path acc) := by
  constructor
  · exact findChild_alike t t2 (Reordered.alike t t2 hr) hc hp
      (Reordered.keeps_level compressed_of_segs_perm t t2 hr hc) hp2
  · intro u u1 u2 hcu h1 h2
    have a1 := Reordered.alike u u1 h1.outcome.1
    have a2 := Reordered.alike u u2 h2.outcome.1
    exact findChild_alike u1 u2 (Alike.trans u1 u u2 (Alike.symm u u1 a1) a2)
      (Reordered.keeps_level compressed_of_segs_perm u u1 h1.outcome.1 hcu)
      (everyLevel_mono paramLast_of_ordered u1 h1.outcome.2)
      (Reordered.keeps_level compressed_of_segs_perm u u2 h2.outcome.1 hcu)
      (everyLevel_mono paramLast_of_ordered u2 h2.outcome.2)

/-- Witness of C19: the siblings `a` and `b` under `/`, exchanged by `sort`. -/
theorem lookup_independent_of_literal_order_witness :
    everyLevel compressed abTree = true ∧ everyLevel paramLast abTree = true ∧
    Reordered abTree baTree ∧ everyLevel paramLast baTree = true ∧
    ((∀ path acc, answer (findChild baTree path acc) = answer (findChild abTree path acc)) ∧
      ∀ u u1 u2, everyLevel compressed u = true → AfterSort u u1 → AfterSort u u2 →
        ∀ path acc, answer (findChild u2 path acc) = answer (findChild u1 path acc)) :=
  ⟨by decide, by decide, (show sort abTree = baTree from rfl) ▸ sort_reordered abTree,
    by decide,
    lookup_independent_of_literal_order abTree baTree (by decide) (by decide)
      ((show sort abTree = baTree from rfl) ▸ sort_reordered abTree) (by decide)⟩

/-- C20, evaluated at a counterexample with an empty path.  The tree `acdbTree` is reached
by the calls for `ac`, `ad` and `b`, all with non-empty paths and `firstLevel = true`.  The
calls `makeChild("", nil, nil, true)` and `makeChild("bx", nil, 4, true)` succeed on it in
both orders.  The empty path splits the first node `a` and leaves a node with the empty
segment on top: made first, it takes the route `bx` below itself; made last, `bx` is
already below `b`.  Both trees are left as they are by `sort`.  For the request `bx` the
first tree gives the handler 4; in the second the node with the empty segment finds
nothing below itself and `isWildcard` reads the byte before its empty segment, a run-time
panic. -/
theorem registration_order_matters_for_empty_path :
    (∀ c ∈ acdbCalls, c.path ≠ [] ∧ c.firstLevel = true) ∧
    runCalls acdbCalls [] = some acdbTree ∧
    runCalls [Call.mk [] [] none true, Call.mk (str "bx") [] (some 4) true] acdbTree
      = some emptyThenBx ∧
    runCalls [Call.mk (str "bx") [] (some 4) true, Call.mk [] [] none true] acdbTree
      = some bxThenEmpty ∧
    sort emptyThenBx = emptyThenBx ∧ sort bxThenEmpty = bxThenEmpty ∧
    findChild (sort emptyThenBx) (str "bx") []
      = some (some (Node.mk (str "bx") [] [] (some 4) false), []) ∧
    findChild (sort bxThenEmpty) (str "bx") [] = none ∧
    answer (findChild (sort bxThenEmpty) (str "bx") [])
      ≠ answer (findChild (sort emptyThenBx) (str "bx") []) :=
  ⟨by decide, rfl, rfl, rfl, rfl, rfl, rfl, rfl, by decide⟩

/-- C20, amended to non-empty paths `p` and `q`: registration order does not change
matching.  Let `t` be reached from the empty list by successful `makeChild` calls with
non-empty paths and `firstLevel = true`, and let `p` and `q` be non-empty.  Then the calls
`makeChild(p, ps, hp, true)` and `makeChild(q, qs, hq, true)` made in this order on `t`
fail if and only if they fail in the other order; and when both orders succeed, any tree
`sort` may leave of the one result and any tree it may leave of the other give the same
handler and the same parameter values from `findChild`, for every request path. -/
theorem registration_order_independent (cs : List Call) (t : List Node)
    (hcs : ∀ c ∈ cs, c.path ≠ [] ∧ c.firstLevel = true) (hrun : runCalls cs [] = some t)
    (p q : Str) (ps qs : List Str) (hp hq : Option Handler) (hpne : p ≠ []) (hqne : q ≠ []) :
    (runCalls [Call.mk p ps hp true, Call.mk q qs hq true] t = none ↔
      runCalls [Call.mk q qs hq true, Call.mk p ps hp true] t = none) ∧
    ∀ t12 t21, runCalls [Call.mk p ps hp true, Call.mk q qs hq true] t = some t12 →
      runCalls [Call.mk q qs hq true, Call.mk p ps hp true] t = some t21 →
      ∀ s12 s21, AfterSort t12 s12 → AfterSort t21 s21 →
        ∀ path acc, answer (findChild s21 path acc) = answer (findChild s12 path acc) := by
  have hc : everyLevel compressed t = true :=
    runCalls_segsNonEmpty (fun c hm => (hcs c hm).1) hrun
  have hf : Flagged true t = true :=
    runCalls_flagged (fun c hm => (hcs c hm).2) (show Flagged true [] = true from rfl) hrun
  constructor
  · rw [runCalls_pair_fails _ _ t hpne hqne hc, runCalls_pair_fails _ _ t hqne hpne hc]
    simp only [Call.path, Call.handler]
    rw [@eq_comm _ q p]
    generalize (∃ qs h, (p, qs, h) ∈ routes t) = rp
    generalize (∃ qs h, (q, qs, h) ∈ routes t) = rq
    tauto
  · intro t12 t21 h12 h21 s12 s21 ha12 ha21 path acc
    rw [runCalls_pair] at h12 h21
    obtain ⟨t1, hm1, hm12⟩ := h12
    obtain ⟨t2, hm2, hm21⟩ := h21
    have i1 := makeChild_ok_ins hm1
    have i12 := makeChild_ok_ins hm12
    have i2 := makeChild_ok_ins hm2
    have i21 := makeChild_ok_ins hm21
    simp only [Call.path, Call.handler, Call.params, Call.firstLevel] at i1 i12 i2 i21
    have hal : Alike t12 t21 := insOk_commute i1 i12 i2 i21 hpne hqne hc hf
    have hc12 := i12.keeps_compressed hqne (i1.keeps_compressed hpne hc)
    have hc21 := i21.keeps_compressed hpne (i2.keeps_compressed hqne hc)
    have a1 := Reordered.alike t12 s12 ha12.outcome.1
    have a2 := Reordered.alike t21 s21 ha21.outcome.1
    refine findChild_alike s12 s21 ?_
      (Reordered.keeps_level compressed_of_segs_perm t12 s12 ha12.outcome.1 hc12)
      (everyLevel_mono paramLast_of_ordered s12 ha12.outcome.2)
      (Reordered.keeps_level compressed_of_segs_perm t21 s21 ha21.outcome.1 hc21)
      (everyLevel_mono paramLast_of_ordered s21 ha21.outcome.2) path acc
    exact Alike.trans s12 t12 s21 (Alike.symm t12 s12 a1) (Alike.trans t12 t21 s21 hal a2)

/-- Witness of C20 as amended: the routes `ae` and `bx` on the tree of `ac`, `ad`, `b`. -/
theorem registration_order_independent_witness :
    (∀ c ∈ acdbCalls, c.path ≠ [] ∧ c.firstLevel = true) ∧
    runCalls acdbCalls [] = some acdbTree ∧ str "ae" ≠ [] ∧ str "bx" ≠ [] ∧
    ((runCalls [Call.mk (str "ae") [] (some 5) true, Call.mk (str "bx") [] (some 4) true]
        acdbTree = none ↔
      runCalls [Call.mk (str "bx") [] (some 4) true, Call.mk (str "ae") [] (some 5) true]
        acdbTree = none) ∧
    ∀ t12 t21,
      runCalls [Call.mk (str "ae") [] (some 5) true, Call.mk (str "bx") [] (some 4) true]
        acdbTree = some t12 →
      runCalls [Call.mk (str "bx") [] (some 4) true, Call.mk (str "ae") [] (some 5) true]
        acdbTree = some t21 →
      ∀ s12 s21, AfterSort t12 s12 → AfterSort t21 s21 →
        ∀ path acc, answer (findChild s21 path acc) = answer (findChild s12 path acc)) :=
  ⟨by decide, rfl, by decide, by decide,
    registration_order_independent acdbCalls acdbTree (by decide) rfl (str "ae") (str "bx")
      [] [] (some 5) (some 4) (by decide) (by decide)⟩

end Router
